import Mathlib

/-!
Verification of the verkle-trie core (`verkle-trie/src/trie.rs`) and the
KZG Lagrange-basis helpers (`src/kzg10/lagrange/mod.rs`,
`src/kzg10/commit_key_lag/schemes/multi_point.rs`) of the rust-verkle
repository, as a shallow embedding in Lean 4.

Keys, stems and branch paths are byte sequences, embedded as `List ℕ`.
The scalar field `Fr` is embedded as an arbitrary commutative ring `F`
(instantiated with `ZMod` of the concrete modulus for evaluations), the
curve group `EdwardsProjective` as an arbitrary `F`-module `G`, the SRS
as a function `srs : ℕ → G` and `group_to_field` as a function
`gtf : G → F`; the claims under study hold or fail uniformly in these
parameters, except where a hypothesis (recorded in each theorem) is
needed.

The storage layer (`MemoryDb` / `ReadWriteHigherDb`), `byte_arr::Key`,
`group_to_field`, `two_pow_128` and the `Committer` trait are not part
of the provided sources; they are modelled from the specification
(spec.md §§2, 3, 4.1, 4.2) and from the constraints the in-repo tests of
`trie.rs` place on them.  Every such definition is marked
`Modelled from the spec:` in its doc comment.  All code of `trie.rs`
itself is embedded directly from the source.
-/

set_option maxRecDepth 200000

set_option linter.unusedSectionVars false

namespace VT

/-- Pointwise update of a table (the write primitive of the in-memory store). -/
def upd {α β : Type} [DecidableEq α] (f : α → β) (a : α) (b : β) : α → β :=
  fun x => if x = a then b else f x

/-- `Pre a b` means the byte sequence `a` is a prefix of `b`.
(Own definition, via `take`, to keep the development self-contained.) -/
def Pre (a b : List ℕ) : Prop := b.take a.length = a

instance : DecidablePred fun p : List ℕ × List ℕ => Pre p.1 p.2 := by
  intro p; unfold Pre; infer_instance

instance (a b : List ℕ) : Decidable (Pre a b) := by
  unfold Pre; infer_instance

section Trie

variable {F : Type} [CommRing F] {G : Type} [AddCommGroup G] [Module F G]

/-- `StemMeta` (from `verkle-trie/src/database` as described by spec.md §3):
the commitments and field hashes stored for a stem. -/
structure StemMeta (F G : Type) where
  C_1 : G
  hash_c1 : F
  C_2 : G
  hash_c2 : F
  stem_commitment : G
  hash_stem_commitment : F

/-- `BranchMeta`: commitment data stored for a branch (internal) node. -/
structure BranchMeta (F G : Type) where
  commitment : G
  hash_commitment : F

/-- `BranchMeta::zero()`.  Modelled from the spec: §3 "root created eagerly
with zero commitment" and invariant I5 (`compute_root()` of the empty trie
is `0`, checked by the in-repo test `empty_trie`): both components zero. -/
def BranchMeta.zero : BranchMeta F G := ⟨0, 0⟩

/-- The child of a branch slot as reported by `get_branch_child`: either a
stem (31 key bytes) or a branch carrying its `BranchMeta`. -/
inductive Child (F G : Type) where
  | stem (st : List ℕ)
  | branch (meta : BranchMeta F G)

/-- Modelled from the spec: the storage layer (§4.1) keeps three tables -
Leaf, Stem, Branch - plus the child-index map written by
`add_stem_as_branch_child(path ++ [i], stem, depth)`, which is keyed by
the child path `path ++ [i]`.  Depth arguments are cache-tier hints
(§4.1 two-tier policy) and do not affect the values any read returns, so
they are not part of the state. -/
structure Store (F G : Type) where
  leafTable : List ℕ → Option (List ℕ)
  stemTable : List ℕ → Option (StemMeta F G)
  branchTable : List ℕ → Option (BranchMeta F G)
  stemChildTable : List ℕ → Option (List ℕ)

/-- Modelled from the spec: `get_branch_child(branch_path, i)` (§3
child-index map).  A branch child is visible whenever the branch table
holds `path ++ [i]` (branches are keyed by their path, so creating a
branch attaches it); otherwise the stem-child map is consulted, so a
branch created by a chain insert shadows the stale stem entry at the
same slot. -/
def getBranchChild (s : Store F G) (path : List ℕ) (i : ℕ) : Option (Child F G) :=
  match s.branchTable (path ++ [i]) with
  | some m => some (.branch m)
  | none => (s.stemChildTable (path ++ [i])).map .stem

/-- Modelled from the spec: `insert_leaf(key, val, depth)` returns the
previous value (§4.1). -/
def insertLeaf (s : Store F G) (key value : List ℕ) (_depth : ℕ) :
    Option (List ℕ) × Store F G :=
  (s.leafTable key, { s with leafTable := upd s.leafTable key (some value) })

/-- Modelled from the spec: `insert_stem(stem, meta, depth)` (§4.1). -/
def insertStem (s : Store F G) (stem : List ℕ) (meta : StemMeta F G) (_depth : ℕ) :
    Store F G :=
  { s with stemTable := upd s.stemTable stem (some meta) }

/-- Modelled from the spec: `insert_branch(path, meta, depth)` returning the
previous value (used by `Trie::new`'s assert). -/
def insertBranch (s : Store F G) (path : List ℕ) (meta : BranchMeta F G) (_depth : ℕ) :
    Option (BranchMeta F G) × Store F G :=
  (s.branchTable path, { s with branchTable := upd s.branchTable path (some meta) })

/-- `insert_branch` when the caller discards the previous value. -/
def insertBranchStore (s : Store F G) (path : List ℕ) (meta : BranchMeta F G)
    (depth : ℕ) : Store F G :=
  (insertBranch s path meta depth).2

/-- Modelled from the spec: `add_stem_as_branch_child(path ++ [i], stem, depth)`
(§4.1) records in the child-index map that the slot points to the stem. -/
def addStemAsBranchChild (s : Store F G) (branchChildId stem : List ℕ) (_depth : ℕ) :
    Store F G :=
  { s with stemChildTable := upd s.stemChildTable branchChildId (some stem) }

/-- Modelled from the spec: `Fr::from_le_bytes_mod_order` - interpret the
bytes little-endian and reduce into the field (§6 canonical little-endian
field serialization). -/
def frLe (bytes : List ℕ) : F := ((Nat.ofDigits 256 bytes : ℕ) : F)

/-- Modelled from the spec: `two_pow_128()`, the first-occupation bias
constant `2¹²⁸` (§3 invariant I4, §9 design notes). -/
def twoPow128 : F := (2 : F) ^ 128

/-- Modelled from the spec: `Committer::scalar_mul(s, i)` multiplies the
scalar against the `i`-th SRS basis element (§2). -/
def scalarMul (srs : ℕ → G) (x : F) (i : ℕ) : G := x • srs i

/-- The ambient cryptographic context of the trie: the SRS basis (`SRS`,
spec.md §2) and the group-to-field map `group_to_field` (spec.md §2).
Both are external collaborators of `trie.rs`; the embedding is
parametric in them. -/
structure Ctx (F G : Type) where
  gtf : G → F
  srs : ℕ → G

/-- Modelled from the spec: `Key::path_difference(a, b)` (§4.2, width 8, so
one path index per byte) - the longest common prefix of the two byte
sequences together with the first differing byte of each (`none, none`
iff they are equal). -/
def pathDifference : List ℕ → List ℕ → List ℕ × Option ℕ × Option ℕ
  | [], [] => ([], none, none)
  | [], b :: _ => ([], none, some b)
  | a :: _, [] => ([], some a, none)
  | a :: as, b :: bs =>
    if a = b then
      let r := pathDifference as bs
      (a :: r.1, r.2.1, r.2.2)
    else ([], some a, some b)

/-- The instruction type `Ins` of `trie.rs`.  `old_child_value` is built by
the planner from `child.branch().map(Meta::from)` and consumed through
`Meta::into_branch`, so it is embedded directly as an optional
`BranchMeta`. -/
inductive Ins (F G : Type) where
  | updateLeaf (key new_leaf_value : List ℕ) (depth : ℕ)
      (branch_id : List ℕ) (branch_child_index : ℕ)
  | chainInsert (starting_depth : ℕ) (chain_insert_path : List ℕ)
      (parent_branch_node : List ℕ) (child_index old_leaf_index : ℕ)
      (new_leaf_key new_leaf_value : List ℕ) (new_leaf_index : ℕ)
  | internalNodeFallThrough (branch_id : List ℕ) (branch_child_index : ℕ)
      (child : List ℕ) (old_child_value : Option (BranchMeta F G)) (depth : ℕ)

/-- The loop body of `create_insert_instructions` (trie.rs L122-253),
recursing over the remaining path indices.  `loopIndex` starts at 1.
Rust panics (failing `assert!` / `unwrap`) are embedded as `none`. -/
def planLoop (s : Store F G) (keyBytes valueBytes : List ℕ) :
    List ℕ → ℕ → List ℕ → List (Ins F G) → Option (List (Ins F G))
  | [], _, _, acc => some acc
  | pathIndex :: rest, loopIndex, currentNodeIndex, acc =>
    match getBranchChild s currentNodeIndex pathIndex with
    | none =>
      -- Case 1: the child was empty; this is a new leaf.
      some (acc ++ [.updateLeaf keyBytes valueBytes loopIndex currentNodeIndex pathIndex])
    | some (.branch bm) =>
      -- Case 2: an internal node; fall through.
      let nodePath := currentNodeIndex ++ [pathIndex]
      planLoop s keyBytes valueBytes rest (loopIndex + 1) nodePath
        (acc ++ [.internalNodeFallThrough currentNodeIndex pathIndex nodePath (some bm) loopIndex])
    | some (.stem childStem) =>
      let pd := pathDifference childStem (keyBytes.take 31)
      if pd.1.length = 31 then
        -- Case 3a: the key belongs under this stem.
        let oldLeafVal := (s.leafTable keyBytes).getD (List.replicate 32 0)
        if pd.2.1 = none then
          if pd.2.2 = none then
            if oldLeafVal = valueBytes then some []
            else some (acc ++ [.updateLeaf keyBytes valueBytes loopIndex currentNodeIndex pathIndex])
          else none   -- assert!(path_diff_new.is_none()) fails
        else some (acc ++ [.updateLeaf keyBytes valueBytes loopIndex currentNodeIndex pathIndex])
      else
        -- Case 3b: shared path shorter than 31; chain insert.
        match pd.2.1, pd.2.2 with
        | some pDiffOld, some pDiffNew =>
          some (acc ++ [.chainInsert loopIndex (pd.1.drop (loopIndex - 1)) currentNodeIndex
            pathIndex pDiffOld keyBytes valueBytes pDiffNew])
        | _, _ => none   -- path_diff unwrap fails

/-- `create_insert_instructions` (trie.rs L122): plan the writes for
`insert(key, value)` by a read-only walk from the root; the path indices
of a key are its bytes, MSB first (spec.md §3). -/
def createInsertInstructions (s : Store F G) (keyBytes valueBytes : List ℕ) :
    Option (List (Ins F G)) :=
  planLoop s keyBytes valueBytes keyBytes 1 [] []

/-- `paths_from_relative` (trie.rs L466): all extensions of `parentPath` by
nonempty prefixes of `relativePaths`; the `assert!` on nonemptiness is
embedded as `none`. -/
def pathsFromRelative (parentPath relativePaths : List ℕ) : Option (List (List ℕ)) :=
  if relativePaths.length = 0 then none
  else some ((List.range relativePaths.length).map fun i => parentPath ++ relativePaths.take (i + 1))

/-- `LeafUpdated` (trie.rs L477). -/
structure LeafUpdated where
  old_val : Option (List ℕ)
  new_value : List ℕ
  key : List ℕ

/-- `StemUpdated` (trie.rs L483). -/
structure StemUpdated (F : Type) where
  old_val : Option F
  new_val : F
  stem : List ℕ

/-- `update_leaf_table` (trie.rs L500): store the leaf (the write happens
first), returning `none` if the newly inserted value equals the previous
one. -/
def updateLeafTable (s : Store F G) (key value : List ℕ) (depth : ℕ) :
    Store F G × Option LeafUpdated :=
  let r := insertLeaf s key value depth
  match r.1 with
  | some v => if v = value then (r.2, none) else (r.2, some ⟨some v, value, key⟩)
  | none => (r.2, some ⟨none, value, key⟩)

/-- The pure meta computation of `update_stem_table` (trie.rs L527-L663):
given the currently stored stem metadata (if any), the key and the
`LeafUpdated` data, it returns the new `StemMeta` together with the old
`hash_stem_commitment` (if the stem existed).  Split the value into
16-byte halves, form the two deltas (the `two_pow_128()` bias is added
to `delta_low` unconditionally, exactly as in the source), update `C_1`
or `C_2` according to the slot `key[31]`, then update the stem
commitment by the hash delta. -/
def stemMetaNext (c : Ctx F G) (old : Option (StemMeta F G)) (ul : LeafUpdated) :
    StemMeta F G × Option F :=
  let newValueLow16 := ul.new_value.take 16
  let newValueHigh16 := ul.new_value.drop 16
  let oldHalves : List ℕ × List ℕ :=
    match ul.old_val with
    | some v => (v.take 16, v.drop 16)
    | none => (List.replicate 16 0, List.replicate 16 0)
  let deltaLow : F := frLe newValueLow16 + twoPow128 - frLe oldHalves.1
  let deltaHigh : F := frLe newValueHigh16 - frLe oldHalves.2
  let position := ul.key.getD 31 0
  let posMod128 := position % 128
  let lowIndex := 2 * posMod128
  let highIndex := lowIndex + 1
  let generatorLow := scalarMul c.srs deltaLow lowIndex
  let generatorHigh := scalarMul c.srs deltaHigh highIndex
  let stem := ul.key.take 31
  let cur : G × F × G × F × G × Option F :=
    match old with
    | some m => (m.C_1, m.hash_c1, m.C_2, m.hash_c2, m.stem_commitment,
        some m.hash_stem_commitment)
    | none =>
      -- first leaf for this stem: C1 = C2 = 0, stem_comm = G_0 + stem · G_1
      ((0 : G), c.gtf 0, (0 : G), c.gtf 0, c.srs 0 + scalarMul c.srs (frLe stem : F) 1, none)
  let upd5 : G × F × G × F × G :=
    if position < 128 then
      let updatedC1 := cur.1 + generatorLow + generatorHigh
      let newHashC1 := c.gtf updatedC1
      let c1Delta := newHashC1 - cur.2.1
      let c1Point := scalarMul c.srs c1Delta 2
      (updatedC1, newHashC1, cur.2.2.1, cur.2.2.2.1, cur.2.2.2.2.1 + c1Point)
    else
      let updatedC2 := cur.2.2.1 + generatorLow + generatorHigh
      let newHashC2 := c.gtf updatedC2
      let c2Delta := newHashC2 - cur.2.2.2.1
      let c2Point := scalarMul c.srs c2Delta 3
      (cur.1, cur.2.1, updatedC2, newHashC2, cur.2.2.2.2.1 + c2Point)
  let updatedHashStemComm := c.gtf upd5.2.2.2.2
  (⟨upd5.1, upd5.2.1, upd5.2.2.1, upd5.2.2.2.1, upd5.2.2.2.2, updatedHashStemComm⟩,
    cur.2.2.2.2.2)

/-- `update_stem_table` (trie.rs L527): compute the new stem metadata from
the stored one, store it, and report the old and new stem-commitment
hashes. -/
def updateStemTable (c : Ctx F G) (s : Store F G) (ul : LeafUpdated) (depth : ℕ) :
    Store F G × StemUpdated F :=
  let stem := ul.key.take 31
  let r := stemMetaNext c (s.stemTable stem) ul
  let s' := insertStem s stem r.1 depth
  (s', ⟨r.2, r.1.hash_stem_commitment, stem⟩)

/-- `update_branch_table` (trie.rs L672): add the stem-hash delta at the
child's basis index, rehash, and register the stem in the child map. -/
def updateBranchTable (c : Ctx F G) (s : Store F G) (su : StemUpdated F) (branchId : List ℕ)
    (branchIndex depth : ℕ) : Option (Store F G × F) :=
  match s.branchTable branchId with
  | none => none   -- get_branch_meta unwrap fails
  | some oldMeta =>
    let oldStemHash := su.old_val.getD 0
    let delta := su.new_val - oldStemHash
    let deltaComm := scalarMul c.srs delta branchIndex
    let updatedBranchComm := oldMeta.commitment + deltaComm
    let hashUpdated := c.gtf updatedBranchComm
    let s1 := insertBranchStore s branchId ⟨updatedBranchComm, hashUpdated⟩ depth
    let s2 := addStemAsBranchChild s1 (branchId ++ [branchIndex]) su.stem depth
    some (s2, hashUpdated)

/-- Execution of a single `InternalNodeFallThrough` (trie.rs L258-297). -/
def execFallThrough (c : Ctx F G) (s : Store F G) (branchId : List ℕ) (branchChildIndex : ℕ)
    (child : List ℕ) (oldChildValue : Option (BranchMeta F G)) (depth : ℕ) :
    Option (Store F G) :=
  match s.branchTable child with
  | none => none   -- get_branch_meta(child) unwrap fails
  | some newBranchMeta =>
    let newHashComm := newBranchMeta.hash_commitment
    let oldHashComm : F :=
      match oldChildValue with
      | some oldMeta => oldMeta.hash_commitment
      | none => 0
    let delta := newHashComm - oldHashComm
    let deltaComm := scalarMul c.srs delta branchChildIndex
    match s.branchTable branchId with
    | none => none   -- get_branch_meta(branch_id) unwrap fails
    | some oldParent =>
      let updatedComm := oldParent.commitment + deltaComm
      some (insertBranchStore s branchId ⟨updatedComm, c.gtf updatedComm⟩ depth)

/-- One step of the bottom-up chain walk of `ChainInsert` (trie.rs
L405-425): the accumulator holds the store and the hash of the inner node
just below; the pair `pr` holds the child path index and the parent
branch path.  The freshly created parent's commitment is the child hash
times the basis element at the child index (its old value is zero). -/
def chainStep (c : Ctx F G) (acc : Store F G × F) (pr : ℕ × List ℕ) : Store F G × F :=
  let updatedComm := scalarMul c.srs acc.2 pr.1
  let branchRoot := c.gtf updatedComm
  (insertBranchStore acc.1 pr.2 ⟨updatedComm, branchRoot⟩ pr.2.length, branchRoot)

/-- Execution of a single `ChainInsert` (trie.rs L320-451). -/
def execChainInsert (c : Ctx F G) (s : Store F G) (startingDepth : ℕ) (chainInsertPath : List ℕ)
    (parentBranchNode : List ℕ) (childIndex oldLeafIndex : ℕ)
    (newLeafKey newLeafValue : List ℕ) (newLeafIndex : ℕ) : Option (Store F G) := do
  if chainInsertPath.length = 0 then none else   -- assert!(chain_insert_path.len() > 0)
  do
  let innerNodePaths ← pathsFromRelative parentBranchNode chainInsertPath
  let oldChild ← getBranchChild s parentBranchNode childIndex
  let oldStemChild ← (match oldChild with
    | .stem st => some st
    | .branch _ => none)   -- old_child.stem().unwrap()
  -- 2a. create the bottom inner node
  let bottomInnerNodePath ← innerNodePaths.getLast?   -- inner_node_paths.pop().unwrap()
  let poppedPaths := innerNodePaths.dropLast
  let bottomInodeDepth := bottomInnerNodePath.length
  let s1 := insertBranchStore s bottomInnerNodePath BranchMeta.zero bottomInodeDepth
  -- 2b. insert the new leaf through the leaf → stem → branch pipeline
  let r2 := updateLeafTable s1 newLeafKey newLeafValue bottomInodeDepth
  let lu ← r2.2   -- update_leaf_table(..).unwrap()
  let r3 := updateStemTable c r2.1 lu bottomInodeDepth
  let r4 ← updateBranchTable c r3.1 r3.2 bottomInnerNodePath newLeafIndex bottomInodeDepth
  -- attach the old stem as the second child of the bottom node
  let stemMetaData ← r4.1.stemTable oldStemChild   -- get_stem_meta unwrap
  let oldStemUpdated : StemUpdated F := ⟨none, stemMetaData.hash_stem_commitment, oldStemChild⟩
  let r5 ← updateBranchTable c r4.1 oldStemUpdated bottomInnerNodePath oldLeafIndex bottomInodeDepth
  -- 3. walk the freshly created chain bottom-up
  let chainFold : Store F G × F :=
    (chainInsertPath.reverse.zip poppedPaths.reverse).foldl (chainStep c) (r5.1, r5.2)
  -- 4. update the parent branch that previously held the stem
  let delta := chainFold.2 - stemMetaData.hash_stem_commitment
  let topParent ← chainFold.1.branchTable parentBranchNode
  let updatedTopComm := topParent.commitment + scalarMul c.srs delta childIndex
  some (insertBranchStore chainFold.1 parentBranchNode
    ⟨updatedTopComm, c.gtf updatedTopComm⟩ startingDepth)

/-- The reversed-order instruction processor: `process_instructions`
(trie.rs L255) iterates `instructions.into_iter().rev()`; this function
consumes the already-reversed list.  The `return` on a no-op leaf update
stops the whole run, keeping the state written so far. -/
def processRev (c : Ctx F G) (s : Store F G) : List (Ins F G) → Option (Store F G)
  | [] => some s
  | ins :: rest =>
    match ins with
    | .internalNodeFallThrough branchId bci child oldVal depth =>
      match execFallThrough c s branchId bci child oldVal depth with
      | none => none
      | some s' => processRev c s' rest
    | .updateLeaf key newLeafValue depth branchId bci =>
      let r := updateLeafTable s key newLeafValue depth
      match r.2 with
      | none => some r.1   -- no value was updated: early exit
      | some lu =>
        let r2 := updateStemTable c r.1 lu depth
        match updateBranchTable c r2.1 r2.2 branchId bci depth with
        | none => none
        | some r3 => processRev c r3.1 rest
    | .chainInsert sd path parent ci oli nk nv nli =>
      match execChainInsert c s sd path parent ci oli nk nv nli with
      | none => none
      | some s' => processRev c s' rest

/-- `process_instructions` (trie.rs L255): execute in reverse order. -/
def processInstructions (c : Ctx F G) (s : Store F G) (instructions : List (Ins F G)) :
    Option (Store F G) :=
  processRev c s instructions.reverse

/-- `Trie::insert` (trie.rs L111): plan, then execute. -/
def insert (c : Ctx F G) (s : Store F G) (keyBytes valueBytes : List ℕ) : Option (Store F G) := do
  let ins ← createInsertInstructions s keyBytes valueBytes
  processInstructions c s ins

/-- `Trie::get` (trie.rs L455). -/
def get (s : Store F G) (key : List ℕ) : Option (List ℕ) := s.leafTable key

/-- `compute_root` (trie.rs L490): the hash commitment of the root branch. -/
def computeRoot (s : Store F G) : Option F :=
  (s.branchTable []).map (·.hash_commitment)

/-- The completely empty store backing a fresh `MemoryDb`. -/
def emptyStore : Store F G := ⟨fun _ => none, fun _ => none, fun _ => none, fun _ => none⟩

/-- `Trie::new` (trie.rs L93): add a zero root branch if the root is
missing; the `assert!(old_val.is_none())` is embedded as `none`. -/
def trieNew (s : Store F G) : Option (Store F G) :=
  if (s.branchTable []).isSome then some s
  else
    let r := insertBranch s [] BranchMeta.zero 0
    if r.1.isSome then none else some r.2

/-- The store of a freshly created trie over an empty database. -/
def emptyTrie : Store F G := insertBranchStore emptyStore [] BranchMeta.zero 0

/-- Inserting a list of (key, value) pairs in order, starting from a given
store (failure propagates). -/
def insertList (c : Ctx F G) (s : Store F G) : List (List ℕ × List ℕ) → Option (Store F G)
  | [] => some s
  | kv :: rest => do
    let s' ← insert c s kv.1 kv.2
    insertList c s' rest

/-- The spec's recomputation of bank `C_b` of a stem from the stored leaf
contents (spec.md invariant I4, stated by claim C4): each occupied slot
`p` with `n = p mod 128` contributes
`(value_low + 2¹²⁸)·G_{2n} + value_high·G_{2n+1}` to `C_1` if `p < 128`
(bank `b = 0`) and to `C_2` otherwise (bank `b = 1`); empty slots
contribute zero. -/
def specBank (c : Ctx F G) (s : Store F G) (stem : List ℕ) (b : ℕ) : G :=
  ∑ n ∈ Finset.range 128,
    match s.leafTable (stem ++ [128 * b + n]) with
    | none => 0
    | some v =>
        scalarMul c.srs (frLe (v.take 16) + twoPow128 : F) (2 * n) +
        scalarMul c.srs (frLe (v.drop 16) : F) (2 * n + 1)

/-- The stored `hash_stem_commitment` of a stem (0 if absent). -/
def stemHashOf (s : Store F G) (st : List ℕ) : F :=
  match s.stemTable st with
  | some sm => sm.hash_stem_commitment
  | none => 0

/-- The stem hash visible through the stem-child map at a child path. -/
def stemChildHash (s : Store F G) (q : List ℕ) : F :=
  match s.stemChildTable q with
  | some st => stemHashOf s st
  | none => 0

/-- The spec's hash of the child of a branch slot (spec.md invariant I2,
claim C3): `0` for an empty slot, the stem's `hash_stem_commitment` if
the slot holds a stem, the child branch's `hash_commitment` if it holds
a branch. -/
def childHash (s : Store F G) (q : List ℕ) : F :=
  match s.branchTable q with
  | some m => m.hash_commitment
  | none => stemChildHash s q

/-- The spec's recomputation of a branch commitment from its children
(spec.md invariant I2): `Σᵢ Gᵢ · hash_of_child(i)`. -/
def specBranchComm (c : Ctx F G) (s : Store F G) (p : List ℕ) : G :=
  ∑ i ∈ Finset.range 256, scalarMul c.srs (childHash s (p ++ [i])) i

/-- A well-formed 32-byte key. -/
def KeyOK (k : List ℕ) : Prop := k.length = 32 ∧ ∀ b ∈ k, b < 256

/-- A well-formed 32-byte value. -/
def ValOK (v : List ℕ) : Prop := v.length = 32

/-- The structural invariant of a trie store: branches form a
prefix-closed tree of short byte paths, every stem-child entry points
below an existing branch at a prefix of its (well-formed, stored) stem,
every stored stem is live-attached somewhere on its own path, and every
leaf has its stem stored. -/
structure StInv (s : Store F G) : Prop where
  root : s.branchTable [] ≠ none
  branchClosed : ∀ p q, s.branchTable p ≠ none → Pre q p → s.branchTable q ≠ none
  branchLen : ∀ p, s.branchTable p ≠ none → p.length ≤ 30
  branchBytes : ∀ p, s.branchTable p ≠ none → ∀ b ∈ p, b < 256
  stemChildOK : ∀ q st, s.stemChildTable q = some st →
    q ≠ [] ∧ Pre q st ∧ st.length = 31 ∧ (∀ b ∈ st, b < 256) ∧
      s.branchTable q.dropLast ≠ none ∧ s.stemTable st ≠ none
  stemAttached : ∀ st, s.stemTable st ≠ none →
    st.length = 31 ∧ (∀ b ∈ st, b < 256) ∧
      ∃ q, Pre q st ∧ s.stemChildTable q = some st ∧ s.branchTable q = none
  leafOK : ∀ k v, s.leafTable k = some v → k.length = 32 ∧ (∀ b ∈ k, b < 256) ∧
    v.length = 32 ∧ s.stemTable (k.take 31) ≠ none

/-- Commitment consistency (spec.md I2) of every stored branch outside an
exception set `E` (the exceptions are the mid-execution stale ancestors
of `process_instructions`). -/
def Consist (c : Ctx F G) (s : Store F G) (E : List ℕ → Prop) : Prop :=
  ∀ p m, s.branchTable p = some m → ¬ E p →
    m.hash_commitment = c.gtf m.commitment ∧ m.commitment = specBranchComm c s p

/-- The full invariant: structure plus consistency with no exceptions. -/
def Inv (c : Ctx F G) (s : Store F G) : Prop :=
  StInv s ∧ Consist c s (fun _ => False)

/-- A branch whose stored commitment is correct except that the child at
slot `i` still contributes the stale hash `oldh` instead of its current
one. -/
def StaleAt (c : Ctx F G) (s : Store F G) (p : List ℕ) (i : ℕ) (oldh : F) : Prop :=
  ∃ m, s.branchTable p = some m ∧ m.hash_commitment = c.gtf m.commitment ∧
    m.commitment + (childHash s (p ++ [i]) - oldh) • c.srs i = specBranchComm c s p

/-- The exception set of the walk: the proper prefixes `k.take 0, …,
k.take (d-1)` of the key's path. -/
def WalkE (k : List ℕ) (d : ℕ) : List ℕ → Prop := fun p => ∃ j, j < d ∧ p = k.take j

/-- States reachable from a freshly created trie over an empty database by
`insert` calls with well-formed keys and values. -/
inductive Reachable (c : Ctx F G) : Store F G → Prop where
  | base : Reachable c emptyTrie
  | step {s s' : Store F G} {k v : List ℕ} : Reachable c s → KeyOK k → ValOK v →
      insert c s k v = some s' → Reachable c s'

/-- The `t` fall-through instructions recorded by the planner's walk down
the key `k` starting at level `j`: the instruction at level `j' + 1`
(`j ≤ j' < j + t`) updates the branch `k.take j'` for its child at slot
`k[j']`, recording the child branch's planning-time metadata. -/
def ftSeg (s : Store F G) (k : List ℕ) : ℕ → ℕ → List (Ins F G)
  | _, 0 => []
  | j, t + 1 =>
    Ins.internalNodeFallThrough (k.take j) (k.getD j 0) (k.take (j + 1))
      (s.branchTable (k.take (j + 1))) (j + 1) :: ftSeg s k (j + 1) t

/-- The stale child hash recorded for the walk branch `k.take j`: the
planning-time hash of the child branch `k.take (j + 1)`. -/
def oldWalkHash (s : Store F G) (k : List ℕ) (j : ℕ) : F :=
  match s.branchTable (k.take (j + 1)) with
  | some m => m.hash_commitment
  | none => 0

end Trie

section Lagrange

variable {F : Type} [CommRing F] [DecidableEq F] {G : Type}

/-- 64-bit `usize::wrapping_sub` (`index.wrapping_sub(i)` in
kzg10/lagrange/mod.rs L77/L89); both operands are `usize` values below
`2⁶⁴` at every use. -/
def wsub (a b : ℕ) : ℕ := (a + (2 ^ 64 - b)) % 2 ^ 64

/-- The off-index entry of the quotient vector of
`LagrangeBasis::divide_by_linear_vanishing` (kzg10/lagrange/mod.rs
L70-80): `(f[i] − y) · dom[(D − i) % D] · inv[(idx − i).rem_euclid(D)]`
with `y = f[idx]`, where the index subtraction is the 64-bit wrapping
subtraction of the source and `rem_euclid` on `usize` is `%`. -/
def divCol (idx : ℕ) (f inv dom : List F) (i : ℕ) : F :=
  (f.getD i 0 - f.getD idx 0) * dom.getD ((dom.length - i) % dom.length) 0 *
    inv.getD (wsub idx i % dom.length) 0

/-- The entry of the quotient vector at `index` itself
(kzg10/lagrange/mod.rs L82-91):
`Σᵢ (if i = idx then 0 else −dom[(i − idx).rem_euclid(D)] · quot_i)`. -/
def divIdx (idx : ℕ) (f inv dom : List F) : F :=
  ∑ i ∈ Finset.range f.length,
    if i = idx then 0
    else -(dom.getD (wsub i idx % dom.length) 0) * divCol idx f inv dom i

/-- `LagrangeBasis::divide_by_linear_vanishing(index, f_x, inv, domain_elements)`
(kzg10/lagrange/mod.rs L58-105): the quotient vector, one entry per
value of `f_x`. -/
def divideByLinearVanishing (idx : ℕ) (f inv dom : List F) : List F :=
  (List.range f.length).map fun i =>
    if i = idx then divIdx idx f inv dom else divCol idx f inv dom i

/-- `iter().position(|f| f == point)` (kzg10/lagrange/mod.rs L48): the
index of the first occurrence of a value. -/
def findPos (x : F) : List F → Option ℕ
  | [] => none
  | a :: rest => if a = x then some 0 else (findPos x rest).map (· + 1)

/-- `LagrangeBasis::divide_by_linear_vanishing_from_point`
(kzg10/lagrange/mod.rs L41-51): locate the point in the domain
(`position(..).unwrap()` embedded as `Option`), then divide. -/
def divideByLinearVanishingFromPoint (point : F) (f inv dom : List F) :
    Option (List F) :=
  (findPos point dom).map fun index => divideByLinearVanishing index f inv dom

/-- `LagrangeBasis::add_scalar` (kzg10/lagrange/mod.rs L18): pointwise `+`. -/
def addScalar (f : List F) (element : F) : List F := f.map (· + element)

/-- The claim's `f_j(X) − y_j` in Lagrange basis: pointwise subtraction of
the claimed evaluation (spec.md §4.4 step 4). -/
def subScalar (f : List F) (element : F) : List F := f.map (· - element)

/-- `LagrangeBasis::zero(num_points)` (kzg10/lagrange/mod.rs L26): the zero
vector over the domain; for the power-of-two sizes in use,
`domain.size() = num_points`. -/
def lagrangeZero (numPoints : ℕ) : List F := List.replicate numPoints 0

/-- `LagrangeBasis · scalar` (kzg10/lagrange/mod.rs L144): pointwise `·`. -/
def mulScalar (f : List F) (element : F) : List F := f.map (· * element)

/-- `LagrangeBasis + LagrangeBasis` (kzg10/lagrange/mod.rs L156):
pointwise `+`. -/
def zipAdd (f g : List F) : List F := List.zipWith (· + ·) f g

/-- Modelled from the spec: `util::powers_of(x, d) = [x⁰, …, x^d]` (the
in-src test `test_powers_of` in kzg10/srs.rs pins `powers_of(x, d)[i] = x^i`
with length `d + 1`; `util` itself is not among the provided sources). -/
def powersOf (x : F) (d : ℕ) : List F := (List.range (d + 1)).map (x ^ ·)

end Lagrange

section LagrangeField

variable {F : Type} [Field F] [DecidableEq F] {G : Type}

/-- Modelled from the spec: `CommitKeyLagrange::compute_inv(domain_elements)`
- the shared precomputed table `inv[k] = 1/(ω^k − 1)` for `k ∈ [1, D)`,
`inv[0]` unused (spec.md §4.3; `compute_inv` is not among the provided
sources). -/
def computeInv (dom : List F) : List F :=
  (List.range ((dom : List F).length)).map fun k =>
    if k = 0 then 0 else (dom.getD k 0 - 1)⁻¹

/-- The witnesses of all triples, in order: the per-triple computation of
`open_multipoint_lagrange` (multi_point.rs L65-79) builds
`divide_by_linear_vanishing_from_point(z_j, f_j.add_scalar(y_j), inv, dom)`
for each `((f_j, z_j), y_j)`; a failing `unwrap` inside any triple
aborts (embedded as `none`). -/
def witnessesCode (inv dom : List F) :
    List ((List F × F) × F) → Option (List (List F))
  | [] => some []
  | pr :: rest => do
    let w ← divideByLinearVanishingFromPoint pr.1.2 (addScalar pr.1.1 pr.2) inv dom
    let ws ← witnessesCode inv dom rest
    some (w :: ws)

/-- The witnesses as the claim states them: division of `f_j − y_j` at
`z_j` (this definition follows the spec's words, for comparison). -/
def witnessesSpec (inv dom : List F) :
    List ((List F × F) × F) → Option (List (List F))
  | [] => some []
  | pr :: rest => do
    let w ← divideByLinearVanishingFromPoint pr.1.2 (subScalar pr.1.1 pr.2) inv dom
    let ws ← witnessesSpec inv dom rest
    some (w :: ws)

/-- The labelled Fiat-Shamir transcript interface used by
`open_multipoint_lagrange` (spec.md §6): `append_point`,
`append_scalar` and `challenge_scalar` over an abstract state `S`. -/
structure TranscriptOps (F G S : Type) where
  appendPoint : String → G → S → S
  appendScalar : String → F → S → S
  challengeScalar : String → S → F × S

/-- The transcript state after the absorption phase of
`open_multipoint_lagrange` (multi_point.rs L32-53): each commitment
under `"f_x"` (computed by `commit_lagrange` when none are provided),
each point under `"value"`, each claimed evaluation under `"eval"`. -/
def absorbAll {S : Type} (T : TranscriptOps F G S) (commitL : List F → G)
    (lagrangePolys : List (List F)) (polyCommitments : Option (List G))
    (evaluations points : List F) (tr : S) : S :=
  let tr1 := match polyCommitments with
    | none => lagrangePolys.foldl (fun acc poly => T.appendPoint "f_x" (commitL poly) acc) tr
    | some commitments => commitments.foldl (fun acc pc => T.appendPoint "f_x" pc acc) tr
  let tr2 := points.foldl (fun acc point => T.appendScalar "value" point acc) tr1
  evaluations.foldl (fun acc ev => T.appendScalar "eval" ev acc) tr2

/-- The witness-aggregation prefix of `open_multipoint_lagrange`
(multi_point.rs L16-91): absorb each commitment under `"f_x"`
(committing when none are provided), each point under `"value"`, each
evaluation under `"eval"`; squeeze the challenge `r`; build each witness
as `divide_by_linear_vanishing_from_point(z_j, f_j.add_scalar(y_j))`
against the shared `inv` and `domain_elements` tables; fold
`g = Σ_j r^j · witness_j` in index order; commit `d_comm` to `g`.
Returns `(r, g, d_comm)`.  The domain element table `dom` stands for
`domain.elements()` of the shared `ark_poly` evaluation domain; the
committer `commitL` stands for `commit_lagrange`.  The remainder of the
function (challenge `t`, helper polynomial, aggregate opening) is not
consumed by any claim and is not embedded. -/
def openMultipointGx {S : Type} (T : TranscriptOps F G S) (commitL : List F → G)
    (lagrangePolys : List (List F)) (polyCommitments : Option (List G))
    (evaluations points : List F) (dom : List F) (tr : S) :
    Option (F × List F × G) := do
  let _ ← lagrangePolys.head?   -- .first().expect("expected at least one polynomial")
  let domainSize := dom.length
  let tr3 := absorbAll T commitL lagrangePolys polyCommitments evaluations points tr
  let inv := computeInv dom
  let r := (T.challengeScalar "r" tr3).1
  let rI := powersOf r (lagrangePolys.length - 1)
  let eachWitness ← witnessesCode inv dom ((lagrangePolys.zip points).zip evaluations)
  let gX := ((eachWitness.zip rI).map fun pr => mulScalar pr.1 pr.2).foldl
    zipAdd (lagrangeZero domainSize)
  let dComm := commitL gX
  some (r, gX, dComm)

/-- The same aggregation written the way the claim and spec.md §4.4 state
it: each witness is the Lagrange-basis division of `f_j − y_j`
(`subScalar`) at `z_j`.  This definition follows the spec's words; claim
C2 compares it with `openMultipointGx`, which follows the source. -/
def openMultipointGxSpec {S : Type} (T : TranscriptOps F G S) (commitL : List F → G)
    (lagrangePolys : List (List F)) (polyCommitments : Option (List G))
    (evaluations points : List F) (dom : List F) (tr : S) :
    Option (F × List F × G) := do
  let _ ← lagrangePolys.head?
  let domainSize := dom.length
  let tr3 := absorbAll T commitL lagrangePolys polyCommitments evaluations points tr
  let inv := computeInv dom
  let r := (T.challengeScalar "r" tr3).1
  let rI := powersOf r (lagrangePolys.length - 1)
  let eachWitness ← witnessesSpec inv dom ((lagrangePolys.zip points).zip evaluations)
  let gX := ((eachWitness.zip rI).map fun pr => mulScalar pr.1 pr.2).foldl
    zipAdd (lagrangeZero domainSize)
  let dComm := commitL gX
  some (r, gX, dComm)

end LagrangeField

section Concrete

/-- The order of the scalar field `Fr` of the bandersnatch curve
(`bandersnatch::Fr`), the field used by `trie.rs`. -/
def bandersnatchR : ℕ :=
  13108968793781547619861935127046491459309155893440570251786403306729687672801

/-- The concrete scalar field used for evaluating the embedding. -/
abbrev Frb := ZMod bandersnatchR

/-- A concrete instantiation of the trie's cryptographic context used to
evaluate the code on explicit inputs: the group is the field itself,
`group_to_field` is the identity (which satisfies `gtf 0 = 0`, the
property the in-repo tests `empty_trie` and `insert_key0value0` force on
`group_to_field`), and the SRS points are the nonzero scalars `i + 1`. -/
def ctxB : Ctx Frb Frb := ⟨id, fun i => ((i + 1 : ℕ) : Frb)⟩

/-- The all-zero 32-byte key. -/
def keyZero : List ℕ := List.replicate 32 0

/-- Its 31-byte stem. -/
def stemZero : List ℕ := List.replicate 31 0

/-- The all-zero 32-byte value. -/
def valZero : List ℕ := List.replicate 32 0

/-- The 32-byte value `01 00 ... 00` (little-endian low half `1`). -/
def valOne : List ℕ := 1 :: List.replicate 31 0

/-- The 32-byte value `02 00 ... 00` (little-endian low half `2`). -/
def valTwo : List ℕ := 2 :: List.replicate 31 0

/-- The key `00...00 01`: same stem as `keyZero`, leaf slot 1. -/
def keySlot1 : List ℕ := List.replicate 31 0 ++ [1]

/-- The store obtained by inserting value `01 0..0` and then value
`02 0..0` at the all-zero key (an update of an already-occupied leaf
slot), in the concrete context. -/
def c4Run : Store Frb Frb :=
  (insertList ctxB emptyTrie [(keyZero, valOne), (keyZero, valTwo)]).getD emptyTrie

/-- The order of the scalar field `Fr` of BLS12-381, the field
`E::Fr` used by the kzg10 code. -/
def rBls : ℕ :=
  52435875175126190479447740508185965837690552500527637822603658699938581184513

/-- The concrete BLS12-381 scalar field. -/
abbrev FBls := ZMod rBls

/-- `ω = −1`, the generator of the radix-2 evaluation domain of size 2
over `FBls`. -/
def omegaBls : FBls := ((rBls - 1 : ℕ) : FBls)

/-- The inverse of `ω − 1 = −2` in `FBls` (so `inv[1] = 1/(ω¹ − 1)` as
the claim requires); certified by the product check in the
counterexample theorem. -/
def invOneBls : FBls :=
  ((26217937587563095239723870254092982918845276250263818911301829349969290592256 : ℕ) : FBls)

/-- The size-2 domain `[ω⁰, ω¹]` over `FBls`. -/
def domBls : List FBls := [1, omegaBls]

/-- The claim's `inv` table for that domain: `inv[0]` unused, `inv[1] = 1/(ω − 1)`. -/
def invBls : List FBls := [0, invOneBls]

/-- The Lagrange vector `f = [0, 2]` over the size-2 domain. -/
def fBls : List FBls := [0, 2]

instance : Fact (Nat.Prime 5) := ⟨by norm_num⟩

/-- Small-field counterparts over `ZMod 5` (where `ω = 4 = −1` generates
the size-2 domain) used to witness the Lagrange-division theorems. -/
def dom5 : List (ZMod 5) := [1, 4]

/-- `inv[1] = 1/(ω − 1) = 3⁻¹ = 2` over `ZMod 5`; `inv[0]` unused. -/
def inv5 : List (ZMod 5) := [0, 2]

/-- The vector `f = [0, 2]` over `ZMod 5`. -/
def f5 : List (ZMod 5) := [0, 2]

/-- A concrete transcript instantiation over state `ℕ` used for
witnessing the opener theorem. -/
def t5 : TranscriptOps (ZMod 5) (ZMod 5) ℕ :=
  ⟨fun _ _ s => s + 1, fun _ _ s => s + 2, fun _ s => ((s : ZMod 5), s)⟩

/-- A concrete committer: the sum of the Lagrange coefficients. -/
def commit5 : List (ZMod 5) → ZMod 5 := List.sum

/-- The store after inserting `01 0..0` at the all-zero key into the fresh
trie, used to witness the no-op update theorem on a non-trivial reachable
state. -/
def c6Store : Store Frb Frb :=
  (insert ctxB emptyTrie keyZero valOne).getD emptyTrie

/-- Insert-order A for the order-independence claim: the zero key with
value `01 0..0`, then the slot-1 key with the all-zero value. -/
def c5RunA : Option (Store Frb Frb) :=
  insertList ctxB emptyTrie [(keyZero, valOne), (keySlot1, valZero)]

/-- Insert-order B: the same two pairs, reversed. -/
def c5RunB : Option (Store Frb Frb) :=
  insertList ctxB emptyTrie [(keySlot1, valZero), (keyZero, valOne)]

/-- The two-key run for the get-after-insert claim: both keys of the zero
stem receive the all-zero value. -/
def c7Run : Option (Store Frb Frb) :=
  insertList ctxB emptyTrie [(keyZero, valZero), (keySlot1, valZero)]

end Concrete

/-! ## Theorems -/

section TrieTheorems

/-- C9: `compute_root()` always returns the `hash_commitment` of the branch
stored at the empty path, and on a freshly created trie with no inserts
(`Trie::new` over an empty database, which eagerly stores the zero root)
this value is `0`. -/
theorem C9_computeRoot_is_root_hash {F G : Type} [CommRing F] [AddCommGroup G]
    [Module F G] :
    (∀ (s : Store F G) (m : BranchMeta F G), s.branchTable [] = some m →
      computeRoot s = some m.hash_commitment) ∧
    trieNew (emptyStore : Store F G) = some emptyTrie ∧
    computeRoot (emptyTrie : Store F G) = some 0 := by
  refine ⟨fun s m h => ?_, rfl, rfl⟩
  simp [computeRoot, h]

/-- Witness for C9 at a concrete store and at the fresh trie. -/
theorem C9_witness :
    computeRoot (insertBranchStore (emptyStore : Store Frb Frb) [] ⟨0, 5⟩ 0) = some 5 ∧
    computeRoot (emptyTrie : Store Frb Frb) = some 0 :=
  ⟨(C9_computeRoot_is_root_hash).1 _ ⟨0, 5⟩ rfl, (C9_computeRoot_is_root_hash).2.2⟩

/-- C1 (evidence that the code contradicts the claim): start from the empty
trie, insert value `01 0..0` at the all-zero key, then update the same
key - whose slot now already holds a value - to `02 0..0`.  In the
concrete context (`G_0 = 1`, `G_1 = 2`, `group_to_field = id`) the high
half of both values is zero, so the second update changes `C_1` by
exactly `delta_low`.  The stored `C_1` shows
`delta_low = (2 - 1) + 2¹²⁸`: the `2¹²⁸` bias is applied even though the
slot was already occupied, while the claim requires
`delta_low = 2 - 1` with no `2¹²⁸` term on such an update. -/
theorem C1_bias_applied_on_occupied_slot :
    (insertList ctxB emptyTrie [(keyZero, valOne), (keyZero, valTwo)]).map
        (fun s => (s.stemTable stemZero).map (·.C_1))
      = some (some ((1 + twoPow128) + ((2 - 1) + twoPow128)))
    ∧ (1 + twoPow128) + ((2 - 1) + twoPow128) ≠
        (1 + (twoPow128 : Frb)) + (2 - 1) := by
  constructor
  · decide
  · decide

/-- C4 (evidence that the code contradicts the claim): in the state reached
by inserting value `01 0..0` and then `02 0..0` at the all-zero key, the
stored `C_1` is `2 + 2¹²⁹` while the I4 recomputation from the leaf
contents (`specBank`) gives `2 + 2¹²⁸`: invariant I4 fails on every
reachable state that updates an occupied slot, because the `2¹²⁸` bias
is re-added on each update. -/
theorem C4_stored_C1_diverges_from_I4 :
    (insertList ctxB emptyTrie [(keyZero, valOne), (keyZero, valTwo)]) = some c4Run
    ∧ (c4Run.stemTable stemZero).map (·.C_1) = some (2 + 2 ^ 129)
    ∧ specBank ctxB c4Run stemZero 0 = 2 + 2 ^ 128
    ∧ ((2 : Frb) + 2 ^ 129 ≠ 2 + 2 ^ 128) := by
  refine ⟨rfl, by decide, by decide, by decide⟩

end TrieTheorems

section LagrangeTheorems

/-- Entry `i < n` of a mapped range. -/
theorem getD_map_range {α : Type} (g : ℕ → α) (d : α) {n i : ℕ} (h : i < n) :
    ((List.range n).map g).getD i d = g i := by
  rw [List.getD_eq_getElem?_getD, List.getElem?_map, List.getElem?_range h]
  rfl

/-- Entry `i < f.length` of a mapped list. -/
theorem getD_map_lt {α β : Type} (f : List α) (g : α → β) (d : β) (d' : α) {i : ℕ}
    (h : i < f.length) :
    (f.map g).getD i d = g (f.getD i d') := by
  rw [List.getD_eq_getElem?_getD, List.getElem?_map, List.getElem?_eq_getElem h]
  rw [List.getD_eq_getElem?_getD, List.getElem?_eq_getElem h]
  rfl

/-- The 64-bit wrapping subtraction reduced modulo a divisor `D` of `2⁶⁴`
agrees with the mathematical `(D + a - b) % D`. -/
theorem wsub_mod {D a b : ℕ} (hdvd : D ∣ 2 ^ 64) (ha : a < D) (hb : b < D) :
    wsub a b % D = (D + a - b) % D := by
  have hD : 0 < D := Nat.lt_of_le_of_lt (Nat.zero_le a) ha
  have hDle : D ≤ 2 ^ 64 := Nat.le_of_dvd (by norm_num) hdvd
  obtain ⟨t, ht⟩ : D ∣ 2 ^ 64 - D := Nat.dvd_sub' hdvd dvd_rfl
  unfold wsub
  rw [Nat.mod_mod_of_dvd _ hdvd]
  have h1 : a + (2 ^ 64 - b) = (D + a - b) + (2 ^ 64 - D) := by omega
  rw [h1, ht, Nat.add_mul_mod_self_left]

/-- Powers of a `D`-th root of unity only depend on the exponent mod `D`. -/
theorem pow_mod_of_pow_eq_one {F : Type} [Monoid F] {ω : F} {D : ℕ}
    (h : ω ^ D = 1) (a : ℕ) : ω ^ (a % D) = ω ^ a := by
  conv_rhs => rw [← Nat.div_add_mod a D, pow_add, pow_mul, h, one_pow, one_mul]

/-- The entry of the quotient vector at `i < f.length`. -/
theorem dlv_getD (idx : ℕ) {F : Type} [CommRing F] (f inv dom : List F) {i : ℕ}
    (h : i < f.length) :
    (divideByLinearVanishing idx f inv dom).getD i 0 =
      if i = idx then divIdx idx f inv dom else divCol idx f inv dom i := by
  unfold divideByLinearVanishing
  exact getD_map_range _ _ h

/-- C8 (amended): with `dom[k] = ω^k` for a primitive `D`-th root of unity
`ω` (`D` the power-of-two domain size, so `D ∣ 2⁶⁴`) and
`inv[k] = 1/(ω^k − 1)` for `0 < k < D` (`inv[0]` unused),
`divide_by_linear_vanishing` returns the vector `q` with
`q[i] = (f[i] − f[idx]) · ω^{−i} · inv[(idx − i) mod D]` for `i ≠ idx`
and `q[idx] = −Σ_{i≠idx} ω^{(i−idx) mod D} · q[i]`; the vector it
computes is the NEGATED Lagrange-basis quotient: for every `i ≠ idx`,
`q[i] · (ω^i − ω^idx) = −(f[i] − f(ω^idx))`, that is, it computes
`−(f(X) − f(ω^idx))/(X − ω^idx)` rather than the quotient itself. -/
theorem C8_divide_by_linear_vanishing {F : Type} [Field F] [DecidableEq F]
    (f inv dom : List F) (idx D : ℕ) (ω : F)
    (hDdom : dom.length = D)
    (hflen : f.length = D)
    (hdvd : D ∣ 2 ^ 64)
    (hidx : idx < D)
    (hdom : ∀ k, k < D → dom.getD k 0 = ω ^ k)
    (hωD : ω ^ D = 1)
    (hprim : ∀ k, k < D → 0 < k → ω ^ k ≠ 1)
    (hinv : ∀ k, k < D → 0 < k →
      inv.getD k 0 * (ω ^ k - 1) = 1) :
    (∀ i, i < D → i ≠ idx →
      (divideByLinearVanishing idx f inv dom).getD i 0 =
        (f.getD i 0 - f.getD idx 0) * (ω ^ i)⁻¹ *
          (ω ^ ((D + idx - i) % D) - 1)⁻¹) ∧
    ((divideByLinearVanishing idx f inv dom).getD idx 0 =
      -∑ i ∈ Finset.range D, (if i = idx then 0 else
        ω ^ ((D + i - idx) % D) *
          (divideByLinearVanishing idx f inv dom).getD i 0)) ∧
    (∀ i, i < D → i ≠ idx →
      (divideByLinearVanishing idx f inv dom).getD i 0 * (ω ^ i - ω ^ idx) =
        -(f.getD i 0 - f.getD idx 0)) := by
  have hD : 0 < D := Nat.lt_of_le_of_lt (Nat.zero_le idx) hidx
  have hωne : ω ≠ 0 := by
    intro h0
    rw [h0, zero_pow hD.ne'] at hωD
    exact zero_ne_one hωD
  -- the index (D + a - b) % D is nonzero when a ≠ b, a b < D
  have hmodpos : ∀ a b : ℕ, a < D → b < D → a ≠ b → 0 < (D + a - b) % D := by
    intro a b ha hb hab
    rcases Nat.eq_zero_or_pos ((D + a - b) % D) with h0 | h0
    · exfalso
      obtain ⟨c, hc⟩ := Nat.dvd_of_mod_eq_zero h0
      have hc0 : c ≠ 0 := by rintro rfl; omega
      have hc2 : c < 2 := by
        by_contra hge
        have h2 : D * 2 ≤ D * c := Nat.mul_le_mul_left D (Nat.le_of_not_lt hge)
        omega
      have hc1 : c = 1 := by omega
      rw [hc1, Nat.mul_one] at hc
      omega
    · exact h0
  -- the power identity: ω ^ ((D + a - b) % D) * ω ^ b = ω ^ a for a b < D
  have hpowid : ∀ a b : ℕ, a < D → b < D →
      ω ^ ((D + a - b) % D) * ω ^ b = ω ^ a := by
    intro a b ha hb
    rw [← pow_add, ← pow_mod_of_pow_eq_one hωD ((D + a - b) % D + b), Nat.mod_add_mod]
    have : (D + a - b) + b = D + a := by omega
    rw [this, Nat.add_mod_left, Nat.mod_eq_of_lt ha]
  -- the inverse of ω ^ i as a table entry
  have hωinv : ∀ i : ℕ, i < D → dom.getD ((D - i) % D) 0 = (ω ^ i)⁻¹ := by
    intro i hi
    rw [hdom _ (Nat.mod_lt _ hD)]
    refine eq_inv_of_mul_eq_one_left ?_
    rw [← pow_add, ← pow_mod_of_pow_eq_one hωD ((D - i) % D + i), Nat.mod_add_mod]
    have : (D - i) + i = D := by omega
    rw [this, Nat.mod_self, pow_zero]
  -- part (a): the off-index entries
  have ha : ∀ i, i < D → i ≠ idx →
      (divideByLinearVanishing idx f inv dom).getD i 0 =
        (f.getD i 0 - f.getD idx 0) * (ω ^ i)⁻¹ *
          (ω ^ ((D + idx - i) % D) - 1)⁻¹ := by
    intro i hi hne
    rw [dlv_getD idx f inv dom (hflen ▸ hi), if_neg hne]
    unfold divCol
    rw [hDdom, hωinv i hi, wsub_mod hdvd hidx hi]
    have hk := hmodpos idx i hidx hi (fun h => hne h.symm)
    have hinvk := hinv _ (Nat.mod_lt _ hD) hk
    rw [eq_inv_of_mul_eq_one_left hinvk]
  refine ⟨ha, ?_, ?_⟩
  -- part (b): the entry at idx
  · rw [dlv_getD idx f inv dom (hflen ▸ hidx), if_pos rfl]
    unfold divIdx
    rw [hflen]
    rw [← Finset.sum_neg_distrib]
    refine Finset.sum_congr rfl ?_
    intro i hi
    rw [Finset.mem_range] at hi
    by_cases hcase : i = idx
    · simp [hcase]
    · rw [if_neg hcase, if_neg hcase, hDdom, wsub_mod hdvd hi hidx,
        hdom _ (Nat.mod_lt _ hD), dlv_getD idx f inv dom (hflen ▸ hi), if_neg hcase]
      ring
  -- part (c): the negated-quotient identity
  · intro i hi hne
    rw [ha i hi hne]
    have hk0 := hmodpos idx i hidx hi (fun h => hne h.symm)
    have hkD : (D + idx - i) % D < D := Nat.mod_lt _ hD
    have hωk1 : ω ^ ((D + idx - i) % D) ≠ 1 := hprim _ hkD hk0
    have hkid : ω ^ ((D + idx - i) % D) * ω ^ i = ω ^ idx := hpowid idx i hidx hi
    have hsub : ω ^ i - ω ^ idx = ω ^ i * (1 - ω ^ ((D + idx - i) % D)) := by
      rw [mul_sub, mul_one, ← hkid]; ring
    rw [hsub]
    have h1 : (ω ^ i : F) ≠ 0 := pow_ne_zero _ hωne
    have h2 : (ω ^ ((D + idx - i) % D) - 1 : F) ≠ 0 := sub_ne_zero.mpr hωk1
    field_simp
    ring

/-- Witness for C8 over `ZMod 5` with `D = 2`, `ω = 4`, `f = [0, 2]`,
`idx = 0`. -/
theorem C8_witness :
    (∀ i, i < 2 → i ≠ 0 →
      (divideByLinearVanishing 0 f5 inv5 dom5).getD i 0 =
        (f5.getD i 0 - f5.getD 0 0) * ((4 : ZMod 5) ^ i)⁻¹ *
          ((4 : ZMod 5) ^ ((2 + 0 - i) % 2) - 1)⁻¹) ∧
    ((divideByLinearVanishing 0 f5 inv5 dom5).getD 0 0 =
      -∑ i ∈ Finset.range 2, (if i = 0 then 0 else
        (4 : ZMod 5) ^ ((2 + i - 0) % 2) *
          (divideByLinearVanishing 0 f5 inv5 dom5).getD i 0)) ∧
    (∀ i, i < 2 → i ≠ 0 →
      (divideByLinearVanishing 0 f5 inv5 dom5).getD i 0 *
          ((4 : ZMod 5) ^ i - (4 : ZMod 5) ^ 0) =
        -(f5.getD i 0 - f5.getD 0 0)) :=
  C8_divide_by_linear_vanishing f5 inv5 dom5 0 2 4 (by decide) (by decide)
    ⟨2 ^ 63, by norm_num⟩ (by decide) (by decide) (by decide) (by decide) (by decide)

/-- C8 (counterexample to the claim as stated): over the BLS12-381 scalar
field with the size-2 domain `[ω⁰, ω¹]`, `ω = −1`, `f = [0, 2]`,
`idx = 0`, and the claim's table `inv[1] · (ω¹ − 1) = 1`
(`inv[k] = 1/(ω^k − 1)`), the vector returned by
`divide_by_linear_vanishing` is NOT the quotient
`(f(X) − f(ω⁰))/(X − ω⁰)` in Lagrange basis: at the domain point `ω¹`
the defining identity `q[1] · (ω¹ − ω⁰) = f[1] − f[0]` fails (the left
side is `−2`, the negation of the right side). -/
theorem C8_counterexample :
    domBls = [omegaBls ^ 0, omegaBls ^ 1] ∧
    omegaBls ^ 2 = 1 ∧
    omegaBls ≠ 1 ∧
    invOneBls * (omegaBls ^ 1 - 1) = 1 ∧
    ¬ ((divideByLinearVanishing 0 fBls invBls domBls).getD 1 0 *
          (omegaBls ^ 1 - omegaBls ^ 0) =
        fBls.getD 1 0 - fBls.getD 0 0) := by
  refine ⟨by decide, by decide, by decide, by decide, by decide⟩

/-- `divCol` only reads the vector through differences of entries, so a
pointwise shift of the vector leaves it unchanged (at in-range indices). -/
theorem divCol_shift {F : Type} [CommRing F] (f inv dom : List F) (y : F)
    (idx i : ℕ) (hi : i < f.length) (hidx : idx < f.length) :
    divCol idx (addScalar f y) inv dom i = divCol idx (subScalar f y) inv dom i := by
  unfold divCol addScalar subScalar
  rw [getD_map_lt f _ _ 0 hi, getD_map_lt f _ _ 0 hidx,
    getD_map_lt f _ _ 0 hi, getD_map_lt f _ _ 0 hidx]
  ring_nf

/-- Dividing `f + y` and `f − y` by the same linear vanishing factor gives
the same vector: the division only uses differences of entries. -/
theorem dlv_shift {F : Type} [CommRing F] (f inv dom : List F) (y : F)
    (idx : ℕ) (hidx : idx < f.length) :
    divideByLinearVanishing idx (addScalar f y) inv dom =
      divideByLinearVanishing idx (subScalar f y) inv dom := by
  have hlen1 : (addScalar f y).length = f.length := List.length_map _ _
  have hlen2 : (subScalar f y).length = f.length := List.length_map _ _
  have hIdxEq : divIdx idx (addScalar f y) inv dom = divIdx idx (subScalar f y) inv dom := by
    unfold divIdx
    rw [hlen1, hlen2]
    refine Finset.sum_congr rfl ?_
    intro i hi
    rw [Finset.mem_range] at hi
    by_cases hcase : i = idx
    · simp [hcase]
    · rw [if_neg hcase, if_neg hcase, divCol_shift f inv dom y idx i hi hidx]
  unfold divideByLinearVanishing
  rw [hlen1, hlen2]
  refine List.map_congr_left ?_
  intro i hi
  rw [List.mem_range] at hi
  by_cases hcase : i = idx
  · rw [if_pos hcase, if_pos hcase, hIdxEq]
  · rw [if_neg hcase, if_neg hcase, divCol_shift f inv dom y idx i hi hidx]

/-- A found position is inside the list. -/
theorem findPos_lt_length {F : Type} [CommRing F] [DecidableEq F] (x : F) :
    ∀ (l : List F) (i : ℕ), findPos x l = some i → i < l.length := by
  intro l
  induction l with
  | nil => intro i h; simp [findPos] at h
  | cons a rest ih =>
    intro i h
    unfold findPos at h
    by_cases hcase : a = x
    · rw [if_pos hcase] at h
      cases h
      simp
    · rw [if_neg hcase] at h
      rcases Option.map_eq_some'.mp h with ⟨j, hj, rfl⟩
      have := ih j hj
      simp only [List.length_cons]
      omega

/-- `divide_by_linear_vanishing_from_point` of `f + y` equals that of
`f − y` when `f` has the domain's length. -/
theorem dlvFromPoint_shift {F : Type} [CommRing F] [DecidableEq F]
    (f inv dom : List F) (y z : F) (hf : f.length = dom.length) :
    divideByLinearVanishingFromPoint z (addScalar f y) inv dom =
      divideByLinearVanishingFromPoint z (subScalar f y) inv dom := by
  unfold divideByLinearVanishingFromPoint
  cases hp : findPos z dom with
  | none => rfl
  | some idx =>
    have hidx : idx < f.length := hf ▸ findPos_lt_length z dom idx hp
    simp [dlv_shift f inv dom y idx hidx]

/-- The source's witness list (dividing `f_j + y_j`) equals the spec's
(dividing `f_j − y_j`) when every polynomial has the domain's length. -/
theorem witnessesCode_eq_spec {F : Type} [Field F] [DecidableEq F]
    (inv dom : List F) :
    ∀ (triples : List ((List F × F) × F)),
      (∀ t ∈ triples, t.1.1.length = dom.length) →
      witnessesCode inv dom triples = witnessesSpec inv dom triples := by
  intro triples
  induction triples with
  | nil => intro _; rfl
  | cons t rest ih =>
    intro h
    unfold witnessesCode witnessesSpec
    rw [dlvFromPoint_shift t.1.1 inv dom t.2 t.1.2 (h t (by simp))]
    rw [ih (fun t' ht' => h t' (by simp [ht']))]

/-- Entry of a pointwise sum of equal-length vectors. -/
theorem zipAdd_getD {F : Type} [CommRing F] :
    ∀ (a b : List F) (i : ℕ), i < a.length → i < b.length →
      (zipAdd a b).getD i 0 = a.getD i 0 + b.getD i 0 := by
  intro a
  induction a with
  | nil => intro b i h; simp at h
  | cons x xs ih =>
    intro b i ha hb
    cases b with
    | nil => simp at hb
    | cons y ys =>
      cases i with
      | zero => rfl
      | succ j =>
        simp only [List.length_cons] at ha hb
        exact ih ys j (by omega) (by omega)

/-- Length of a pointwise sum. -/
theorem zipAdd_length {F : Type} [CommRing F] (a b : List F) :
    (zipAdd a b).length = min a.length b.length := by
  unfold zipAdd
  exact List.length_zipWith _ _ _

/-- Entry of an indexed fold of pointwise sums over vectors of a common
length `D`. -/
theorem foldl_zipAdd_getD {F : Type} [CommRing F] (D : ℕ) :
    ∀ (l : List (List F)) (acc : List F), acc.length = D →
      (∀ v ∈ l, v.length = D) → ∀ i, i < D →
      (l.foldl zipAdd acc).getD i 0 = acc.getD i 0 + (l.map (·.getD i 0)).sum := by
  intro l
  induction l with
  | nil => intro acc hacc hl i hi; simp
  | cons v vs ih =>
    intro acc hacc hl i hi
    have hv : v.length = D := hl v (by simp)
    have hlen : (zipAdd acc v).length = D := by
      rw [zipAdd_length, hacc, hv, Nat.min_self]
    have := ih (zipAdd acc v) hlen (fun w hw => hl w (by simp [hw])) i hi
    simp only [List.foldl_cons, List.map_cons, List.sum_cons]
    rw [this, zipAdd_getD acc v i (by omega) (by omega)]
    ring

/-- A list sum of mapped entries as a `Finset.range` sum over positions. -/
theorem list_sum_map_eq_range_sum {α β : Type} [AddCommMonoid β] (h : α → β) (d : α) :
    ∀ l : List α, (l.map h).sum = ∑ j ∈ Finset.range l.length, h (l.getD j d) := by
  intro l
  induction l with
  | nil => simp
  | cons a rest ih =>
    simp only [List.map_cons, List.sum_cons, List.length_cons]
    rw [Finset.sum_range_succ', ih]
    simp only [List.getD_cons_succ, List.getD_cons_zero]
    exact (add_comm _ _).symm

/-- Entry of a zipped list at an in-range position. -/
theorem zip_getD {α β : Type} (d1 : α) (d2 : β) :
    ∀ (l1 : List α) (l2 : List β) (j : ℕ), j < l1.length → j < l2.length →
      (l1.zip l2).getD j (d1, d2) = (l1.getD j d1, l2.getD j d2) := by
  intro l1
  induction l1 with
  | nil => intro l2 j h; simp at h
  | cons x xs ih =>
    intro l2 j h1 h2
    cases l2 with
    | nil => simp at h2
    | cons y ys =>
      cases j with
      | zero => rfl
      | succ j' =>
        simp only [List.length_cons] at h1 h2
        exact ih ys j' (by omega) (by omega)

/-- The spec witness list has one witness per triple, each of its
polynomial's length. -/
theorem witnessesSpec_shape {F : Type} [Field F] [DecidableEq F]
    (inv dom : List F) :
    ∀ (triples : List ((List F × F) × F)) (ws : List (List F)),
      witnessesSpec inv dom triples = some ws →
      ws.length = triples.length ∧ ∀ j, j < ws.length →
        (ws.getD j []).length = (triples.getD j (([], 0), 0)).1.1.length := by
  intro triples
  induction triples with
  | nil =>
    intro ws h
    unfold witnessesSpec at h
    cases h
    exact ⟨rfl, fun j hj => by simp at hj⟩
  | cons t rest ih =>
    intro ws h
    unfold witnessesSpec at h
    cases hp : divideByLinearVanishingFromPoint t.1.2 (subScalar t.1.1 t.2) inv dom with
    | none => rw [hp] at h; simp at h
    | some w =>
      rw [hp] at h
      simp only [Option.bind_eq_bind, Option.some_bind] at h
      cases hr : witnessesSpec inv dom rest with
      | none => rw [hr] at h; simp at h
      | some ws' =>
        rw [hr] at h
        simp only [Option.bind_eq_bind, Option.some_bind] at h
        injection h with h
        subst h
        obtain ⟨hl, he⟩ := ih ws' hr
        refine ⟨by simp [hl], ?_⟩
        intro j hj
        cases j with
        | zero =>
          simp only [List.getD_cons_zero]
          unfold divideByLinearVanishingFromPoint at hp
          rcases Option.map_eq_some'.mp hp with ⟨idx, _, rfl⟩
          unfold divideByLinearVanishing
          simp [subScalar]
        | succ j' =>
          simp only [List.length_cons] at hj
          simpa using he j' (by omega)

/-- Members of the spec witness list have their polynomial's length. -/
theorem witnessesSpec_mem_length {F : Type} [Field F] [DecidableEq F]
    (inv dom : List F) :
    ∀ (triples : List ((List F × F) × F)) (ws : List (List F)),
      witnessesSpec inv dom triples = some ws →
      ∀ w ∈ ws, ∃ t ∈ triples, w.length = t.1.1.length := by
  intro triples
  induction triples with
  | nil =>
    intro ws h
    unfold witnessesSpec at h
    cases h
    intro w hw
    simp at hw
  | cons t rest ih =>
    intro ws h
    unfold witnessesSpec at h
    cases hp : divideByLinearVanishingFromPoint t.1.2 (subScalar t.1.1 t.2) inv dom with
    | none => rw [hp] at h; simp at h
    | some w0 =>
      rw [hp] at h
      simp only [Option.bind_eq_bind, Option.some_bind] at h
      cases hr : witnessesSpec inv dom rest with
      | none => rw [hr] at h; simp at h
      | some ws' =>
        rw [hr] at h
        simp only [Option.bind_eq_bind, Option.some_bind] at h
        injection h with h
        subst h
        intro w hw
        rcases List.mem_cons.mp hw with rfl | hw'
        · refine ⟨t, by simp, ?_⟩
          unfold divideByLinearVanishingFromPoint at hp
          rcases Option.map_eq_some'.mp hp with ⟨idx, _, rfl⟩
          unfold divideByLinearVanishing
          simp [subScalar]
        · rcases ih ws' hr w hw' with ⟨t', ht', hl⟩
          exact ⟨t', by simp [ht'], hl⟩

/-- Entry of `lagrangeZero`. -/
theorem lagrangeZero_getD {F : Type} [CommRing F] (n i : ℕ) :
    (lagrangeZero n : List F).getD i 0 = 0 := by
  unfold lagrangeZero
  induction n generalizing i with
  | zero => simp
  | succ n ih =>
    cases i with
    | zero => rfl
    | succ j => simp only [List.replicate_succ, List.getD_cons_succ]; exact ih j

/-- C2: for every input list of triples `(f_j, z_j, y_j)` sharing the
domain, the witness-aggregation phase of `open_multipoint_lagrange`
computes exactly the spec's aggregate: the source divides
`f_j.add_scalar(y_j)` where the claim divides `f_j − y_j`, but
`divide_by_linear_vanishing` only reads differences of entries, so the
two agree; consequently the polynomial committed as `D` is
`g(X) = Σ_j r^j · ((f_j(X) − y_j)/(X − z_j))` - each quotient the
Lagrange-basis division of `f_j − y_j` at `z_j` against the shared `inv`
and domain tables - with `r` squeezed from the transcript after
absorbing the commitments, the points and the evaluations. -/
theorem C2_open_multipoint_aggregates_spec_quotients {F G S : Type} [Field F]
    [DecidableEq F] (T : TranscriptOps F G S) (commitL : List F → G)
    (polys : List (List F)) (pcs : Option (List G)) (evals points : List F)
    (dom : List F) (tr : S)
    (hlen : ∀ p ∈ polys, p.length = dom.length)
    (hpts : points.length = polys.length)
    (hevs : evals.length = polys.length) :
    openMultipointGx T commitL polys pcs evals points dom tr =
      openMultipointGxSpec T commitL polys pcs evals points dom tr ∧
    (∀ r gX dComm,
      openMultipointGx T commitL polys pcs evals points dom tr = some (r, gX, dComm) →
      dComm = commitL gX ∧
      r = (T.challengeScalar "r" (absorbAll T commitL polys pcs evals points tr)).1 ∧
      ∃ ws, witnessesSpec (computeInv dom) dom ((polys.zip points).zip evals) = some ws ∧
        ∀ i, i < dom.length →
          gX.getD i 0 = ∑ j ∈ Finset.range polys.length,
            r ^ j * (ws.getD j []).getD i 0) := by
  have htr : ∀ t ∈ (polys.zip points).zip evals, t.1.1.length = dom.length := by
    intro t ht
    exact hlen _ (List.of_mem_zip (List.of_mem_zip ht).1).1
  have hwit := witnessesCode_eq_spec (computeInv dom) dom
    ((polys.zip points).zip evals) htr
  constructor
  · simp only [openMultipointGx, openMultipointGxSpec]
    rw [hwit]
  · intro r gX dComm h
    unfold openMultipointGx at h
    cases hh : polys.head? with
    | none => rw [hh] at h; simp at h
    | some fp =>
      rw [hh] at h
      simp only [Option.bind_eq_bind, Option.some_bind] at h
      rw [hwit] at h
      cases hw : witnessesSpec (computeInv dom) dom ((polys.zip points).zip evals) with
      | none => rw [hw] at h; simp at h
      | some ws =>
        rw [hw] at h
        simp only [Option.bind_eq_bind, Option.some_bind, Option.some.injEq] at h
        obtain ⟨hr, hgX, hdC⟩ : r = _ ∧ gX = _ ∧ dComm = _ := by
          have h1 := congrArg (fun pr : F × List F × G => pr.1) h.symm
          have h2 := congrArg (fun pr : F × List F × G => pr.2.1) h.symm
          have h3 := congrArg (fun pr : F × List F × G => pr.2.2) h.symm
          exact ⟨h1, h2, h3⟩
        subst hr hgX hdC
        refine ⟨rfl, rfl, ws, rfl, ?_⟩
        -- the entrywise sum
        have hm : 0 < polys.length := by
          cases polys with
          | nil => simp at hh
          | cons _ _ => simp
        have htrlen : ((polys.zip points).zip evals).length = polys.length := by
          rw [List.length_zip, List.length_zip, hpts, hevs]
          omega
        obtain ⟨hwsl, _⟩ := witnessesSpec_shape (computeInv dom) dom _ ws hw
        rw [htrlen] at hwsl
        have hwmem : ∀ w ∈ ws, w.length = dom.length := by
          intro w hwmem
          rcases witnessesSpec_mem_length (computeInv dom) dom _ ws hw w hwmem with
            ⟨t, ht, hl⟩
          rw [hl]
          exact htr t ht
        have hrIlen : (powersOf ((T.challengeScalar "r"
            (absorbAll T commitL polys pcs evals points tr)).1)
            (polys.length - 1)).length = polys.length := by
          unfold powersOf
          rw [List.length_map, List.length_range]
          omega
        intro i hi
        set rv := (T.challengeScalar "r" (absorbAll T commitL polys pcs evals points tr)).1
        set rI := powersOf rv (polys.length - 1) with hrI
        have hzl : (ws.zip rI).length = polys.length := by
          rw [List.length_zip, hwsl, hrIlen, Nat.min_self]
        have hmapmem : ∀ v ∈ (ws.zip rI).map (fun pr => mulScalar pr.1 pr.2),
            v.length = dom.length := by
          intro v hv
          rcases List.mem_map.mp hv with ⟨pr, hpr, rfl⟩
          have : pr.1 ∈ ws := (List.of_mem_zip hpr).1
          unfold mulScalar
          rw [List.length_map]
          exact hwmem _ this
        have hfold := foldl_zipAdd_getD dom.length
          ((ws.zip rI).map (fun pr => mulScalar pr.1 pr.2))
          (lagrangeZero dom.length) (by unfold lagrangeZero; simp) hmapmem i hi
        rw [hfold, lagrangeZero_getD, zero_add, List.map_map]
        have hcong : ((ws.zip rI).map ((fun v : List F => v.getD i 0) ∘
            (fun pr : List F × F => mulScalar pr.1 pr.2))) =
            (ws.zip rI).map (fun pr => pr.1.getD i 0 * pr.2) := by
          refine List.map_congr_left ?_
          intro pr hpr
          have h1 : pr.1 ∈ ws := (List.of_mem_zip hpr).1
          have h2 : i < pr.1.length := by rw [hwmem _ h1]; exact hi
          simp only [Function.comp_apply]
          unfold mulScalar
          exact getD_map_lt pr.1 _ 0 0 h2
        rw [hcong, list_sum_map_eq_range_sum _ (([], 0) : List F × F), hzl]
        refine Finset.sum_congr rfl ?_
        intro j hj
        rw [Finset.mem_range] at hj
        rw [zip_getD [] 0 ws rI j (by omega) (by rw [hrIlen]; omega)]
        have : rI.getD j 0 = rv ^ j := by
          rw [hrI]
          unfold powersOf
          exact getD_map_range _ _ (by omega)
        rw [this]
        ring

/-- Witness for C2: a single triple over `ZMod 5` with the size-2 domain. -/
theorem C2_witness :
    openMultipointGx t5 commit5 [f5] none [0] [1] dom5 0 =
      openMultipointGxSpec t5 commit5 [f5] none [0] [1] dom5 0 ∧
    (∀ r gX dComm,
      openMultipointGx t5 commit5 [f5] none [0] [1] dom5 0 = some (r, gX, dComm) →
      dComm = commit5 gX ∧
      r = (t5.challengeScalar "r" (absorbAll t5 commit5 [f5] none [0] [1] 0)).1 ∧
      ∃ ws, witnessesSpec (computeInv dom5) dom5 (([f5].zip [1]).zip [0]) = some ws ∧
        ∀ i, i < dom5.length →
          gX.getD i 0 = ∑ j ∈ Finset.range [f5].length,
            r ^ j * (ws.getD j []).getD i 0) :=
  C2_open_multipoint_aggregates_spec_quotients t5 commit5 [f5] none [0] [1] dom5 0
    (by decide) (by decide) (by decide)

end LagrangeTheorems

section PreLemmas

theorem Pre_nil (b : List ℕ) : Pre [] b := rfl

theorem Pre_refl (a : List ℕ) : Pre a a := by
  unfold Pre
  simp

theorem Pre_length {a b : List ℕ} (h : Pre a b) : a.length ≤ b.length := by
  have := congrArg List.length h
  rw [List.length_take] at this
  omega

theorem Pre_trans {a b c : List ℕ} (h1 : Pre a b) (h2 : Pre b c) : Pre a c := by
  have hle : a.length ≤ b.length := Pre_length h1
  unfold Pre at *
  calc List.take a.length c = (List.take b.length c).take a.length := by
        rw [List.take_take, Nat.min_eq_left hle]
  _ = List.take a.length b := by rw [h2]
  _ = a := h1

theorem Pre_of_length_eq {a b : List ℕ} (h : Pre a b) (hl : a.length = b.length) :
    a = b := by
  unfold Pre at h
  rw [hl, List.take_length] at h
  exact h.symm

theorem Pre_take (b : List ℕ) (n : ℕ) : Pre (b.take n) b := by
  unfold Pre
  rw [List.length_take]
  rcases le_total n b.length with h | h
  · rw [Nat.min_eq_left h]
  · rw [Nat.min_eq_right h, List.take_length, List.take_of_length_le h]

theorem Pre_comparable {a b c : List ℕ} (h1 : Pre a c) (h2 : Pre b c)
    (hl : a.length ≤ b.length) : Pre a b := by
  unfold Pre at *
  rw [← h2, List.take_take, Nat.min_eq_left hl, h1]

theorem Pre_getD {a b : List ℕ} (h : Pre a b) {j : ℕ} (hj : j < a.length) (d : ℕ) :
    a.getD j d = b.getD j d := by
  conv_lhs => rw [← h]
  rw [List.getD_eq_getElem?_getD, List.getElem?_take_of_lt hj,
    ← List.getD_eq_getElem?_getD]

theorem take_append_getD {k : List ℕ} {j : ℕ} (h : j < k.length) (d : ℕ) :
    k.take j ++ [k.getD j d] = k.take (j + 1) := by
  rw [List.take_succ, List.getElem?_eq_getElem h]
  rw [List.getD_eq_getElem?_getD, List.getElem?_eq_getElem h]
  rfl

theorem Pre_snoc {q b : List ℕ} {i : ℕ} (h : Pre (q ++ [i]) b) : Pre q b := by
  refine Pre_trans ?_ h
  unfold Pre
  rw [List.take_left]

theorem Pre_cons {x y : ℕ} {a b : List ℕ} :
    Pre (x :: a) (y :: b) ↔ x = y ∧ Pre a b := by
  unfold Pre
  simp only [List.length_cons, List.take_succ_cons, List.cons.injEq]
  tauto

theorem Pre_snoc_getD {q k : List ℕ} {i : ℕ} (h : Pre (q ++ [i]) k) :
    Pre q k ∧ k.getD q.length 0 = i := by
  refine ⟨Pre_snoc h, ?_⟩
  have hlen : q.length + 1 ≤ k.length := by
    have := Pre_length h
    simp only [List.length_append, List.length_singleton] at this
    omega
  have h1 := Pre_getD h (j := q.length)
    (by simp only [List.length_append, List.length_singleton]; omega) 0
  have h2 : (q ++ [i]).getD q.length 0 = i := by
    rw [List.getD_eq_getElem?_getD, List.getElem?_concat_length]
    rfl
  rw [h2] at h1
  exact h1.symm

theorem Pre_snoc_of_getD {q k : List ℕ} (h : Pre q k) (hl : q.length < k.length) :
    Pre (q ++ [k.getD q.length 0]) k := by
  unfold Pre
  simp only [List.length_append, List.length_singleton]
  rw [← take_append_getD hl 0]
  unfold Pre at h
  rw [h]

theorem pathDifference_self (a : List ℕ) : pathDifference a a = (a, none, none) := by
  induction a with
  | nil => rfl
  | cons x xs ih =>
    unfold pathDifference
    rw [if_pos rfl, ih]

theorem pathDifference_shared_pre (a b : List ℕ) :
    Pre (pathDifference a b).1 a ∧ Pre (pathDifference a b).1 b := by
  induction a generalizing b with
  | nil =>
    cases b with
    | nil => exact ⟨Pre_nil _, Pre_nil _⟩
    | cons y ys => exact ⟨Pre_nil _, Pre_nil _⟩
  | cons x xs ih =>
    cases b with
    | nil => exact ⟨Pre_nil _, Pre_nil _⟩
    | cons y ys =>
      unfold pathDifference
      by_cases hxy : x = y
      · rw [if_pos hxy]
        subst hxy
        exact ⟨Pre_cons.mpr ⟨rfl, (ih ys).1⟩, Pre_cons.mpr ⟨rfl, (ih ys).2⟩⟩
      · rw [if_neg hxy]
        exact ⟨Pre_nil _, Pre_nil _⟩

theorem pathDifference_ne {a b : List ℕ} (hlen : a.length = b.length) (hne : a ≠ b) :
    (pathDifference a b).1.length < a.length ∧
    (pathDifference a b).2.1 = some (a.getD (pathDifference a b).1.length 0) ∧
    (pathDifference a b).2.2 = some (b.getD (pathDifference a b).1.length 0) ∧
    a.getD (pathDifference a b).1.length 0 ≠ b.getD (pathDifference a b).1.length 0 := by
  induction a generalizing b with
  | nil =>
    cases b with
    | nil => exact absurd rfl hne
    | cons y ys => simp at hlen
  | cons x xs ih =>
    cases b with
    | nil => simp at hlen
    | cons y ys =>
      unfold pathDifference
      by_cases hxy : x = y
      · subst hxy
        rw [if_pos rfl]
        have hne' : xs ≠ ys := by
          intro hcon
          exact hne (by rw [hcon])
        have hlen' : xs.length = ys.length := by
          simp only [List.length_cons] at hlen
          omega
        obtain ⟨ih1, ih2, ih3, ih4⟩ := ih hlen' hne'
        refine ⟨?_, ?_, ?_, ?_⟩
        · simp only [List.length_cons]
          omega
        · simpa using ih2
        · simpa using ih3
        · simpa using ih4
      · rw [if_neg hxy]
        refine ⟨by simp, by simp, by simp, by simpa using hxy⟩

theorem pathDifference_shared_longest {q a b : List ℕ} (ha : Pre q a) (hb : Pre q b) :
    Pre q (pathDifference a b).1 := by
  induction q generalizing a b with
  | nil => exact Pre_nil _
  | cons x qs ih =>
    cases a with
    | nil => exact absurd (Pre_length ha) (by simp)
    | cons xa as =>
      cases b with
      | nil => exact absurd (Pre_length hb) (by simp)
      | cons xb bs =>
        obtain ⟨rfl, ha'⟩ := Pre_cons.mp ha
        obtain ⟨rfl, hb'⟩ := Pre_cons.mp hb
        unfold pathDifference
        rw [if_pos rfl]
        exact Pre_cons.mpr ⟨rfl, ih ha' hb'⟩

end PreLemmas

section StoreLemmas

variable {F : Type} [CommRing F] {G : Type} [AddCommGroup G] [Module F G]

theorem upd_self {α β : Type} [DecidableEq α] (f : α → β) (a : α) (b : β) :
    upd f a b a = b := by simp [upd]

theorem upd_ne {α β : Type} [DecidableEq α] (f : α → β) {a x : α} (b : β)
    (h : x ≠ a) : upd f a b x = f x := by simp [upd, h]

theorem insertBranchStore_branchTable (s : Store F G) (p : List ℕ)
    (m : BranchMeta F G) (d : ℕ) (q : List ℕ) :
    (insertBranchStore s p m d).branchTable q = if q = p then some m else s.branchTable q := by
  simp [insertBranchStore, insertBranch, upd]

theorem insertStem_stemTable (s : Store F G) (st : List ℕ) (m : StemMeta F G)
    (d : ℕ) (st' : List ℕ) :
    (insertStem s st m d).stemTable st' = if st' = st then some m else s.stemTable st' := by
  simp [insertStem, upd]

theorem addStemChild_stemChildTable (s : Store F G) (r st : List ℕ) (d : ℕ)
    (q : List ℕ) :
    (addStemAsBranchChild s r st d).stemChildTable q =
      if q = r then some st else s.stemChildTable q := by
  simp [addStemAsBranchChild, upd]

theorem stemHashOf_insertStem_ne (s : Store F G) (st : List ℕ) (m : StemMeta F G)
    (d : ℕ) {st' : List ℕ} (h : st' ≠ st) :
    stemHashOf (insertStem s st m d) st' = stemHashOf s st' := by
  unfold stemHashOf
  rw [insertStem_stemTable, if_neg h]

theorem stemHashOf_insertStem_self (s : Store F G) (st : List ℕ) (m : StemMeta F G)
    (d : ℕ) : stemHashOf (insertStem s st m d) st = m.hash_stem_commitment := by
  unfold stemHashOf
  rw [insertStem_stemTable, if_pos rfl]

theorem stemHashOf_eq_of_stemTable_eq {s s' : Store F G} (st : List ℕ)
    (h : s'.stemTable st = s.stemTable st) : stemHashOf s' st = stemHashOf s st := by
  unfold stemHashOf
  rw [h]

theorem stemChildHash_congr {s s' : Store F G} (q : List ℕ)
    (hc : s'.stemChildTable q = s.stemChildTable q)
    (hs : ∀ st, stemHashOf s' st = stemHashOf s st) :
    stemChildHash s' q = stemChildHash s q := by
  unfold stemChildHash
  rw [hc]
  cases s.stemChildTable q with
  | some st => exact hs st
  | none => rfl

/-- `childHash` only reads the branch, stem-child and stem tables. -/
theorem childHash_congr {s s' : Store F G} (q : List ℕ)
    (hb : s'.branchTable q = s.branchTable q)
    (hc : s'.stemChildTable q = s.stemChildTable q)
    (hs : ∀ st, s'.stemTable st = s.stemTable st) :
    childHash s' q = childHash s q := by
  unfold childHash
  rw [hb]
  cases s.branchTable q with
  | some m => rfl
  | none =>
    exact stemChildHash_congr q hc fun st => stemHashOf_eq_of_stemTable_eq st (hs st)

theorem childHash_insertBranch_ne (s : Store F G) (p : List ℕ)
    (m : BranchMeta F G) (d : ℕ) {q : List ℕ} (h : q ≠ p) :
    childHash (insertBranchStore s p m d) q = childHash s q := by
  refine childHash_congr q ?_ rfl (fun _ => rfl)
  rw [insertBranchStore_branchTable, if_neg h]

theorem childHash_insertBranch_self (s : Store F G) (p : List ℕ)
    (m : BranchMeta F G) (d : ℕ) :
    childHash (insertBranchStore s p m d) p = m.hash_commitment := by
  unfold childHash
  rw [insertBranchStore_branchTable, if_pos rfl]

theorem childHash_insertStem_of_branch (s : Store F G) (st : List ℕ)
    (m : StemMeta F G) (d : ℕ) {q : List ℕ} (h : s.branchTable q ≠ none) :
    childHash (insertStem s st m d) q = childHash s q := by
  unfold childHash
  have hb0 : (insertStem s st m d).branchTable q = s.branchTable q := rfl
  rw [hb0]
  cases hb : s.branchTable q with
  | some m' => rfl
  | none => exact absurd hb h

theorem childHash_insertStem_of_ne (s : Store F G) (st : List ℕ)
    (m : StemMeta F G) (d : ℕ) {q : List ℕ}
    (h : s.stemChildTable q ≠ some st) :
    childHash (insertStem s st m d) q = childHash s q := by
  unfold childHash
  have hb0 : (insertStem s st m d).branchTable q = s.branchTable q := rfl
  rw [hb0]
  cases hb : s.branchTable q with
  | some m' => rfl
  | none =>
    unfold stemChildHash
    have hc0 : (insertStem s st m d).stemChildTable q = s.stemChildTable q := rfl
    rw [hc0]
    cases hc : s.stemChildTable q with
    | none => rfl
    | some st' =>
      have hne : st' ≠ st := fun hcon => h (by rw [hc, hcon])
      exact stemHashOf_insertStem_ne s st m d hne

theorem childHash_insertStem_self (s : Store F G) (st : List ℕ)
    (m : StemMeta F G) (d : ℕ) {q : List ℕ}
    (hb : s.branchTable q = none) (hc : s.stemChildTable q = some st) :
    childHash (insertStem s st m d) q = m.hash_stem_commitment := by
  unfold childHash
  have hb0 : (insertStem s st m d).branchTable q = s.branchTable q := rfl
  rw [hb0, hb]
  unfold stemChildHash
  have hc0 : (insertStem s st m d).stemChildTable q = s.stemChildTable q := rfl
  rw [hc0, hc]
  exact stemHashOf_insertStem_self s st m d

theorem childHash_addStemChild_ne (s : Store F G) (r st : List ℕ) (d : ℕ)
    {q : List ℕ} (h : q ≠ r) :
    childHash (addStemAsBranchChild s r st d) q = childHash s q := by
  refine childHash_congr q rfl ?_ (fun _ => rfl)
  rw [addStemChild_stemChildTable, if_neg h]

theorem childHash_addStemChild_self (s : Store F G) (r st : List ℕ) (d : ℕ)
    {sm : StemMeta F G} (hb : s.branchTable r = none)
    (hm : s.stemTable st = some sm) :
    childHash (addStemAsBranchChild s r st d) r = sm.hash_stem_commitment := by
  unfold childHash
  have hb0 : (addStemAsBranchChild s r st d).branchTable r = s.branchTable r := rfl
  rw [hb0, hb]
  unfold stemChildHash
  rw [addStemChild_stemChildTable, if_pos rfl]
  show stemHashOf (addStemAsBranchChild s r st d) st = sm.hash_stem_commitment
  have hs0 : (addStemAsBranchChild s r st d).stemTable st = s.stemTable st := rfl
  rw [stemHashOf_eq_of_stemTable_eq st hs0]
  unfold stemHashOf
  rw [hm]

theorem specBranchComm_congr (c : Ctx F G) {s s' : Store F G} (p : List ℕ)
    (h : ∀ i, i < 256 → childHash s' (p ++ [i]) = childHash s (p ++ [i])) :
    specBranchComm c s' p = specBranchComm c s p := by
  unfold specBranchComm
  refine Finset.sum_congr rfl ?_
  intro i hi
  rw [Finset.mem_range] at hi
  rw [h i hi]

theorem specBranchComm_delta (c : Ctx F G) {s s' : Store F G} (p : List ℕ)
    {i : ℕ} (hi : i < 256)
    (h : ∀ j, j < 256 → j ≠ i → childHash s' (p ++ [j]) = childHash s (p ++ [j])) :
    specBranchComm c s' p = specBranchComm c s p +
      (childHash s' (p ++ [i]) - childHash s (p ++ [i])) • c.srs i := by
  unfold specBranchComm
  have step : ∀ j ∈ Finset.range 256,
      scalarMul c.srs (childHash s' (p ++ [j])) j =
        scalarMul c.srs (childHash s (p ++ [j])) j +
          (if j = i then (childHash s' (p ++ [i]) - childHash s (p ++ [i])) • c.srs i
            else 0) := by
    intro j hj
    rw [Finset.mem_range] at hj
    by_cases hcase : j = i
    · subst hcase
      rw [if_pos rfl]
      unfold scalarMul
      rw [sub_smul]
      abel
    · rw [if_neg hcase, h j hj hcase, add_zero]
  rw [Finset.sum_congr rfl step, Finset.sum_add_distrib,
    Finset.sum_ite_eq' (Finset.range 256) i
      (fun _ => (childHash s' (p ++ [i]) - childHash s (p ++ [i])) • c.srs i),
    if_pos (Finset.mem_range.mpr hi)]

end StoreLemmas

section PathHelpers

variable {F : Type} [CommRing F] {G : Type} [AddCommGroup G] [Module F G]

theorem Pre_take_take (k : List ℕ) {a b : ℕ} (h : a ≤ b) : Pre (k.take a) (k.take b) := by
  unfold Pre
  rw [List.take_take, List.length_take]
  have h1 : min (min a k.length) b = min a k.length :=
    Nat.min_eq_left (le_trans (Nat.min_le_left _ _) h)
  rw [h1]
  rcases le_total a k.length with h2 | h2
  · rw [Nat.min_eq_left h2]
  · rw [Nat.min_eq_right h2, List.take_length, List.take_of_length_le h2]

theorem take_len {k : List ℕ} {a : ℕ} (h : a ≤ k.length) : (k.take a).length = a := by
  rw [List.length_take]
  exact Nat.min_eq_left h

theorem take_ne_of_len {k : List ℕ} {a b : ℕ} (ha : a ≤ k.length) (hb : b ≤ k.length)
    (hab : a ≠ b) : k.take a ≠ k.take b := by
  intro hcon
  exact hab (by rw [← take_len ha, ← take_len hb, hcon])

theorem Pre_append_right {p q : List ℕ} (r : List ℕ) (h : Pre p q) : Pre p (q ++ r) := by
  unfold Pre at *
  rw [List.take_append_of_le_length (le_trans (Pre_length h) (le_refl _)), h]

theorem snoc_eq_take {k q : List ℕ} {i t : ℕ} (ht : t < k.length)
    (h : q ++ [i] = k.take (t + 1)) : q = k.take t ∧ i = k.getD t 0 := by
  rw [← take_append_getD ht 0] at h
  have hlen : q.length = (k.take t).length := by
    have h2 := congrArg List.length h
    simp only [List.length_append, List.length_singleton] at h2
    omega
  obtain ⟨h1, h2⟩ := List.append_inj h hlen
  refine ⟨h1, ?_⟩
  have := List.cons.inj h2
  exact this.1

theorem dropLast_take {k : List ℕ} {a : ℕ} (ha : a ≤ k.length) :
    (k.take a).dropLast = k.take (a - 1) := by
  rw [List.dropLast_eq_take, take_len ha, List.take_take]
  congr 1
  omega

theorem Pre_take_eq {q k : List ℕ} {n : ℕ} (h : Pre q (k.take n)) :
    q = k.take q.length ∧ q.length ≤ n := by
  have hl : q.length ≤ min n k.length := by
    have := Pre_length h
    rwa [List.length_take] at this
  constructor
  · conv_lhs => rw [← h]
    rw [List.take_take]
    congr 1
    omega
  · omega

theorem mem_take {k : List ℕ} {a : ℕ} {b : ℕ} (h : b ∈ k.take a) : b ∈ k :=
  List.mem_of_mem_take h

theorem getD_lt_of_bytes {k : List ℕ} (hb : ∀ b ∈ k, b < 256) {t : ℕ}
    (ht : t < k.length) : k.getD t 0 < 256 := by
  rw [List.getD_eq_getElem?_getD, List.getElem?_eq_getElem ht]
  exact hb _ (List.getElem_mem ht)

end PathHelpers

section ChildHashHelpers

variable {F : Type} [CommRing F] {G : Type} [AddCommGroup G] [Module F G]

theorem childHash_of_branch {s : Store F G} {q : List ℕ} {m : BranchMeta F G}
    (hb : s.branchTable q = some m) : childHash s q = m.hash_commitment := by
  unfold childHash
  rw [hb]

theorem childHash_of_stem {s : Store F G} {q st : List ℕ} {sm : StemMeta F G}
    (hb : s.branchTable q = none) (hc : s.stemChildTable q = some st)
    (hst : s.stemTable st = some sm) : childHash s q = sm.hash_stem_commitment := by
  unfold childHash
  rw [hb]
  show stemChildHash s q = _
  unfold stemChildHash
  rw [hc]
  show stemHashOf s st = _
  unfold stemHashOf
  rw [hst]

theorem childHash_of_empty {s : Store F G} {q : List ℕ}
    (hb : s.branchTable q = none) (hc : s.stemChildTable q = none) :
    childHash s q = 0 := by
  unfold childHash
  rw [hb]
  show stemChildHash s q = _
  unfold stemChildHash
  rw [hc]

/-- `childHash` at `q` is unchanged if the branch and stem-child entries at
`q` are unchanged and the stem `q` points to (if any) is unchanged. -/
theorem childHash_eq_of {s s' : Store F G} (q : List ℕ)
    (hb : s'.branchTable q = s.branchTable q)
    (hc : s'.stemChildTable q = s.stemChildTable q)
    (hs : ∀ st, s.branchTable q = none → s.stemChildTable q = some st →
      s'.stemTable st = s.stemTable st) :
    childHash s' q = childHash s q := by
  unfold childHash
  rw [hb]
  cases hbr : s.branchTable q with
  | some m => rfl
  | none =>
    show stemChildHash s' q = stemChildHash s q
    unfold stemChildHash
    rw [hc]
    cases hsc : s.stemChildTable q with
    | none => rfl
    | some st => exact stemHashOf_eq_of_stemTable_eq st (hs st hbr hsc)

theorem spec_single (c : Ctx F G) {s : Store F G} {p : List ℕ} {i0 : ℕ} (hi0 : i0 < 256)
    (h0 : ∀ i, i < 256 → i ≠ i0 → childHash s (p ++ [i]) = 0) :
    specBranchComm c s p = childHash s (p ++ [i0]) • c.srs i0 := by
  unfold specBranchComm scalarMul
  rw [Finset.sum_eq_single i0]
  · intro b hb hne
    rw [h0 b (Finset.mem_range.mp hb) hne, zero_smul]
  · intro hcon
    exact absurd (Finset.mem_range.mpr hi0) hcon

theorem spec_pair (c : Ctx F G) {s : Store F G} {p : List ℕ} {i0 i1 : ℕ}
    (hi0 : i0 < 256) (hi1 : i1 < 256) (hne : i0 ≠ i1)
    (h0 : ∀ i, i < 256 → i ≠ i0 → i ≠ i1 → childHash s (p ++ [i]) = 0) :
    specBranchComm c s p =
      childHash s (p ++ [i0]) • c.srs i0 + childHash s (p ++ [i1]) • c.srs i1 := by
  unfold specBranchComm scalarMul
  rw [Finset.sum_eq_add_of_mem i0 i1 (Finset.mem_range.mpr hi0) (Finset.mem_range.mpr hi1) hne]
  intro b hb hb2
  rw [h0 b (Finset.mem_range.mp hb) hb2.1 hb2.2, zero_smul]

end ChildHashHelpers

section InvDerived

variable {F : Type} [CommRing F] {G : Type} [AddCommGroup G] [Module F G]

/-- Below a path whose branch entry is empty, every extension's branch
entry is empty (contrapositive of prefix-closure). -/
theorem branch_none_of_pre {s : Store F G} (hs : StInv s) {p q : List ℕ}
    (hp : s.branchTable p = none) (hpre : Pre p q) : s.branchTable q = none := by
  by_contra h
  exact absurd (hs.branchClosed _ _ h hpre) (by simp [hp])

theorem branch_take_none {s : Store F G} (hs : StInv s) {k : List ℕ} {j t : ℕ}
    (hj : s.branchTable (k.take (j + 1)) = none) (ht : j + 1 ≤ t) :
    s.branchTable (k.take t) = none :=
  branch_none_of_pre hs hj (Pre_take_take k ht)

/-- The planner's walk down a key found branches through level `j` and an
empty branch slot at level `j + 1`; if the stem-child entry there is also
empty or holds a foreign stem, the key's own stem is not stored at all. -/
theorem stem_absent {s : Store F G} (hs : StInv s) {k : List ℕ} (hk : k.length = 32)
    {j : ℕ} (hwalk : ∀ t, t ≤ j → s.branchTable (k.take t) ≠ none)
    (hnone : s.branchTable (k.take (j + 1)) = none)
    (hsc : ∀ st, s.stemChildTable (k.take (j + 1)) = some st → st ≠ k.take 31) :
    s.stemTable (k.take 31) = none := by
  by_contra h
  obtain ⟨hlen31, hbytes, q, hq, hqsc, hqnone⟩ := hs.stemAttached _ h
  obtain ⟨hq1, hq2⟩ := Pre_take_eq hq
  rcases Nat.lt_or_ge q.length (j + 1) with hlt | hge
  · exact hwalk q.length (by omega) (by rw [← hq1]; exact hqnone)
  rcases Nat.eq_or_lt_of_le hge with heq | hgt
  · have hq3 : q = k.take (j + 1) := by rw [hq1, ← heq]
    exact hsc _ (by rw [← hq3]; exact hqsc) rfl
  · have hdrop := (hs.stemChildOK _ _ hqsc).2.2.2.2.1
    rw [hq1, dropLast_take (by omega)] at hdrop
    exact hdrop (branch_take_none hs hnone (t := q.length - 1) (by omega))

/-- When the walk finds a stem child at level `j + 1`, that slot is the
unique live attachment point of that stem. -/
theorem stem_pointer_unique {s : Store F G} (hs : StInv s) {k st : List ℕ}
    (hk : k.length = 32) {j : ℕ} (hj : j + 1 ≤ 31)
    (hwalk : ∀ t, t ≤ j → s.branchTable (k.take t) ≠ none)
    (hnone : s.branchTable (k.take (j + 1)) = none)
    (hsc : s.stemChildTable (k.take (j + 1)) = some st) :
    ∀ q, s.stemChildTable q = some st → s.branchTable q = none → q = k.take (j + 1) := by
  intro q hq hqnone
  obtain ⟨-, hpre0, hstlen, -, -, -⟩ := hs.stemChildOK _ _ hsc
  obtain ⟨-, hpreq, -, -, hqdrop, -⟩ := hs.stemChildOK _ _ hq
  -- st.take (j+1) = k.take (j+1)
  have hst1 : st.take (j + 1) = k.take (j + 1) := by
    have h0 := hpre0
    unfold Pre at h0
    have hlen : (k.take (j + 1)).length = j + 1 := take_len (by omega)
    rw [hlen] at h0
    exact h0
  have hq1 : q = st.take q.length := by
    conv_lhs => rw [← hpreq]
  have hql : q.length ≤ 31 := by
    have := Pre_length hpreq
    omega
  rcases Nat.lt_or_ge q.length (j + 1) with hlt | hge
  · exfalso
    have hq2 : st.take q.length = k.take q.length := by
      have h1 : st.take q.length = (st.take (j + 1)).take q.length := by
        rw [List.take_take, Nat.min_eq_left (by omega)]
      have h2 : (k.take (j + 1)).take q.length = k.take q.length := by
        rw [List.take_take, Nat.min_eq_left (by omega)]
      rw [h1, hst1, h2]
    have hq3 : s.branchTable (k.take q.length) = none := by
      rw [← hq2, ← hq1]
      exact hqnone
    exact hwalk q.length (by omega) hq3
  rcases Nat.eq_or_lt_of_le hge with heq | hgt
  · rw [hq1, ← heq, hst1]
  · exfalso
    rw [hq1, dropLast_take (by omega)] at hqdrop
    have hpre2 : Pre (k.take (j + 1)) (st.take (q.length - 1)) := by
      rw [← hst1]
      exact Pre_take_take st (by omega)
    exact hqdrop (branch_none_of_pre hs hnone hpre2)

/-- A stem that is not stored has no stem-child pointer anywhere. -/
theorem no_pointer_of_stem_absent {s : Store F G} (hs : StInv s) {st : List ℕ}
    (h : s.stemTable st = none) : ∀ q, s.stemChildTable q ≠ some st := by
  intro q hq
  exact (hs.stemChildOK _ _ hq).2.2.2.2.2 (by simp [h])

/-- Re-inserting a branch at an already occupied path preserves the
structural invariant (the branch domain is unchanged). -/
theorem StInv_insertBranch_existing {s : Store F G} (hs : StInv s) {p : List ℕ}
    (hp : s.branchTable p ≠ none) (m : BranchMeta F G) (d : ℕ) :
    StInv (insertBranchStore s p m d) := by
  have hdom : ∀ q, (insertBranchStore s p m d).branchTable q = none ↔
      s.branchTable q = none := by
    intro q
    rw [insertBranchStore_branchTable]
    by_cases hqp : q = p
    · subst hqp
      simp [hp]
    · rw [if_neg hqp]
  have hdom' : ∀ q, (insertBranchStore s p m d).branchTable q ≠ none ↔
      s.branchTable q ≠ none := fun q => not_congr (hdom q)
  refine ⟨?_, ?_, ?_, ?_, ?_, ?_, ?_⟩
  · exact (hdom' []).mpr hs.root
  · intro a b ha hpre
    exact (hdom' b).mpr (hs.branchClosed a b ((hdom' a).mp ha) hpre)
  · intro a ha
    exact hs.branchLen a ((hdom' a).mp ha)
  · intro a ha
    exact hs.branchBytes a ((hdom' a).mp ha)
  · intro q st hq
    obtain ⟨h1, h2, h3, h4, h5, h6⟩ := hs.stemChildOK q st hq
    exact ⟨h1, h2, h3, h4, (hdom' _).mpr h5, h6⟩
  · intro st hst
    obtain ⟨h1, h2, q, h3, h4, h5⟩ := hs.stemAttached st hst
    exact ⟨h1, h2, q, h3, h4, (hdom q).mpr h5⟩
  · exact hs.leafOK

end InvDerived

section Planner

variable {F : Type} [CommRing F] {G : Type} [AddCommGroup G] [Module F G]

theorem ftSeg_snoc (s : Store F G) (k : List ℕ) :
    ∀ t j, ftSeg s k j (t + 1) = ftSeg s k j t ++
      [Ins.internalNodeFallThrough (k.take (j + t)) (k.getD (j + t) 0) (k.take (j + t + 1))
        (s.branchTable (k.take (j + t + 1))) (j + t + 1)] := by
  intro t
  induction t with
  | zero => intro j; rfl
  | succ t ih =>
    intro j
    have h1 : ftSeg s k j (t + 1 + 1) =
        Ins.internalNodeFallThrough (k.take j) (k.getD j 0) (k.take (j + 1))
          (s.branchTable (k.take (j + 1))) (j + 1) :: ftSeg s k (j + 1) (t + 1) := rfl
    rw [h1, ih (j + 1)]
    have h2 : j + 1 + t = j + (t + 1) := by omega
    rw [h2]
    rfl

theorem planLoop_branch_step {s : Store F G} (k v : List ℕ) {x : ℕ} (rest : List ℕ)
    (li : ℕ) {cur : List ℕ} (acc : List (Ins F G)) {bm : BranchMeta F G}
    (h : getBranchChild s cur x = some (Child.branch bm)) :
    planLoop s k v (x :: rest) li cur acc =
      planLoop s k v rest (li + 1) (cur ++ [x])
        (acc ++ [Ins.internalNodeFallThrough cur x (cur ++ [x]) (some bm) li]) := by
  conv_lhs => rw [planLoop]
  rw [h]

theorem planLoop_empty_step {s : Store F G} (k v : List ℕ) {x : ℕ} (rest : List ℕ)
    (li : ℕ) {cur : List ℕ} (acc : List (Ins F G))
    (h : getBranchChild s cur x = none) :
    planLoop s k v (x :: rest) li cur acc =
      some (acc ++ [Ins.updateLeaf k v li cur x]) := by
  conv_lhs => rw [planLoop]
  rw [h]

theorem planLoop_stem_same_noop {s : Store F G} {k : List ℕ} (v : List ℕ) {x : ℕ}
    (rest : List ℕ) (li : ℕ) {cur : List ℕ} (acc : List (Ins F G)) {st : List ℕ}
    (h : getBranchChild s cur x = some (Child.stem st))
    (hsame : st = k.take 31) (hk32 : k.length = 32)
    (hval : (s.leafTable k).getD (List.replicate 32 0) = v) :
    planLoop s k v (x :: rest) li cur acc = some [] := by
  conv_lhs => rw [planLoop]
  rw [h]
  subst hsame
  simp only [pathDifference_self]
  simp only [if_true]
  rw [if_pos hval, if_pos (take_len (by omega))]

theorem planLoop_stem_same_upd {s : Store F G} {k : List ℕ} (v : List ℕ) {x : ℕ}
    (rest : List ℕ) (li : ℕ) {cur : List ℕ} (acc : List (Ins F G)) {st : List ℕ}
    (h : getBranchChild s cur x = some (Child.stem st))
    (hsame : st = k.take 31) (hk32 : k.length = 32)
    (hval : (s.leafTable k).getD (List.replicate 32 0) ≠ v) :
    planLoop s k v (x :: rest) li cur acc =
      some (acc ++ [Ins.updateLeaf k v li cur x]) := by
  conv_lhs => rw [planLoop]
  rw [h]
  subst hsame
  simp only [pathDifference_self]
  simp only [if_true]
  rw [if_neg hval, if_pos (take_len (by omega))]

theorem planLoop_stem_chain {s : Store F G} {k : List ℕ} (v : List ℕ) {x : ℕ}
    (rest : List ℕ) (li : ℕ) {cur : List ℕ} (acc : List (Ins F G)) {st : List ℕ}
    (h : getBranchChild s cur x = some (Child.stem st))
    (hstlen : st.length = 31) (hk32 : k.length = 32) (hne : st ≠ k.take 31) :
    planLoop s k v (x :: rest) li cur acc =
      some (acc ++ [Ins.chainInsert li ((pathDifference st (k.take 31)).1.drop (li - 1)) cur x
        (st.getD (pathDifference st (k.take 31)).1.length 0) k v
        ((k.take 31).getD (pathDifference st (k.take 31)).1.length 0)]) := by
  obtain ⟨hL, h21, h22, hb⟩ :=
    pathDifference_ne (a := st) (b := k.take 31) (by rw [hstlen, take_len (by omega)]) hne
  conv_lhs => rw [planLoop]
  rw [h]
  simp only []
  rw [if_neg (by omega), h21, h22]

theorem planLoop_walk {s : Store F G} {k : List ℕ} (hk32 : k.length = 32) (v : List ℕ) :
    ∀ j, j ≤ 31 → (∀ t, t < j → s.branchTable (k.take (t + 1)) ≠ none) →
      planLoop s k v k 1 [] [] =
        planLoop s k v (k.drop j) (j + 1) (k.take j) (ftSeg s k 0 j) := by
  intro j
  induction j with
  | zero =>
    intro _ _
    rw [List.drop_zero, List.take_zero]
    rfl
  | succ j ih =>
    intro hj hw
    rw [ih (by omega) (fun t ht => hw t (by omega))]
    obtain ⟨bm, hbm⟩ := Option.ne_none_iff_exists'.mp (hw j (by omega))
    have hchild : getBranchChild s (k.take j) (k.getD j 0) = some (Child.branch bm) := by
      unfold getBranchChild
      rw [take_append_getD (by omega) 0, hbm]
    have hdrop : k.drop j = k.getD j 0 :: k.drop (j + 1) := by
      rw [List.getD_eq_getElem?_getD, List.getElem?_eq_getElem (by omega)]
      exact List.drop_eq_getElem_cons (by omega)
    rw [hdrop, planLoop_branch_step k v _ _ _ hchild, take_append_getD (by omega) 0,
      ftSeg_snoc]
    rw [Nat.zero_add, hbm]

/-- Characterization of the planner on a structurally sound store: the walk
stops at the first level `j + 1` whose branch slot is empty, and the plan
is the fall-through prefix followed by the terminal instruction determined
by the slot's stem-child entry and its relation to the key's stem. -/
theorem plan_spec {s : Store F G} (hs : StInv s) {k : List ℕ} (hk : KeyOK k) (v : List ℕ) :
    ∃ j, j ≤ 30 ∧ (∀ t, t ≤ j → s.branchTable (k.take t) ≠ none) ∧
      s.branchTable (k.take (j + 1)) = none ∧
      ((s.stemChildTable (k.take (j + 1)) = none ∧
          createInsertInstructions s k v =
            some (ftSeg s k 0 j ++ [Ins.updateLeaf k v (j + 1) (k.take j) (k.getD j 0)])) ∨
        (s.stemChildTable (k.take (j + 1)) = some (k.take 31) ∧
          (((s.leafTable k).getD (List.replicate 32 0) = v ∧
              createInsertInstructions s k v = some []) ∨
            ((s.leafTable k).getD (List.replicate 32 0) ≠ v ∧
              createInsertInstructions s k v =
                some (ftSeg s k 0 j ++
                  [Ins.updateLeaf k v (j + 1) (k.take j) (k.getD j 0)])))) ∨
        (∃ st L, s.stemChildTable (k.take (j + 1)) = some st ∧ st ≠ k.take 31 ∧
          st.length = 31 ∧ (∀ b ∈ st, b < 256) ∧
          j + 1 ≤ L ∧ L ≤ 30 ∧ st.take L = k.take L ∧
          st.getD L 0 ≠ k.getD L 0 ∧
          createInsertInstructions s k v =
            some (ftSeg s k 0 j ++ [Ins.chainInsert (j + 1) ((k.take L).drop j) (k.take j)
              (k.getD j 0) (st.getD L 0) k v (k.getD L 0)]))) := by
  obtain ⟨hk32, hkb⟩ := hk
  classical
  have hex : ∃ t, s.branchTable (k.take (t + 1)) = none := by
    refine ⟨30, ?_⟩
    by_contra h
    have h2 := hs.branchLen _ h
    rw [take_len (by omega)] at h2
    omega
  have hjnone : s.branchTable (k.take (Nat.find hex + 1)) = none := Nat.find_spec hex
  have hwalk : ∀ t, t ≤ Nat.find hex → s.branchTable (k.take t) ≠ none := by
    intro t ht
    cases t with
    | zero => exact hs.root
    | succ t => exact Nat.find_min hex (by omega)
  have hj30 : Nat.find hex ≤ 30 := by
    by_contra h
    have h31 := hwalk 31 (by omega)
    have h2 := hs.branchLen _ h31
    rw [take_len (by omega)] at h2
    omega
  refine ⟨Nat.find hex, hj30, hwalk, hjnone, ?_⟩
  set j := Nat.find hex with hjdef
  have hplan : createInsertInstructions s k v =
      planLoop s k v (k.drop j) (j + 1) (k.take j) (ftSeg s k 0 j) := by
    unfold createInsertInstructions
    exact planLoop_walk hk32 v j (by omega) (fun t ht => hwalk (t + 1) (by omega))
  have hdropj : k.drop j = k.getD j 0 :: k.drop (j + 1) := by
    rw [List.getD_eq_getElem?_getD, List.getElem?_eq_getElem (by omega)]
    exact List.drop_eq_getElem_cons (by omega)
  cases hsc : s.stemChildTable (k.take (j + 1)) with
  | none =>
    left
    have hchild : getBranchChild s (k.take j) (k.getD j 0) = none := by
      unfold getBranchChild
      rw [take_append_getD (by omega) 0, hjnone, hsc]
      rfl
    exact ⟨rfl, by rw [hplan, hdropj, planLoop_empty_step k v _ _ _ hchild]⟩
  | some st =>
    have hchild : getBranchChild s (k.take j) (k.getD j 0) = some (Child.stem st) := by
      unfold getBranchChild
      rw [take_append_getD (by omega) 0, hjnone, hsc]
      rfl
    obtain ⟨hne_nil, hpre, hstlen, hstb, hdropb, hstem⟩ := hs.stemChildOK _ _ hsc
    by_cases hsame : st = k.take 31
    · right; left
      refine ⟨by rw [hsame], ?_⟩
      by_cases hval : (s.leafTable k).getD (List.replicate 32 0) = v
      · exact Or.inl ⟨hval,
          by rw [hplan, hdropj, planLoop_stem_same_noop v _ _ _ hchild hsame hk32 hval]⟩
      · exact Or.inr ⟨hval,
          by rw [hplan, hdropj, planLoop_stem_same_upd v _ _ _ hchild hsame hk32 hval]⟩
    · right; right
      obtain ⟨hL, h21, h22, hbneq⟩ :=
        pathDifference_ne (a := st) (b := k.take 31) (by rw [hstlen, take_len (by omega)])
          hsame
      obtain ⟨hsh1, hsh2⟩ := pathDifference_shared_pre st (k.take 31)
      have hpdk : (pathDifference st (k.take 31)).1 =
          k.take (pathDifference st (k.take 31)).1.length := (Pre_take_eq hsh2).1
      have hpdst : st.take (pathDifference st (k.take 31)).1.length =
          (pathDifference st (k.take 31)).1 := hsh1
      have hjL : j + 1 ≤ (pathDifference st (k.take 31)).1.length := by
        have hpre31 : Pre (k.take (j + 1)) (k.take 31) := Pre_take_take k (by omega)
        have hlong := pathDifference_shared_longest hpre hpre31
        have hlen2 := Pre_length hlong
        have hlen3 : (k.take (j + 1)).length = j + 1 := take_len (by omega)
        rw [hlen3] at hlen2
        exact hlen2
      have h31len : (k.take 31).length = 31 := take_len (by omega)
      have hgetDk : (k.take 31).getD (pathDifference st (k.take 31)).1.length 0 =
          k.getD (pathDifference st (k.take 31)).1.length 0 :=
        Pre_getD (Pre_take k 31) (by rw [h31len]; omega) 0
      refine ⟨st, (pathDifference st (k.take 31)).1.length, rfl, hsame, hstlen, hstb,
        hjL, by omega, by rw [hpdst]; exact hpdk, by rw [← hgetDk]; exact hbneq, ?_⟩
      rw [hplan, hdropj, planLoop_stem_chain v _ _ _ hchild hstlen hk32 hsame]
      rw [hgetDk, ← hpdk, Nat.add_sub_cancel]
  
end Planner

section ExecLemmas

variable {F : Type} [CommRing F] {G : Type} [AddCommGroup G] [Module F G]

theorem upd_some_ne_none {α β : Type} [DecidableEq α] (f : α → Option β) (a : α) (b : β)
    (x : α) (h : f x ≠ none) : upd f a (some b) x ≠ none := by
  unfold upd
  by_cases hx : x = a
  · rw [if_pos hx]
    exact Option.some_ne_none b
  · rw [if_neg hx]
    exact h

theorem upd_some_eq_none {α β : Type} [DecidableEq α] {f : α → Option β} {a : α} {b : β}
    {x : α} (h : upd f a (some b) x = none) : f x = none ∧ x ≠ a := by
  by_cases hx : x = a
  · rw [hx, upd_self] at h
    exact absurd h (Option.some_ne_none b)
  · rw [upd_ne _ _ hx] at h
    exact ⟨h, hx⟩

theorem stemMetaNext_old (c : Ctx F G) (old : Option (StemMeta F G)) (ul : LeafUpdated) :
    (stemMetaNext c old ul).2 = old.map (fun m => m.hash_stem_commitment) := by
  cases old <;> rfl

theorem updateLeafTable_eq {s : Store F G} {k v : List ℕ} (h : s.leafTable k ≠ some v)
    (d : ℕ) :
    updateLeafTable s k v d =
      ({ s with leafTable := upd s.leafTable k (some v) }, some ⟨s.leafTable k, v, k⟩) := by
  unfold updateLeafTable insertLeaf
  simp only []
  cases hv : s.leafTable k with
  | none => rfl
  | some w =>
    have hw : w ≠ v := fun hc => h (by rw [hv, hc])
    simp only [hw, if_false]

theorem updateBranchTable_eq (c : Ctx F G) {s : Store F G} {bid : List ℕ}
    {pm : BranchMeta F G} (h : s.branchTable bid = some pm) (su : StemUpdated F)
    (i d : ℕ) :
    updateBranchTable c s su bid i d =
      some (addStemAsBranchChild
        (insertBranchStore s bid
          ⟨pm.commitment + (su.new_val - su.old_val.getD 0) • c.srs i,
            c.gtf (pm.commitment + (su.new_val - su.old_val.getD 0) • c.srs i)⟩ d)
        (bid ++ [i]) su.stem d,
        c.gtf (pm.commitment + (su.new_val - su.old_val.getD 0) • c.srs i)) := by
  unfold updateBranchTable scalarMul
  rw [h]

/-- `update_branch_table` with the `StemUpdated` record given fieldwise. -/
theorem updateBranchTable_fields (c : Ctx F G) {s : Store F G} {bid : List ℕ}
    {pm : BranchMeta F G} (h : s.branchTable bid = some pm) (o : Option F) (nv : F)
    (stm : List ℕ) (i d : ℕ) :
    updateBranchTable c s ⟨o, nv, stm⟩ bid i d =
      some (addStemAsBranchChild
        (insertBranchStore s bid
          ⟨pm.commitment + (nv - o.getD 0) • c.srs i,
            c.gtf (pm.commitment + (nv - o.getD 0) • c.srs i)⟩ d)
        (bid ++ [i]) stm d,
        c.gtf (pm.commitment + (nv - o.getD 0) • c.srs i)) := by
  unfold updateBranchTable scalarMul
  rw [h]

/-- Execution of the terminal `UpdateLeaf` instruction of a plan: the leaf,
stem and parent-branch tables are updated, the parent becomes consistent,
and only the grandparent (if any) is left stale at the walk slot. -/
theorem exec_updateLeaf_spec (c : Ctx F G) {s : Store F G} (hs : StInv s)
    (hcons : Consist c s (fun _ => False)) {k v : List ℕ} (hk : KeyOK k) (hv : ValOK v)
    {j : ℕ} (hj : j ≤ 30)
    (hwalk : ∀ t, t ≤ j → s.branchTable (k.take t) ≠ none)
    (hnone : s.branchTable (k.take (j + 1)) = none)
    (hscCase : s.stemChildTable (k.take (j + 1)) = none ∨
      s.stemChildTable (k.take (j + 1)) = some (k.take 31))
    (hneq : s.leafTable k ≠ some v) (d : ℕ) :
    ∃ s1, (∀ rest, processRev c s
        (Ins.updateLeaf k v d (k.take j) (k.getD j 0) :: rest) = processRev c s1 rest) ∧
      StInv s1 ∧
      (∀ t', t' < j → s1.branchTable (k.take t') = s.branchTable (k.take t')) ∧
      s1.branchTable (k.take j) ≠ none ∧
      Consist c s1 (fun p => 0 < j ∧ p = k.take (j - 1)) ∧
      (0 < j → StaleAt c s1 (k.take (j - 1)) (k.getD (j - 1) 0) (oldWalkHash s k (j - 1))) := by
  obtain ⟨hk32, hkb⟩ := hk
  obtain ⟨pm, hpm⟩ := Option.ne_none_iff_exists'.mp (hwalk j (le_refl j))
  -- names for the pipeline results
  set lu : LeafUpdated := ⟨s.leafTable k, v, k⟩ with hlu
  set sL : Store F G := { s with leafTable := upd s.leafTable k (some v) } with hsL
  set r : StemMeta F G × Option F := stemMetaNext c (s.stemTable (k.take 31)) lu with hr
  set sS : Store F G := insertStem sL (k.take 31) r.1 d with hsS
  set nc : G := pm.commitment +
      ((r.1.hash_stem_commitment : F) - (r.2.getD 0 : F)) • c.srs (k.getD j 0) with hnc
  set nm : BranchMeta F G := ⟨nc, c.gtf nc⟩ with hnm
  set s1 : Store F G :=
    addStemAsBranchChild (insertBranchStore sS (k.take j) nm d)
      (k.take j ++ [k.getD j 0]) (k.take 31) d with hs1
  have hsnoc : k.take j ++ [k.getD j 0] = k.take (j + 1) := take_append_getD (by omega) 0
  -- table shapes of s1
  have hbT : ∀ q, s1.branchTable q = upd s.branchTable (k.take j) (some nm) q :=
    fun _ => rfl
  have hlT : ∀ q, s1.leafTable q = upd s.leafTable k (some v) q := fun _ => rfl
  have hsT : ∀ q, s1.stemTable q = upd s.stemTable (k.take 31) (some r.1) q := fun _ => rfl
  have hcT : ∀ q, s1.stemChildTable q =
      upd s.stemChildTable (k.take (j + 1)) (some (k.take 31)) q := by
    intro q
    show upd sS.stemChildTable (k.take j ++ [k.getD j 0]) (some (k.take 31)) q = _
    rw [hsnoc]
    rfl
  -- basic distinctness of walk paths
  have htk : ∀ t t' : ℕ, t ≤ 32 → t' ≤ 32 → t ≠ t' → k.take t ≠ k.take t' := by
    intro t t' ht ht' hne
    exact take_ne_of_len (by omega) (by omega) hne
  -- the processRev step
  have hsbS : sS.branchTable (k.take j) = some pm := hpm
  have hstep : ∀ rest, processRev c s
      (Ins.updateLeaf k v d (k.take j) (k.getD j 0) :: rest) = processRev c s1 rest := by
    intro rest
    conv_lhs => rw [processRev]
    rw [updateLeafTable_eq hneq d]
    show (match updateBranchTable c sS ⟨r.2, r.1.hash_stem_commitment, k.take 31⟩
        (k.take j) (k.getD j 0) d with
      | none => none
      | some r3 => processRev c r3.1 rest) = _
    rw [updateBranchTable_eq c hsbS ⟨r.2, r.1.hash_stem_commitment, k.take 31⟩ _ d]
  -- childHash bookkeeping
  have hchS : childHash s (k.take (j + 1)) = r.2.getD 0 := by
    rw [hr, stemMetaNext_old]
    cases hscCase with
    | inl hsc0 =>
      have habs : s.stemTable (k.take 31) = none :=
        stem_absent hs hk32 hwalk hnone (fun st hst => absurd hst (by rw [hsc0]; simp))
      rw [habs]
      exact childHash_of_empty hnone hsc0
    | inr hsc1 =>
      obtain ⟨sm, hsm⟩ := Option.ne_none_iff_exists'.mp (hs.stemChildOK _ _ hsc1).2.2.2.2.2
      rw [hsm]
      exact childHash_of_stem hnone hsc1 hsm
  have hnoptr : ∀ q, q ≠ k.take (j + 1) → s.branchTable q = none →
      s.stemChildTable q ≠ some (k.take 31) := by
    intro q hq hqb hqc
    cases hscCase with
    | inl hsc0 =>
      have habs : s.stemTable (k.take 31) = none :=
        stem_absent hs hk32 hwalk hnone (fun st hst => absurd hst (by rw [hsc0]; simp))
      exact no_pointer_of_stem_absent hs habs q hqc
    | inr hsc1 =>
      exact hq (stem_pointer_unique hs hk32 (by omega) hwalk hnone hsc1 q hqc hqb)
  have hframe : ∀ q, q ≠ k.take j → q ≠ k.take (j + 1) → childHash s1 q = childHash s q := by
    intro q h1 h2
    refine childHash_eq_of q (by rw [hbT, upd_ne _ _ h1]) (by rw [hcT, upd_ne _ _ h2]) ?_
    intro st' hqb hqc
    rw [hsT]
    have hst' : st' ≠ k.take 31 := by
      intro hcon
      exact hnoptr q h2 hqb (by rw [← hcon]; exact hqc)
    rw [upd_ne _ _ hst']
  have hb1 : s1.branchTable (k.take (j + 1)) = none := by
    rw [hbT, upd_ne _ _ (htk _ _ (by omega) (by omega) (by omega))]
    exact hnone
  have hc1 : s1.stemChildTable (k.take (j + 1)) = some (k.take 31) := by
    rw [hcT, upd_self]
  have hst1 : s1.stemTable (k.take 31) = some r.1 := by
    rw [hsT, upd_self]
  have hch1 : childHash s1 (k.take (j + 1)) = r.1.hash_stem_commitment :=
    childHash_of_stem hb1 hc1 hst1
  have hch0 : childHash s1 (k.take j) = nm.hash_commitment :=
    childHash_of_branch (by rw [hbT, upd_self])
  have hchSb : childHash s (k.take j) = pm.hash_commitment := childHash_of_branch hpm
  -- consistency of the new parent meta
  obtain ⟨hpmh, hpmc⟩ := hcons (k.take j) pm hpm (by simp)
  have hkj : k.getD j 0 < 256 := getD_lt_of_bytes hkb (by omega)
  have hconsNew : nm.commitment = specBranchComm c s1 (k.take j) := by
    have hoth : ∀ i', i' < 256 → i' ≠ k.getD j 0 →
        childHash s1 (k.take j ++ [i']) = childHash s (k.take j ++ [i']) := by
      intro i' hi' hine
      have hq1 : k.take j ++ [i'] ≠ k.take j := by
        intro hcon
        have := congrArg List.length hcon
        simp only [List.length_append, List.length_singleton] at this
        omega
      have hq2 : k.take j ++ [i'] ≠ k.take (j + 1) := by
        intro hcon
        exact hine (snoc_eq_take (by omega) hcon).2
      exact hframe _ hq1 hq2
    have hdelta := specBranchComm_delta c (k.take j) hkj hoth
    rw [hnm]
    show nc = _
    rw [hdelta, hsnoc, hch1, hchS, ← hpmc, hnc]
  refine ⟨s1, hstep, ?_, ?_, ?_, ?_, ?_⟩
  · -- StInv s1
    have hmono : ∀ q, s.branchTable q ≠ none → s1.branchTable q ≠ none := by
      intro q hq
      rw [hbT]
      exact upd_some_ne_none _ _ _ _ hq
    have hnew : ∀ q, s1.branchTable q = none → s.branchTable q = none ∧ q ≠ k.take j := by
      intro q hq
      rw [hbT] at hq
      exact upd_some_eq_none hq
    have hsmono : ∀ q, s.stemTable q ≠ none → s1.stemTable q ≠ none := by
      intro q hq
      rw [hsT]
      exact upd_some_ne_none _ _ _ _ hq
    refine ⟨?_, ?_, ?_, ?_, ?_, ?_, ?_⟩
    · exact hmono [] hs.root
    · intro p q hp hpre
      by_cases hpj : p = k.take j
      · subst hpj
        obtain ⟨hq1, hq2⟩ := Pre_take_eq hpre
        rw [hq1]
        exact hmono _ (hwalk q.length (by omega))
      · rw [hbT, upd_ne _ _ hpj] at hp
        exact hmono _ (hs.branchClosed p q hp hpre)
    · intro p hp
      by_cases hpj : p = k.take j
      · subst hpj
        rw [take_len (by omega)]
        omega
      · rw [hbT, upd_ne _ _ hpj] at hp
        exact hs.branchLen p hp
    · intro p hp
      by_cases hpj : p = k.take j
      · subst hpj
        intro b hb
        exact hkb b (mem_take hb)
      · rw [hbT, upd_ne _ _ hpj] at hp
        exact hs.branchBytes p hp
    · intro q st' hq
      rw [hcT] at hq
      by_cases hqj : q = k.take (j + 1)
      · subst hqj
        rw [upd_self] at hq
        have hst' : st' = k.take 31 := by
          have := hq
          simp only [Option.some.injEq] at this
          exact this.symm
        subst hst'
        refine ⟨?_, ?_, take_len (by omega), ?_, ?_, ?_⟩
        · intro hcon
          have := congrArg List.length hcon
          rw [take_len (by omega)] at this
          simp at this
        · exact Pre_take_take k (by omega)
        · intro b hb
          exact hkb b (mem_take hb)
        · rw [dropLast_take (by omega)]
          have h0 : j + 1 - 1 = j := by omega
          rw [h0]
          exact hmono _ (hwalk j (le_refl j))
        · rw [hsT, upd_self]
          simp
      · rw [upd_ne _ _ hqj] at hq
        obtain ⟨h1, h2, h3, h4, h5, h6⟩ := hs.stemChildOK q st' hq
        refine ⟨h1, h2, h3, h4, hmono _ h5, ?_⟩
        exact hsmono _ h6
    · intro st' hst'
      by_cases hstj : st' = k.take 31
      · subst hstj
        refine ⟨take_len (by omega), fun b hb => hkb b (mem_take hb), k.take (j + 1),
          Pre_take_take k (by omega), ?_, ?_⟩
        · rw [hcT, upd_self]
        · rw [hbT, upd_ne _ _ (htk _ _ (by omega) (by omega) (by omega))]
          exact hnone
      · rw [hsT, upd_ne _ _ hstj] at hst'
        obtain ⟨h1, h2, q, h3, h4, h5⟩ := hs.stemAttached st' hst'
        have hqj1 : q ≠ k.take (j + 1) := by
          intro hcon
          subst hcon
          cases hscCase with
          | inl hsc0 => rw [hsc0] at h4; exact Option.noConfusion h4
          | inr hsc1 =>
            rw [hsc1] at h4
            exact hstj (Option.some.inj h4).symm
        have hqj0 : q ≠ k.take j := by
          intro hcon
          subst hcon
          exact absurd h5 (by rw [hpm]; simp)
        refine ⟨h1, h2, q, h3, ?_, ?_⟩
        · rw [hcT, upd_ne _ _ hqj1]
          exact h4
        · rw [hbT, upd_ne _ _ hqj0]
          exact h5
    · intro k' v' hk'
      rw [hlT] at hk'
      by_cases hkk : k' = k
      · subst hkk
        rw [upd_self] at hk'
        have hv' : v' = v := (Option.some.inj hk').symm
        subst hv'
        refine ⟨hk32, hkb, hv, ?_⟩
        rw [hsT, upd_self]
        simp
      · rw [upd_ne _ _ hkk] at hk'
        obtain ⟨h1, h2, h3, h4⟩ := hs.leafOK k' v' hk'
        exact ⟨h1, h2, h3, hsmono _ h4⟩
  · -- untouched walk branches
    intro t' ht'
    rw [hbT, upd_ne _ _ (htk _ _ (by omega) (by omega) (by omega))]
  · -- parent present
    rw [hbT, upd_self]
    exact Option.some_ne_none nm
  · -- Consist with at most the grandparent stale
    intro p m hp hEp
    by_cases hpj : p = k.take j
    · subst hpj
      rw [hbT, upd_self] at hp
      obtain rfl : m = nm := (Option.some.inj hp).symm
      exact ⟨rfl, hconsNew⟩
    · rw [hbT, upd_ne _ _ hpj] at hp
      obtain ⟨hmh, hmc⟩ := hcons p m hp (by simp)
      refine ⟨hmh, ?_⟩
      rw [hmc]
      refine (specBranchComm_congr c p ?_).symm.symm
      intro i hi
      have hq1 : p ++ [i] ≠ k.take j := by
        intro hcon
        cases Nat.eq_zero_or_pos j with
        | inl hj0 =>
          subst hj0
          simp at hcon
        | inr hjpos =>
          have h0 : j - 1 + 1 = j := by omega
          have hcon' : p ++ [i] = k.take (j - 1 + 1) := by rw [h0]; exact hcon
          obtain ⟨hp1, hp2⟩ := snoc_eq_take (by omega) hcon'
          exact hEp ⟨hjpos, hp1⟩
      have hq2 : p ++ [i] ≠ k.take (j + 1) := by
        intro hcon
        exact hpj (snoc_eq_take (by omega) hcon).1
      exact (hframe _ hq1 hq2).symm
  · -- staleness of the grandparent
    intro hjpos
    have h0 : j - 1 + 1 = j := by omega
    obtain ⟨m0, hm0⟩ := Option.ne_none_iff_exists'.mp (hwalk (j - 1) (by omega))
    obtain ⟨hm0h, hm0c⟩ := hcons (k.take (j - 1)) m0 hm0 (by simp)
    have hm0' : s1.branchTable (k.take (j - 1)) = some m0 := by
      rw [hbT, upd_ne _ _ (htk _ _ (by omega) (by omega) (by omega))]
      exact hm0
    refine ⟨m0, hm0', hm0h, ?_⟩
    have hsnoc' : k.take (j - 1) ++ [k.getD (j - 1) 0] = k.take j := by
      have := take_append_getD (k := k) (j := j - 1) (by omega) 0
      rw [h0] at this
      exact this
    have hold : oldWalkHash s k (j - 1) = pm.hash_commitment := by
      unfold oldWalkHash
      rw [h0, hpm]
    have hkj1 : k.getD (j - 1) 0 < 256 := getD_lt_of_bytes hkb (by omega)
    have hoth2 : ∀ i', i' < 256 → i' ≠ k.getD (j - 1) 0 →
        childHash s1 (k.take (j - 1) ++ [i']) = childHash s (k.take (j - 1) ++ [i']) := by
      intro i' hi' hine
      have hq1 : k.take (j - 1) ++ [i'] ≠ k.take j := by
        intro hcon
        have hcon' : k.take (j - 1) ++ [i'] = k.take (j - 1 + 1) := by rw [h0]; exact hcon
        exact hine (snoc_eq_take (by omega) hcon').2
      have hq2 : k.take (j - 1) ++ [i'] ≠ k.take (j + 1) := by
        intro hcon
        have hlen := congrArg List.length hcon
        have e1 : (k.take (j - 1)).length = j - 1 := take_len (by omega)
        have e2 : (k.take (j + 1)).length = j + 1 := take_len (by omega)
        simp only [List.length_append, List.length_singleton, e1, e2] at hlen
        omega
      exact hframe _ hq1 hq2
    have hdelta := specBranchComm_delta c (k.take (j - 1)) hkj1 hoth2
    rw [hsnoc', hch0, hold, hdelta, hsnoc', hch0, hchSb, ← hm0c]

end ExecLemmas

section Ladder

variable {F : Type} [CommRing F] {G : Type} [AddCommGroup G] [Module F G]

/-- Bottom-up processing of the reversed fall-through prefix: starting from
a state whose walk frontier `k.take t` was just made consistent and whose
parent `k.take (t - 1)` is stale at the planning-time child hash, the
remaining fall-throughs execute successfully and restore full consistency. -/
theorem ladder (c : Ctx F G) {s0 : Store F G} {k : List ℕ} (hk32 : k.length = 32)
    (hkb : ∀ b ∈ k, b < 256) :
    ∀ t, t ≤ 31 → ∀ s', StInv s' →
      (∀ t', t' < t → s'.branchTable (k.take t') = s0.branchTable (k.take t') ∧
        s0.branchTable (k.take t') ≠ none) →
      s'.branchTable (k.take t) ≠ none →
      Consist c s' (fun p => 0 < t ∧ p = k.take (t - 1)) →
      (0 < t → StaleAt c s' (k.take (t - 1)) (k.getD (t - 1) 0) (oldWalkHash s0 k (t - 1))) →
      ∃ s'', processRev c s' (ftSeg s0 k 0 t).reverse = some s'' ∧ StInv s'' ∧
        Consist c s'' (fun _ => False) := by
  intro t
  induction t with
  | zero =>
    intro _ s' hs' hB hC hD hE
    refine ⟨s', rfl, hs', ?_⟩
    intro p m hp hF
    exact hD p m hp (by simp)
  | succ t ih =>
    intro ht s' hs' hB hC hD hE
    simp only [Nat.add_sub_cancel] at hD hE
    have htk : ∀ a b : ℕ, a ≤ 32 → b ≤ 32 → a ≠ b → k.take a ≠ k.take b := by
      intro a b ha hb hne
      exact take_ne_of_len (by omega) (by omega) hne
    have hseg : (ftSeg s0 k 0 (t + 1)).reverse =
        Ins.internalNodeFallThrough (k.take t) (k.getD t 0) (k.take (t + 1))
          (s0.branchTable (k.take (t + 1))) (t + 1) :: (ftSeg s0 k 0 t).reverse := by
      rw [ftSeg_snoc s0 k t 0]
      simp [List.reverse_append, Nat.zero_add]
    obtain ⟨hBt, hB0t⟩ := hB t (by omega)
    obtain ⟨pm, hpm0⟩ := Option.ne_none_iff_exists'.mp hB0t
    have hpm : s'.branchTable (k.take t) = some pm := by rw [hBt]; exact hpm0
    obtain ⟨cm, hcm⟩ := Option.ne_none_iff_exists'.mp hC
    obtain ⟨mS, hmS, hmSh, hmSc⟩ := hE (by omega)
    rw [hpm] at hmS
    obtain rfl : pm = mS := Option.some.inj hmS
    set nc : G := pm.commitment +
        ((cm.hash_commitment : F) - oldWalkHash s0 k t) • c.srs (k.getD t 0) with hnc
    set nm : BranchMeta F G := ⟨nc, c.gtf nc⟩ with hnm
    set s2 : Store F G := insertBranchStore s' (k.take t) nm (t + 1) with hs2
    have hft : execFallThrough c s' (k.take t) (k.getD t 0) (k.take (t + 1))
        (s0.branchTable (k.take (t + 1))) (t + 1) = some s2 := by
      unfold execFallThrough scalarMul
      rw [hcm, hpm]
      rfl
    have hsnoc : k.take t ++ [k.getD t 0] = k.take (t + 1) := take_append_getD (by omega) 0
    have hframe : ∀ q, q ≠ k.take t → childHash s2 q = childHash s' q := by
      intro q hq
      exact childHash_insertBranch_ne s' (k.take t) nm (t + 1) hq
    have hch2 : childHash s2 (k.take t) = nm.hash_commitment :=
      childHash_of_branch (by rw [hs2, insertBranchStore_branchTable, if_pos rfl])
    have hchS' : childHash s' (k.take (t + 1)) = cm.hash_commitment := childHash_of_branch hcm
    have hkb' : k.getD t 0 < 256 := getD_lt_of_bytes hkb (by omega)
    -- the frontier branch is consistent in s2
    have hconsNew : nm.commitment = specBranchComm c s2 (k.take t) := by
      have hspec2 : specBranchComm c s2 (k.take t) = specBranchComm c s' (k.take t) := by
        refine specBranchComm_congr c (k.take t) ?_
        intro i hi
        refine hframe _ ?_
        intro hcon
        have hlen := congrArg List.length hcon
        simp only [List.length_append, List.length_singleton] at hlen
        omega
      rw [hspec2, ← hmSc, hsnoc, hchS']
    have harg1 : ∀ t', t' < t → s2.branchTable (k.take t') = s0.branchTable (k.take t') ∧
        s0.branchTable (k.take t') ≠ none := by
      intro t' ht'
      constructor
      · rw [hs2, insertBranchStore_branchTable,
          if_neg (htk _ _ (by omega) (by omega) (by omega))]
        exact (hB t' (by omega)).1
      · exact (hB t' (by omega)).2
    have harg2 : s2.branchTable (k.take t) ≠ none := by
      rw [hs2, insertBranchStore_branchTable, if_pos rfl]
      simp
    have harg3 : Consist c s2 (fun p => 0 < t ∧ p = k.take (t - 1)) := by
      intro p m hp hEp
      by_cases hpt : p = k.take t
      · subst hpt
        rw [hs2, insertBranchStore_branchTable, if_pos rfl] at hp
        obtain rfl : m = nm := (Option.some.inj hp).symm
        exact ⟨rfl, hconsNew⟩
      · rw [hs2, insertBranchStore_branchTable, if_neg hpt] at hp
        have hnotE : ¬ (0 < t + 1 ∧ p = k.take t) := fun hcon => hpt hcon.2
        obtain ⟨hmh, hmc⟩ := hD p m hp hnotE
        refine ⟨hmh, ?_⟩
        rw [hmc]
        refine specBranchComm_congr c p ?_
        intro i hi
        refine (hframe _ ?_).symm
        intro hcon
        cases Nat.eq_zero_or_pos t with
        | inl ht0 =>
          subst ht0
          simp at hcon
        | inr htpos =>
          have h0 : t - 1 + 1 = t := by omega
          have hcon' : p ++ [i] = k.take (t - 1 + 1) := by rw [h0]; exact hcon
          exact hEp ⟨htpos, (snoc_eq_take (by omega) hcon').1⟩
    have harg4 : 0 < t → StaleAt c s2 (k.take (t - 1)) (k.getD (t - 1) 0)
        (oldWalkHash s0 k (t - 1)) := by
      intro htpos
      have h0 : t - 1 + 1 = t := by omega
      obtain ⟨hBt1, hB0t1⟩ := hB (t - 1) (by omega)
      obtain ⟨m0, hm00⟩ := Option.ne_none_iff_exists'.mp hB0t1
      have hm0 : s'.branchTable (k.take (t - 1)) = some m0 := by rw [hBt1]; exact hm00
      have hm0' : s2.branchTable (k.take (t - 1)) = some m0 := by
        rw [hs2, insertBranchStore_branchTable,
          if_neg (htk _ _ (by omega) (by omega) (by omega))]
        exact hm0
      obtain ⟨hm0h, hm0c⟩ := hD (k.take (t - 1)) m0 hm0
        (fun hcon => absurd hcon.2 (htk _ _ (by omega) (by omega) (by omega)))
      refine ⟨m0, hm0', hm0h, ?_⟩
      have hsnoc' : k.take (t - 1) ++ [k.getD (t - 1) 0] = k.take t := by
        have h1 := take_append_getD (k := k) (j := t - 1) (by omega) 0
        rw [h0] at h1
        exact h1
      have hold : oldWalkHash s0 k (t - 1) = pm.hash_commitment := by
        unfold oldWalkHash
        rw [h0, hpm0]
      have hoth : ∀ i', i' < 256 → i' ≠ k.getD (t - 1) 0 →
          childHash s2 (k.take (t - 1) ++ [i']) = childHash s' (k.take (t - 1) ++ [i']) := by
        intro i' hi' hine
        refine hframe _ ?_
        intro hcon
        have hcon' : k.take (t - 1) ++ [i'] = k.take (t - 1 + 1) := by rw [h0]; exact hcon
        exact hine (snoc_eq_take (by omega) hcon').2
      have hkb1 : k.getD (t - 1) 0 < 256 := getD_lt_of_bytes hkb (by omega)
      have hdelta := specBranchComm_delta c (k.take (t - 1)) hkb1 hoth
      have hchpm : childHash s' (k.take t) = pm.hash_commitment := childHash_of_branch hpm
      rw [hsnoc', hch2, hold, hdelta, hsnoc', hch2, hchpm, ← hm0c]
    obtain ⟨s'', heq, hInv, hCons⟩ := ih (by omega) s2
      (StInv_insertBranch_existing hs' (by rw [hpm]; simp) nm (t + 1))
      harg1 harg2 harg3 harg4
    refine ⟨s'', ?_, hInv, hCons⟩
    rw [hseg]
    conv_lhs => rw [processRev]
    rw [hft]
    exact heq

end Ladder

section ChainLemmas

variable {F : Type} [CommRing F] {G : Type} [AddCommGroup G] [Module F G]

theorem pathsFromRelative_take {k : List ℕ} {j L : ℕ} (hjL : j + 1 ≤ L)
    (hL : L ≤ k.length) :
    pathsFromRelative (k.take j) ((k.take L).drop j) =
      some ((List.range (L - j)).map fun i => k.take (j + i + 1)) := by
  have hlen : ((k.take L).drop j).length = L - j := by
    rw [List.length_drop, take_len hL]
  unfold pathsFromRelative
  rw [hlen, if_neg (by omega)]
  congr 1
  refine List.map_congr_left ?_
  intro i hi
  rw [List.mem_range] at hi
  rw [List.drop_take, List.take_take, Nat.min_eq_left (by omega), ← List.take_add]
  rfl

theorem rangeMap_getLast {α : Type} (f : ℕ → α) {n : ℕ} (hn : 0 < n) :
    ((List.range n).map f).getLast? = some (f (n - 1)) := by
  rw [List.getLast?_eq_getElem?, List.length_map, List.length_range,
    List.getElem?_eq_getElem (by rw [List.length_map, List.length_range]; omega),
    List.getElem_map, List.getElem_range]

theorem rangeMap_dropLast {α : Type} (f : ℕ → α) (n : ℕ) :
    ((List.range n).map f).dropLast = (List.range (n - 1)).map f := by
  rw [List.dropLast_eq_take, List.length_map, List.length_range, ← List.map_take,
    List.take_range]
  congr 2
  omega

theorem getD_eq_getElem_of_lt {k : List ℕ} {i : ℕ} (h : i < k.length) (d : ℕ) :
    k.getD i d = k[i] := by
  rw [List.getD_eq_getElem?_getD, List.getElem?_eq_getElem h]
  rfl

/-- The zipped list driving the bottom-up chain walk, written as an explicit
map over a range: pairs `(k[m], k.take m)` for `m = L-1` down to `j+1`. -/
theorem chainZip_eq {k : List ℕ} {j L : ℕ} (hjL : j + 1 ≤ L) (hL : L ≤ k.length) :
    ((k.take L).drop j).reverse.zip
        (((List.range (L - j - 1)).map fun i => k.take (j + i + 1)).reverse) =
      (List.range (L - j - 1)).map fun i => (k.getD (L - 1 - i) 0, k.take (L - 1 - i)) := by
  have hlen1 : ((k.take L).drop j).length = L - j := by
    rw [List.length_drop, take_len hL]
  have hlen2 : ((List.range (L - j - 1)).map fun i => k.take (j + i + 1)).length =
      L - j - 1 := by
    rw [List.length_map, List.length_range]
  refine List.ext_getElem ?_ ?_
  · rw [List.length_zip, List.length_reverse, List.length_reverse, hlen1, hlen2,
      List.length_map, List.length_range]
    omega
  · intro n h1 h2
    have hn : n < L - j - 1 := by
      rw [List.length_zip, List.length_reverse, List.length_reverse, hlen1, hlen2] at h1
      omega
    rw [List.getElem_zip, List.getElem_map, List.getElem_range]
    have hb1 : n < ((k.take L).drop j).reverse.length := by
      rw [List.length_reverse, hlen1]
      omega
    have hb2 : n < (((List.range (L - j - 1)).map fun i => k.take (j + i + 1)).reverse).length := by
      rw [List.length_reverse, hlen2]
      omega
    have e1 : ((k.take L).drop j).reverse[n] = k.getD (L - 1 - n) 0 := by
      rw [List.getElem_reverse, List.getElem_drop, List.getElem_take,
        getD_eq_getElem_of_lt (by omega) 0]
      congr 1
      rw [hlen1]
      omega
    have e2 : (((List.range (L - j - 1)).map fun i => k.take (j + i + 1)).reverse)[n] = k.take (L - 1 - n) := by
      rw [List.getElem_reverse]
      rw [List.getElem_map, List.getElem_range]
      congr 1
      rw [hlen2]
      omega
    rw [e1, e2]

/-- Bottom-up creation of the fresh chain branches: each step stores a new
branch whose single nonzero child is the node created just below, keeping
every consistency obligation outside `E` satisfied. -/
theorem chainClimb (c : Ctx F G) {k : List ℕ} (hk32 : k.length = 32)
    (hkb : ∀ b ∈ k, b < 256) (E : List ℕ → Prop) :
    ∀ n a, 1 ≤ a → a + n ≤ 31 → E (k.take (a - 1)) →
      ∀ (s : Store F G) (h : F),
      (∃ mB, s.branchTable (k.take (a + n)) = some mB ∧ mB.hash_commitment = h) →
      (∀ m, a ≤ m → m < a + n → s.branchTable (k.take m) = none) →
      (∀ m, a ≤ m → m < a + n → ∀ i, i < 256 → i ≠ k.getD m 0 →
        childHash s (k.take m ++ [i]) = 0) →
      Consist c s E →
      ∃ s' h', ((List.range n).map
          (fun i => (k.getD (a + n - 1 - i) 0, k.take (a + n - 1 - i)))).foldl
          (chainStep c) (s, h) = (s', h') ∧
        (∃ mT, s'.branchTable (k.take a) = some mT ∧ mT.hash_commitment = h') ∧
        (∀ m, a ≤ m → m ≤ a + n → s'.branchTable (k.take m) ≠ none) ∧
        (∀ q, (∀ m, a ≤ m → m < a + n → q ≠ k.take m) →
          s'.branchTable q = s.branchTable q) ∧
        s'.leafTable = s.leafTable ∧ s'.stemTable = s.stemTable ∧
        s'.stemChildTable = s.stemChildTable ∧
        Consist c s' E := by
  intro n
  induction n with
  | zero =>
    intro a ha han hEa s h hbelow hnone hzero hcons
    obtain ⟨mB, hmB, hmBh⟩ := hbelow
    simp only [Nat.add_zero] at hmB
    refine ⟨s, h, rfl, ⟨mB, hmB, hmBh⟩, ?_, fun q _ => rfl, rfl, rfl, rfl, hcons⟩
    intro m hm1 hm2
    have hma : m = a := by omega
    subst hma
    rw [hmB]
    simp
  | succ n ih =>
    intro a ha han hEa s h hbelow hnone hzero hcons
    obtain ⟨mB, hmB, hmBh⟩ := hbelow
    have htk : ∀ x y : ℕ, x ≤ 32 → y ≤ 32 → x ≠ y → k.take x ≠ k.take y := by
      intro x y hx hy hne
      exact take_ne_of_len (by omega) (by omega) hne
    have hlist : (List.range (n + 1)).map
        (fun i => (k.getD (a + (n + 1) - 1 - i) 0, k.take (a + (n + 1) - 1 - i))) =
        (k.getD (a + n) 0, k.take (a + n)) ::
          (List.range n).map (fun i => (k.getD (a + n - 1 - i) 0,
            k.take (a + n - 1 - i))) := by
      have hpair : ∀ x y : ℕ, x = y →
          ((k.getD x 0, k.take x) : ℕ × List ℕ) = (k.getD y 0, k.take y) := by
        intro x y hxy
        rw [hxy]
      rw [List.range_succ_eq_map, List.map_cons, List.map_map]
      congr 1
      refine List.map_congr_left ?_
      intro i hi
      rw [List.mem_range] at hi
      simp only [Function.comp]
      exact hpair (a + (n + 1) - 1 - Nat.succ i) (a + n - 1 - i) (by omega)
    rw [hlist, List.foldl_cons]
    set nc : G := h • c.srs (k.getD (a + n) 0) with hncdef
    set nm : BranchMeta F G := ⟨nc, c.gtf nc⟩ with hnmdef
    set s2 : Store F G := insertBranchStore s (k.take (a + n)) nm ((k.take (a + n)).length)
      with hs2def
    have hstep : chainStep c (s, h) (k.getD (a + n) 0, k.take (a + n)) = (s2, c.gtf nc) := rfl
    rw [hstep]
    have hframe2 : ∀ q, q ≠ k.take (a + n) → childHash s2 q = childHash s q := by
      intro q hq
      exact childHash_insertBranch_ne s (k.take (a + n)) nm _ hq
    have hsnoc : k.take (a + n) ++ [k.getD (a + n) 0] = k.take (a + n + 1) :=
      take_append_getD (by omega) 0
    have hkan : k.getD (a + n) 0 < 256 := getD_lt_of_bytes hkb (by omega)
    have hchTop : childHash s2 (k.take (a + n + 1)) = h := by
      rw [hframe2 _ (htk _ _ (by omega) (by omega) (by omega))]
      rw [show a + n + 1 = a + (n + 1) from rfl]
      rw [childHash_of_branch hmB, hmBh]
    have hconsNew : nc = specBranchComm c s2 (k.take (a + n)) := by
      have hothz : ∀ i, i < 256 → i ≠ k.getD (a + n) 0 →
          childHash s2 (k.take (a + n) ++ [i]) = 0 := by
        intro i hi hine
        have hq : k.take (a + n) ++ [i] ≠ k.take (a + n) := by
          intro hcon
          have := congrArg List.length hcon
          simp only [List.length_append, List.length_singleton] at this
          omega
        rw [hframe2 _ hq]
        exact hzero (a + n) (by omega) (by omega) i hi hine
      have hsingle := spec_single c hkan hothz
      rw [hsingle, hsnoc, hchTop]
    have hcons2 : Consist c s2 E := by
      intro p m hp hEp
      by_cases hpt : p = k.take (a + n)
      · subst hpt
        rw [hs2def, insertBranchStore_branchTable, if_pos rfl] at hp
        obtain rfl : m = nm := (Option.some.inj hp).symm
        exact ⟨rfl, hconsNew⟩
      · rw [hs2def, insertBranchStore_branchTable, if_neg hpt] at hp
        obtain ⟨hmh, hmc⟩ := hcons p m hp hEp
        refine ⟨hmh, ?_⟩
        rw [hmc]
        refine specBranchComm_congr c p ?_
        intro i hi
        refine (hframe2 _ ?_).symm
        intro hcon
        have hcon' : p ++ [i] = k.take (a + n - 1 + 1) := by
          rw [show a + n - 1 + 1 = a + n by omega]
          exact hcon
        obtain ⟨hp1, hp2⟩ := snoc_eq_take (by omega) hcon'
        rcases Nat.lt_or_ge (a + n - 1) a with hlt | hge
        · have haeq : a + n - 1 = a - 1 := by omega
          rw [haeq] at hp1
          subst hp1
          exact hEp hEa
        · have hz := hnone (a + n - 1) (by omega) (by omega)
          rw [← hp1] at hz
          rw [hz] at hp
          exact Option.noConfusion hp
    obtain ⟨s', h', hfold, hmT, hsome, hfr, hlf, hstm, hscm, hcons'⟩ :=
      ih a ha (by omega) hEa s2 (c.gtf nc)
        ⟨nm, by rw [hs2def, insertBranchStore_branchTable, if_pos rfl], rfl⟩
        (fun m hm1 hm2 => by
          rw [hs2def, insertBranchStore_branchTable,
            if_neg (htk _ _ (by omega) (by omega) (by omega))]
          exact hnone m hm1 (by omega))
        (fun m hm1 hm2 i hi hine => by
          rw [hframe2 _ ?_]
          · exact hzero m hm1 (by omega) i hi hine
          · intro hcon
            have hcon' : k.take m ++ [i] = k.take (a + n - 1 + 1) := by
              rw [show a + n - 1 + 1 = a + n by omega]
              exact hcon
            obtain ⟨hp1, hp2⟩ := snoc_eq_take (by omega) hcon'
            have hm : m = a + n - 1 := by
              have e1 : (k.take m).length = m := take_len (by omega)
              have e2 : (k.take (a + n - 1)).length = a + n - 1 := take_len (by omega)
              rw [← e1, ← e2, hp1]
            subst hm
            exact hine (by rw [hp2]))
        hcons2
    refine ⟨s', h', hfold, hmT, ?_, ?_, hlf, hstm, hscm, hcons'⟩
    · intro m hm1 hm2
      by_cases hmn : m ≤ a + n
      · exact hsome m hm1 hmn
      · have hm : m = a + n + 1 := by omega
        subst hm
        rw [hfr _ (fun m' hm'1 hm'2 => htk _ _ (by omega) (by omega) (by omega))]
        rw [hs2def, insertBranchStore_branchTable,
          if_neg (htk _ _ (by omega) (by omega) (by omega))]
        rw [show a + n + 1 = a + (n + 1) from rfl, hmB]
        simp
    · intro q hq
      rw [hfr q (fun m hm1 hm2 => hq m hm1 (by omega))]
      rw [hs2def, insertBranchStore_branchTable, if_neg (hq (a + n) (by omega) (by omega))]

end ChainLemmas

section ExecChain

variable {F : Type} [CommRing F] {G : Type} [AddCommGroup G] [Module F G]

/-- Execution of a terminal `ChainInsert` instruction: the chain of fresh
branches is created bottom-up, both stems are attached, the parent branch
is updated, and only the grandparent (if any) is left stale. -/
theorem exec_chain_spec (c : Ctx F G) {s : Store F G} (hs : StInv s)
    (hcons : Consist c s (fun _ => False)) {k v : List ℕ} (hk : KeyOK k) (hv : ValOK v)
    {j L : ℕ} (hj : j ≤ 30) (hjL : j + 1 ≤ L) (hL : L ≤ 30)
    {st : List ℕ} (hstlen : st.length = 31) (hstb : ∀ b ∈ st, b < 256)
    (hstk : st.take L = k.take L) (hbne : st.getD L 0 ≠ k.getD L 0)
    (hstne : st ≠ k.take 31)
    (hwalk : ∀ t, t ≤ j → s.branchTable (k.take t) ≠ none)
    (hnone : s.branchTable (k.take (j + 1)) = none)
    (hsc : s.stemChildTable (k.take (j + 1)) = some st) :
    ∃ s1, execChainInsert c s (j + 1) ((k.take L).drop j) (k.take j) (k.getD j 0)
        (st.getD L 0) k v (k.getD L 0) = some s1 ∧
      StInv s1 ∧
      (∀ t', t' < j → s1.branchTable (k.take t') = s.branchTable (k.take t')) ∧
      s1.branchTable (k.take j) ≠ none ∧
      Consist c s1 (fun p => 0 < j ∧ p = k.take (j - 1)) ∧
      (0 < j → StaleAt c s1 (k.take (j - 1)) (k.getD (j - 1) 0) (oldWalkHash s k (j - 1))) := by
  obtain ⟨hk32, hkb⟩ := hk
  have htk : ∀ x y : ℕ, x ≤ 32 → y ≤ 32 → x ≠ y → k.take x ≠ k.take y := by
    intro x y hx hy hne
    exact take_ne_of_len (by omega) (by omega) hne
  obtain ⟨pm, hpm⟩ := Option.ne_none_iff_exists'.mp (hwalk j (le_refl j))
  -- the key's stem is fresh, its leaf entry empty
  have habs : s.stemTable (k.take 31) = none := by
    refine stem_absent hs hk32 hwalk hnone ?_
    intro st' hst'
    rw [hsc] at hst'
    obtain rfl : st = st' := Option.some.inj hst'
    exact hstne
  have hleaf : s.leafTable k = none := by
    by_contra h
    obtain ⟨w, hw⟩ := Option.ne_none_iff_exists'.mp h
    exact (hs.leafOK k w hw).2.2.2 habs
  have hneq : s.leafTable k ≠ some v := by rw [hleaf]; simp
  -- the old stem's stored metadata
  obtain ⟨sm, hsm⟩ :=
    Option.ne_none_iff_exists'.mp (hs.stemChildOK _ _ hsc).2.2.2.2.2
  -- prefix facts
  have hkpre : Pre (k.take (j + 1)) st := (hs.stemChildOK _ _ hsc).2.1
  have hst_j1 : st.take (j + 1) = k.take (j + 1) := by
    have h0 := hkpre
    unfold Pre at h0
    have hlen : (k.take (j + 1)).length = j + 1 := take_len (by omega)
    rw [hlen] at h0
    exact h0
  -- every path strictly below the walk frontier has no branch
  have hbelow_none : ∀ q : List ℕ, Pre (k.take (j + 1)) q → s.branchTable q = none :=
    fun q hq => branch_none_of_pre hs hnone hq
  have hpre_km : ∀ m, j + 1 ≤ m → m ≤ 32 → Pre (k.take (j + 1)) (k.take m) :=
    fun m hm1 hm2 => Pre_take_take k hm1
  have hsnocL : k.take L ++ [k.getD L 0] = k.take (L + 1) := take_append_getD (by omega) 0
  have hsnocSt : k.take L ++ [st.getD L 0] = st.take (L + 1) := by
    rw [← hstk]
    exact take_append_getD (by omega) 0
  have hstL1k : (st.take (L + 1)).take (j + 1) = k.take (j + 1) := by
    rw [List.take_take, Nat.min_eq_left (by omega), hst_j1]
  have hkL1_ne_stL1 : k.take (L + 1) ≠ st.take (L + 1) := by
    rw [← hsnocL, ← hsnocSt]
    intro hcon
    obtain ⟨-, h2⟩ := List.append_inj hcon rfl
    exact hbne ((List.cons.inj h2).1).symm
  -- state after the bottom node and both stem attachments
  set s1 : Store F G := insertBranchStore s (k.take L) BranchMeta.zero (k.take L).length
    with hs1def
  set lu : LeafUpdated := ⟨s1.leafTable k, v, k⟩ with hludef
  set sL2 : Store F G := { s1 with leafTable := upd s1.leafTable k (some v) } with hsL2def
  set m1 : StemMeta F G := (stemMetaNext c (s1.stemTable (k.take 31)) lu).1 with hm1def
  set o1 : Option F := (stemMetaNext c (s1.stemTable (k.take 31)) lu).2 with ho1def
  set s3 : Store F G := insertStem sL2 (k.take 31) m1 (k.take L).length with hs3def
  have ho1 : o1 = none := by
    rw [ho1def, stemMetaNext_old]
    show (s.stemTable (k.take 31)).map _ = none
    rw [habs]
    rfl
  set bc1 : G := (BranchMeta.zero : BranchMeta F G).commitment +
      ((m1.hash_stem_commitment : F) - o1.getD 0) • c.srs (k.getD L 0) with hbc1def
  set bm1 : BranchMeta F G := ⟨bc1, c.gtf bc1⟩ with hbm1def
  set s4 : Store F G := addStemAsBranchChild
      (insertBranchStore s3 (k.take L) bm1 (k.take L).length)
      (k.take L ++ [k.getD L 0]) (k.take 31) (k.take L).length with hs4def
  have hsm4 : s4.stemTable st = some sm := by
    show upd s.stemTable (k.take 31) (some m1) st = some sm
    rw [upd_ne _ _ hstne]
    exact hsm
  set bc2 : G := bc1 + ((sm.hash_stem_commitment : F) - (none : Option F).getD 0) •
      c.srs (st.getD L 0) with hbc2def
  set bm2 : BranchMeta F G := ⟨bc2, c.gtf bc2⟩ with hbm2def
  set s5 : Store F G := addStemAsBranchChild
      (insertBranchStore s4 (k.take L) bm2 (k.take L).length)
      (k.take L ++ [st.getD L 0]) st (k.take L).length with hs5def
  -- pointwise tables of s5
  have hbr5 : ∀ q, s5.branchTable q = upd s.branchTable (k.take L) (some bm2) q := by
    intro q
    show upd (upd (upd s.branchTable (k.take L) (some BranchMeta.zero)) (k.take L)
      (some bm1)) (k.take L) (some bm2) q = _
    by_cases hq : q = k.take L
    · subst hq
      rw [upd_self, upd_self]
    · rw [upd_ne _ _ hq, upd_ne _ _ hq, upd_ne _ _ hq, upd_ne _ _ hq]
  have hsc5 : ∀ q, s5.stemChildTable q =
      upd (upd s.stemChildTable (k.take (L + 1)) (some (k.take 31)))
        (st.take (L + 1)) (some st) q := by
    intro q
    show upd (upd s.stemChildTable (k.take L ++ [k.getD L 0]) (some (k.take 31)))
      (k.take L ++ [st.getD L 0]) (some st) q = _
    rw [hsnocL, hsnocSt]
  have hst5 : ∀ q, s5.stemTable q = upd s.stemTable (k.take 31) (some m1) q := fun _ => rfl
  have hlf5 : ∀ q, s5.leafTable q = upd s.leafTable k (some v) q := fun _ => rfl
  -- childHash framing from s to s5
  have hframe5 : ∀ q, q ≠ k.take L → q ≠ k.take (L + 1) → q ≠ st.take (L + 1) →
      childHash s5 q = childHash s q := by
    intro q h1 h2 h3
    refine childHash_eq_of q (by rw [hbr5, upd_ne _ _ h1])
      (by rw [hsc5, upd_ne _ _ h3, upd_ne _ _ h2]) ?_
    intro st'' hqb hqc
    rw [hst5]
    have hne31 : st'' ≠ k.take 31 := by
      intro hcon
      subst hcon
      exact no_pointer_of_stem_absent hs habs q hqc
    rw [upd_ne _ _ hne31]
  -- childHash values at the fresh slots of the bottom node
  have hb5L1 : s5.branchTable (k.take (L + 1)) = none := by
    rw [hbr5, upd_ne _ _ (htk _ _ (by omega) (by omega) (by omega))]
    exact hbelow_none _ (hpre_km (L + 1) (by omega) (by omega))
  have hb5St : s5.branchTable (st.take (L + 1)) = none := by
    rw [hbr5, upd_ne _ _ ?_]
    · refine hbelow_none _ ?_
      unfold Pre
      rw [take_len (by omega)]
      exact hstL1k
    · intro hcon
      have h1 := congrArg List.length hcon
      rw [take_len (by omega), take_len (by omega)] at h1
      omega
  have hc5L1 : s5.stemChildTable (k.take (L + 1)) = some (k.take 31) := by
    rw [hsc5, upd_ne _ _ hkL1_ne_stL1, upd_self]
  have hst5_31 : s5.stemTable (k.take 31) = some m1 := by
    rw [hst5, upd_self]
  have hch5_new : childHash s5 (k.take (L + 1)) = m1.hash_stem_commitment :=
    childHash_of_stem hb5L1 hc5L1 hst5_31
  have hc5St : s5.stemChildTable (st.take (L + 1)) = some st := by
    rw [hsc5, upd_self]
  have hst5_st : s5.stemTable st = some sm := by
    rw [hst5, upd_ne _ _ hstne]
    exact hsm
  have hch5_old : childHash s5 (st.take (L + 1)) = sm.hash_stem_commitment :=
    childHash_of_stem hb5St hc5St hst5_st
  -- the two relevant child bytes
  have hkL : k.getD L 0 < 256 := getD_lt_of_bytes hkb (by omega)
  have hstL : st.getD L 0 < 256 := getD_lt_of_bytes hstb (by omega)
  -- zero slots of the fresh nodes
  have hscq_none : ∀ m, j + 1 ≤ m → m ≤ L → ∀ i : ℕ,
      s.stemChildTable (k.take m ++ [i]) = none := by
    intro m hm1 hm2 i
    cases hq : s.stemChildTable (k.take m ++ [i]) with
    | none => rfl
    | some st'' =>
      exfalso
      have hdl := (hs.stemChildOK _ _ hq).2.2.2.2.1
      rw [List.dropLast_concat] at hdl
      exact hdl (hbelow_none _ (hpre_km m hm1 (by omega)))
  have hbrq_none : ∀ m, j + 1 ≤ m → m ≤ L → ∀ i : ℕ,
      s.branchTable (k.take m ++ [i]) = none := by
    intro m hm1 hm2 i
    refine hbelow_none _ ?_
    refine Pre_append_right _ ?_
    exact hpre_km m hm1 (by omega)
  have hzero5 : ∀ m, j + 1 ≤ m → m < L → ∀ i, i < 256 → i ≠ k.getD m 0 →
      childHash s5 (k.take m ++ [i]) = 0 := by
    intro m hm1 hm2 i hi hine
    have h1 : k.take m ++ [i] ≠ k.take L := by
      intro hcon
      have hcon' : k.take m ++ [i] = k.take (L - 1 + 1) := by
        rw [show L - 1 + 1 = L by omega]
        exact hcon
      obtain ⟨hp1, hp2⟩ := snoc_eq_take (by omega) hcon'
      have hm : m = L - 1 := by
        have e1 : (k.take m).length = m := take_len (by omega)
        have e2 : (k.take (L - 1)).length = L - 1 := take_len (by omega)
        rw [← e1, ← e2, hp1]
      subst hm
      exact hine (by rw [hp2])
    have h2 : k.take m ++ [i] ≠ k.take (L + 1) := by
      intro hcon
      have h0 := congrArg List.length hcon
      simp only [List.length_append, List.length_singleton] at h0
      rw [take_len (by omega), take_len (by omega)] at h0
      omega
    have h3 : k.take m ++ [i] ≠ st.take (L + 1) := by
      intro hcon
      have h0 := congrArg List.length hcon
      simp only [List.length_append, List.length_singleton] at h0
      rw [take_len (by omega), take_len (by omega)] at h0
      omega
    rw [hframe5 _ h1 h2 h3]
    exact childHash_of_empty (hbrq_none m hm1 (by omega) i) (hscq_none m hm1 (by omega) i)
  -- consistency of s5 away from the parent
  have hcons5 : Consist c s5 (fun p => p = k.take j) := by
    intro p m hp hEp
    by_cases hpL : p = k.take L
    · subst hpL
      rw [hbr5, upd_self] at hp
      obtain rfl : m = bm2 := (Option.some.inj hp).symm
      refine ⟨rfl, ?_⟩
      have hpair := spec_pair c (s := s5) (p := k.take L) hkL hstL (fun h => hbne h.symm) ?_
      · rw [hbm2def]
        show bc2 = _
        rw [hpair, hsnocL, hsnocSt, hch5_new, hch5_old, hbc2def, hbc1def, ho1]
        show (0 : G) + _ + _ = _
        rw [zero_add]
        simp [sub_zero]
      · intro i hi hi0 hi1
        have h1 : k.take L ++ [i] ≠ k.take L := by
          intro hcon
          have h0 := congrArg List.length hcon
          simp only [List.length_append, List.length_singleton] at h0
          omega
        have h2 : k.take L ++ [i] ≠ k.take (L + 1) := by
          rw [← hsnocL]
          intro hcon
          obtain ⟨-, hx⟩ := List.append_inj hcon rfl
          exact hi0 (List.cons.inj hx).1
        have h3 : k.take L ++ [i] ≠ st.take (L + 1) := by
          rw [← hsnocSt]
          intro hcon
          obtain ⟨-, hx⟩ := List.append_inj hcon rfl
          exact hi1 (List.cons.inj hx).1
        rw [hframe5 _ h1 h2 h3]
        exact childHash_of_empty (hbrq_none L (by omega) (by omega) i)
          (hscq_none L (by omega) (by omega) i)
    · rw [hbr5, upd_ne _ _ hpL] at hp
      obtain ⟨hmh, hmc⟩ := hcons p m hp (by simp)
      refine ⟨hmh, ?_⟩
      rw [hmc]
      refine specBranchComm_congr c p ?_
      intro i hi
      refine (hframe5 _ ?_ ?_ ?_).symm
      · intro hcon
        have hcon' : p ++ [i] = k.take (L - 1 + 1) := by
          rw [show L - 1 + 1 = L by omega]
          exact hcon
        obtain ⟨hp1, hp2⟩ := snoc_eq_take (by omega) hcon'
        rcases Nat.lt_or_ge (L - 1) (j + 1) with hlt | hge
        · have hLj : L - 1 = j := by omega
          rw [hLj] at hp1
          exact hEp hp1
        · subst hp1
          rw [hbelow_none _ (hpre_km (L - 1) (by omega) (by omega))] at hp
          exact Option.noConfusion hp
      · intro hcon
        have hcon' : p ++ [i] = k.take (L + 1) := hcon
        rw [← hsnocL] at hcon'
        obtain ⟨hp1, -⟩ := List.append_inj hcon' (by
          have h0 := congrArg List.length hcon'
          simp only [List.length_append, List.length_singleton] at h0
          omega)
        subst hp1
        rw [hbelow_none _ (hpre_km L (by omega) (by omega))] at hp
        exact Option.noConfusion hp
      · intro hcon
        have hcon' : p ++ [i] = st.take (L + 1) := hcon
        rw [← hsnocSt] at hcon'
        obtain ⟨hp1, -⟩ := List.append_inj hcon' (by
          have h0 := congrArg List.length hcon'
          simp only [List.length_append, List.length_singleton] at h0
          omega)
        subst hp1
        rw [hbelow_none _ (hpre_km L (by omega) (by omega))] at hp
        exact Option.noConfusion hp
  -- run the chain climb
  have heqL : j + 1 + (L - j - 1) = L := by omega
  have hclimb := chainClimb c hk32 hkb (fun p => p = k.take j) (L - j - 1) (j + 1)
    (by omega) (by omega) (by simp) s5 (c.gtf bc2) ?_ ?_ ?_ hcons5
  rotate_left
  · rw [heqL]
    exact ⟨bm2, by rw [hbr5, upd_self], rfl⟩
  · intro m hm1 hm2
    rw [heqL] at hm2
    rw [hbr5, upd_ne _ _ (htk _ _ (by omega) (by omega) (by omega))]
    exact hbelow_none _ (hpre_km m hm1 (by omega))
  · intro m hm1 hm2 i hi hine
    rw [heqL] at hm2
    exact hzero5 m hm1 (by omega) i hi hine
  obtain ⟨s6, h6, hfold, ⟨mT, hmT, hmTh⟩, hsome, hfr, hlf6, hstm6, hscm6, hcons6⟩ := hclimb
  rw [heqL] at hsome hfr
  -- the parent is untouched so far
  have hbr6 : ∀ q, (∀ m, j + 1 ≤ m → m ≤ L → q ≠ k.take m) →
      s6.branchTable q = s.branchTable q := by
    intro q hq
    rw [hfr q (fun m hm1 hm2 => hq m hm1 (by omega)), hbr5,
      upd_ne _ _ (hq L (by omega) (le_refl L))]
  have hpm6 : s6.branchTable (k.take j) = some pm := by
    rw [hbr6 _ (fun m hm1 hm2 => htk _ _ (by omega) (by omega) (by omega))]
    exact hpm
  -- the final state
  set tc : G := pm.commitment +
      ((h6 : F) - sm.hash_stem_commitment) • c.srs (k.getD j 0) with htcdef
  set tm : BranchMeta F G := ⟨tc, c.gtf tc⟩ with htmdef
  set s7 : Store F G := insertBranchStore s6 (k.take j) tm (j + 1) with hs7def
  -- we now check the execution equation
  have hlen0 : ((k.take L).drop j).length ≠ 0 := by
    rw [List.length_drop, take_len (by omega)]
    omega
  have hchild : getBranchChild s (k.take j) (k.getD j 0) = some (Child.stem st) := by
    unfold getBranchChild
    rw [take_append_getD (by omega) 0, hnone, hsc]
    rfl
  have hlast : ((List.range (L - j)).map fun i => k.take (j + i + 1)).getLast? =
      some (k.take L) := by
    rw [rangeMap_getLast _ (by omega)]
    congr 2
    omega
  have hlz : ((List.range (L - j - 1)).map
      fun i => (k.getD (L - 1 - i) 0, k.take (L - 1 - i))) =
      (List.range (L - j - 1)).map
        (fun i => (k.getD (j + 1 + (L - j - 1) - 1 - i) 0,
          k.take (j + 1 + (L - j - 1) - 1 - i))) := by
    refine List.map_congr_left ?_
    intro i hi
    rw [List.mem_range] at hi
    have hx : L - 1 - i = j + 1 + (L - j - 1) - 1 - i := by omega
    rw [hx]
  have hb3 : s3.branchTable (List.take L k) = some (BranchMeta.zero : BranchMeta F G) := by
    show upd s.branchTable (List.take L k) (some BranchMeta.zero) (List.take L k) = _
    rw [upd_self]
  have hb4 : s4.branchTable (List.take L k) = some bm1 := by
    show upd (upd s.branchTable (List.take L k) (some BranchMeta.zero)) (List.take L k)
      (some bm1) (List.take L k) = _
    rw [upd_self]
  have hbm1c : bm1.commitment = bc1 := rfl
  have hexec : execChainInsert c s (j + 1) ((k.take L).drop j) (k.take j) (k.getD j 0)
      (st.getD L 0) k v (k.getD L 0) = some s7 := by
    unfold execChainInsert
    rw [if_neg hlen0]
    rw [pathsFromRelative_take hjL (by omega), hchild]
    simp only [Option.bind_eq_bind, Option.some_bind]
    rw [hlast]
    simp only [Option.some_bind]
    rw [rangeMap_dropLast]
    rw [updateLeafTable_eq (by exact hneq) (List.take L k).length]
    simp only [Option.some_bind]
    rw [← hs1def, ← hludef, ← hsL2def]
    simp only [updateStemTable]
    rw [← hm1def, ← ho1def, ← hs3def]
    rw [updateBranchTable_fields c hb3 o1 m1.hash_stem_commitment (List.take 31 k)
      (k.getD L 0) (List.take L k).length]
    rw [← hbc1def, ← hbm1def, ← hs4def]
    simp only [Option.some_bind]
    rw [hsm4]
    simp only [Option.some_bind]
    rw [updateBranchTable_fields c hb4 none sm.hash_stem_commitment st (st.getD L 0)
      (List.take L k).length]
    rw [hbm1c, ← hbc2def, ← hbm2def, ← hs5def]
    simp only [Option.some_bind]
    rw [chainZip_eq hjL (by omega), hlz, hfold]
    simp only []
    rw [hpm6]
    simp only [Option.some_bind, scalarMul]
  -- table facts of the final state
  have hbr7 : ∀ q, q ≠ k.take j → s7.branchTable q = s6.branchTable q := by
    intro q hq
    rw [hs7def, insertBranchStore_branchTable, if_neg hq]
  have hbr7j : s7.branchTable (k.take j) = some tm := by
    rw [hs7def, insertBranchStore_branchTable, if_pos rfl]
  have hchar : ∀ q, (∀ mm, j ≤ mm → mm ≤ L → q ≠ k.take mm) →
      s7.branchTable q = s.branchTable q := by
    intro q hq
    rw [hbr7 q (hq j (le_refl j) (by omega))]
    exact hbr6 q (fun mm hm1 hm2 => hq mm (by omega) hm2)
  have hsome7 : ∀ mm, j ≤ mm → mm ≤ L → s7.branchTable (k.take mm) ≠ none := by
    intro mm hm1 hm2
    by_cases hmj : mm = j
    · subst hmj
      rw [hbr7j]
      simp
    · rw [hbr7 _ (htk _ _ (by omega) (by omega) (by omega))]
      exact hsome mm (by omega) (by omega)
  have hsc7 : ∀ q, s7.stemChildTable q =
      upd (upd s.stemChildTable (k.take (L + 1)) (some (k.take 31)))
        (st.take (L + 1)) (some st) q := by
    intro q
    have h1 : s7.stemChildTable q = s6.stemChildTable q := rfl
    rw [h1, hscm6]
    exact hsc5 q
  have hst7 : ∀ q, s7.stemTable q = upd s.stemTable (k.take 31) (some m1) q := by
    intro q
    have h1 : s7.stemTable q = s6.stemTable q := rfl
    rw [h1, hstm6]
    exact hst5 q
  have hlf7 : ∀ q, s7.leafTable q = upd s.leafTable k (some v) q := by
    intro q
    have h1 : s7.leafTable q = s6.leafTable q := rfl
    rw [h1, hlf6]
    exact hlf5 q
  have hframe7 : ∀ q, (∀ mm, j ≤ mm → mm ≤ L → q ≠ k.take mm) → q ≠ k.take (L + 1) →
      q ≠ st.take (L + 1) → childHash s7 q = childHash s q := by
    intro q h1 h2 h3
    refine childHash_eq_of q (hchar q h1) (by rw [hsc7, upd_ne _ _ h3, upd_ne _ _ h2]) ?_
    intro st'' hqb hqc
    rw [hst7]
    have hne31 : st'' ≠ k.take 31 := by
      intro hcon
      subst hcon
      exact no_pointer_of_stem_absent hs habs q hqc
    rw [upd_ne _ _ hne31]
  have hmT7 : s7.branchTable (k.take (j + 1)) = some mT := by
    rw [hbr7 _ (htk _ _ (by omega) (by omega) (by omega))]
    exact hmT
  have hch7V : childHash s7 (k.take (j + 1)) = h6 := by
    rw [childHash_of_branch hmT7, hmTh]
  have hchOld : childHash s (k.take (j + 1)) = sm.hash_stem_commitment :=
    childHash_of_stem hnone hsc hsm
  have hch7j : childHash s7 (k.take j) = tm.hash_commitment := childHash_of_branch hbr7j
  have hchSj : childHash s (k.take j) = pm.hash_commitment := childHash_of_branch hpm
  have hsStNone : s.branchTable (st.take (L + 1)) = none := by
    refine hbelow_none _ ?_
    unfold Pre
    rw [take_len (by omega)]
    exact hstL1k
  have hkjlt : k.getD j 0 < 256 := getD_lt_of_bytes hkb (by omega)
  have hconsTop : tm.commitment = specBranchComm c s7 (k.take j) := by
    obtain ⟨hpmh, hpmc⟩ := hcons (k.take j) pm hpm (by simp)
    have hoth : ∀ i', i' < 256 → i' ≠ k.getD j 0 →
        childHash s7 (k.take j ++ [i']) = childHash s (k.take j ++ [i']) := by
      intro i' hi' hine
      refine hframe7 _ ?_ ?_ ?_
      · intro mm hm1 hm2 hcon
        have h0 := congrArg List.length hcon
        simp only [List.length_append, List.length_singleton] at h0
        rw [take_len (by omega), take_len (by omega)] at h0
        have hmm : mm = j + 1 := by omega
        subst hmm
        exact hine (snoc_eq_take (by omega) hcon).2
      · intro hcon
        have h0 := congrArg List.length hcon
        simp only [List.length_append, List.length_singleton] at h0
        rw [take_len (by omega), take_len (by omega)] at h0
        omega
      · intro hcon
        have h0 := congrArg List.length hcon
        simp only [List.length_append, List.length_singleton] at h0
        rw [take_len (by omega), take_len (by omega)] at h0
        omega
    have hdelta := specBranchComm_delta c (k.take j) hkjlt hoth
    rw [htmdef]
    show tc = _
    rw [hdelta, take_append_getD (by omega) 0, hch7V, hchOld, ← hpmc, htcdef]
  have hmono7 : ∀ x, s.branchTable x ≠ none → s7.branchTable x ≠ none := by
    intro x hx
    by_cases hchain : ∀ mm, j ≤ mm → mm ≤ L → x ≠ k.take mm
    · rw [hchar x hchain]
      exact hx
    · push_neg at hchain
      obtain ⟨mm, hm1, hm2, rfl⟩ := hchain
      exact hsome7 mm hm1 hm2
  have hsmono7 : ∀ x, s.stemTable x ≠ none → s7.stemTable x ≠ none := by
    intro x hx
    rw [hst7]
    exact upd_some_ne_none _ _ _ _ hx
  refine ⟨s7, hexec, ?_, ?_, ?_, ?_, ?_⟩
  · -- StInv s7
    refine ⟨?_, ?_, ?_, ?_, ?_, ?_, ?_⟩
    · exact hmono7 [] hs.root
    · intro p q hp hpre
      by_cases hchain : ∀ mm, j ≤ mm → mm ≤ L → p ≠ k.take mm
      · rw [hchar p hchain] at hp
        exact hmono7 q (hs.branchClosed p q hp hpre)
      · push_neg at hchain
        obtain ⟨mm, hm1, hm2, rfl⟩ := hchain
        obtain ⟨hq1, hq2⟩ := Pre_take_eq hpre
        rw [hq1]
        by_cases hql : j ≤ q.length
        · exact hsome7 q.length hql (by omega)
        · exact hmono7 _ (hwalk q.length (by omega))
    · intro p hp
      by_cases hchain : ∀ mm, j ≤ mm → mm ≤ L → p ≠ k.take mm
      · rw [hchar p hchain] at hp
        exact hs.branchLen p hp
      · push_neg at hchain
        obtain ⟨mm, hm1, hm2, rfl⟩ := hchain
        rw [take_len (by omega)]
        omega
    · intro p hp
      by_cases hchain : ∀ mm, j ≤ mm → mm ≤ L → p ≠ k.take mm
      · rw [hchar p hchain] at hp
        exact hs.branchBytes p hp
      · push_neg at hchain
        obtain ⟨mm, hm1, hm2, rfl⟩ := hchain
        intro b hb
        exact hkb b (mem_take hb)
    · intro q st'' hq
      rw [hsc7] at hq
      by_cases hqSt : q = st.take (L + 1)
      · subst hqSt
        rw [upd_self] at hq
        obtain rfl : st'' = st := (Option.some.inj hq).symm
        refine ⟨?_, Pre_take st'' (L + 1), hstlen, hstb, ?_, ?_⟩
        · intro hcon
          have h0 := congrArg List.length hcon
          rw [take_len (by omega)] at h0
          simp at h0
        · rw [dropLast_take (by omega), show L + 1 - 1 = L by omega, hstk]
          exact hsome7 L (by omega) (le_refl L)
        · rw [hst7, upd_ne _ _ hstne, hsm]
          simp
      · rw [upd_ne _ _ hqSt] at hq
        by_cases hqK : q = k.take (L + 1)
        · subst hqK
          rw [upd_self] at hq
          obtain rfl : st'' = k.take 31 := (Option.some.inj hq).symm
          refine ⟨?_, Pre_take_take k (by omega), take_len (by omega), ?_, ?_, ?_⟩
          · intro hcon
            have h0 := congrArg List.length hcon
            rw [take_len (by omega)] at h0
            simp at h0
          · intro b hb
            exact hkb b (mem_take hb)
          · rw [dropLast_take (by omega), show L + 1 - 1 = L by omega]
            exact hsome7 L (by omega) (le_refl L)
          · rw [hst7, upd_self]
            simp
        · rw [upd_ne _ _ hqK] at hq
          obtain ⟨h1, h2, h3, h4, h5, h6'⟩ := hs.stemChildOK q st'' hq
          exact ⟨h1, h2, h3, h4, hmono7 _ h5, hsmono7 _ h6'⟩
    · intro st'' hst''
      by_cases hstK : st'' = k.take 31
      · subst hstK
        refine ⟨take_len (by omega), fun b hb => hkb b (mem_take hb), k.take (L + 1),
          Pre_take_take k (by omega), ?_, ?_⟩
        · rw [hsc7, upd_ne _ _ hkL1_ne_stL1, upd_self]
        · rw [hchar _ (fun mm hm1 hm2 => htk _ _ (by omega) (by omega) (by omega))]
          exact hbelow_none _ (hpre_km (L + 1) (by omega) (by omega))
      · by_cases hstSt : st'' = st
        · subst hstSt
          refine ⟨hstlen, hstb, st''.take (L + 1), Pre_take st'' (L + 1), ?_, ?_⟩
          · rw [hsc7, upd_self]
          · by_cases hchain : ∀ mm, j ≤ mm → mm ≤ L → st''.take (L + 1) ≠ k.take mm
            · rw [hchar _ hchain]
              exact hsStNone
            · push_neg at hchain
              obtain ⟨mm, hm1, hm2, hpe⟩ := hchain
              exfalso
              have h0 := congrArg List.length hpe
              rw [take_len (by omega), take_len (by omega)] at h0
              omega
        · rw [hst7, upd_ne _ _ hstK] at hst''
          obtain ⟨h1, h2, q, h3, h4, h5⟩ := hs.stemAttached st'' hst''
          refine ⟨h1, h2, q, h3, ?_, ?_⟩
          · rw [hsc7]
            have hq1 : q ≠ st.take (L + 1) := by
              intro hcon
              subst hcon
              have hdl := (hs.stemChildOK _ _ h4).2.2.2.2.1
              rw [dropLast_take (by omega), show L + 1 - 1 = L by omega, hstk] at hdl
              exact hdl (hbelow_none _ (hpre_km L (by omega) (by omega)))
            have hq2 : q ≠ k.take (L + 1) := by
              intro hcon
              subst hcon
              have hdl := (hs.stemChildOK _ _ h4).2.2.2.2.1
              rw [dropLast_take (by omega), show L + 1 - 1 = L by omega] at hdl
              exact hdl (hbelow_none _ (hpre_km L (by omega) (by omega)))
            rw [upd_ne _ _ hq1, upd_ne _ _ hq2]
            exact h4
          · by_cases hchain : ∀ mm, j ≤ mm → mm ≤ L → q ≠ k.take mm
            · rw [hchar _ hchain]
              exact h5
            · push_neg at hchain
              obtain ⟨mm, hm1, hm2, rfl⟩ := hchain
              exfalso
              by_cases hmj : mm = j
              · subst hmj
                rw [hpm] at h5
                exact Option.noConfusion h5
              · have hdl := (hs.stemChildOK _ _ h4).2.2.2.2.1
                rw [dropLast_take (by omega)] at hdl
                by_cases hmj1 : mm - 1 = j
                · have hmm : mm = j + 1 := by omega
                  rw [hmm, hsc] at h4
                  exact hstSt (Option.some.inj h4).symm
                · exact hdl (hbelow_none _ (hpre_km (mm - 1) (by omega) (by omega)))
    · intro k' v' hk'
      rw [hlf7] at hk'
      by_cases hkk : k' = k
      · subst hkk
        rw [upd_self] at hk'
        obtain rfl : v' = v := (Option.some.inj hk').symm
        refine ⟨hk32, hkb, hv, ?_⟩
        rw [hst7, upd_self]
        simp
      · rw [upd_ne _ _ hkk] at hk'
        obtain ⟨h1, h2, h3, h4⟩ := hs.leafOK k' v' hk'
        exact ⟨h1, h2, h3, hsmono7 _ h4⟩
  · -- untouched walk prefixes
    intro t' ht'
    exact hchar _ (fun mm hm1 hm2 => htk _ _ (by omega) (by omega) (by omega))
  · -- parent present
    rw [hbr7j]
    simp
  · -- consistency outside the grandparent
    intro p m hp hEp
    by_cases hpj : p = k.take j
    · subst hpj
      rw [hbr7j] at hp
      have hmeq : m = tm := (Option.some.inj hp).symm
      constructor
      · rw [hmeq, htmdef]
      · rw [hmeq]
        exact hconsTop
    · rw [hbr7 _ hpj] at hp
      by_cases hpmid : ∀ mm, j + 1 ≤ mm → mm ≤ L → p ≠ k.take mm
      · have hps : s.branchTable p = some m := by
          rw [← hbr6 p hpmid]
          exact hp
        obtain ⟨hmh, hmc⟩ := hcons p m hps (by simp)
        refine ⟨hmh, ?_⟩
        rw [hmc]
        refine specBranchComm_congr c p ?_
        intro i hi
        refine (hframe7 _ ?_ ?_ ?_).symm
        · intro mm hm1 hm2 hcon
          by_cases hmj : mm = j
          · rw [hmj] at hcon
            cases Nat.eq_zero_or_pos j with
            | inl hj0 =>
              rw [hj0] at hcon
              simp at hcon
            | inr hjpos =>
              have hcon' : p ++ [i] = k.take (j - 1 + 1) := by
                rw [show j - 1 + 1 = j by omega]
                exact hcon
              obtain ⟨hp1, -⟩ := snoc_eq_take (by omega) hcon'
              exact hEp ⟨hjpos, hp1⟩
          · have hcon' : p ++ [i] = k.take (mm - 1 + 1) := by
              rw [show mm - 1 + 1 = mm by omega]
              exact hcon
            obtain ⟨hp1, -⟩ := snoc_eq_take (by omega) hcon'
            by_cases hx : mm - 1 = j
            · rw [hx] at hp1
              exact hpj hp1
            · subst hp1
              rw [hbelow_none _ (hpre_km (mm - 1) (by omega) (by omega))] at hps
              exact Option.noConfusion hps
        · intro hcon
          rw [← hsnocL] at hcon
          obtain ⟨hp1, -⟩ := List.append_inj hcon (by
            have h0 := congrArg List.length hcon
            simp only [List.length_append, List.length_singleton] at h0
            omega)
          subst hp1
          rw [hbelow_none _ (hpre_km L (by omega) (by omega))] at hps
          exact Option.noConfusion hps
        · intro hcon
          rw [← hsnocSt] at hcon
          obtain ⟨hp1, -⟩ := List.append_inj hcon (by
            have h0 := congrArg List.length hcon
            simp only [List.length_append, List.length_singleton] at h0
            omega)
          subst hp1
          rw [hbelow_none _ (hpre_km L (by omega) (by omega))] at hps
          exact Option.noConfusion hps
      · push_neg at hpmid
        obtain ⟨mm, hm1, hm2, rfl⟩ := hpmid
        obtain ⟨hmh, hmc⟩ := hcons6 (k.take mm) m hp
          (htk _ _ (by omega) (by omega) (by omega))
        refine ⟨hmh, ?_⟩
        rw [hmc]
        refine specBranchComm_congr c (k.take mm) ?_
        intro i hi
        have hq : k.take mm ++ [i] ≠ k.take j := by
          intro hcon
          have h0 := congrArg List.length hcon
          simp only [List.length_append, List.length_singleton] at h0
          rw [take_len (by omega), take_len (by omega)] at h0
          omega
        exact (childHash_insertBranch_ne s6 (k.take j) tm (j + 1) hq).symm
  · -- staleness of the grandparent
    intro hjpos
    have h0 : j - 1 + 1 = j := by omega
    obtain ⟨m0, hm0⟩ := Option.ne_none_iff_exists'.mp (hwalk (j - 1) (by omega))
    obtain ⟨hm0h, hm0c⟩ := hcons (k.take (j - 1)) m0 hm0 (by simp)
    have hm07 : s7.branchTable (k.take (j - 1)) = some m0 := by
      rw [hchar _ (fun mm hm1 hm2 => htk _ _ (by omega) (by omega) (by omega))]
      exact hm0
    refine ⟨m0, hm07, hm0h, ?_⟩
    have hsnoc' : k.take (j - 1) ++ [k.getD (j - 1) 0] = k.take j := by
      have h1 := take_append_getD (k := k) (j := j - 1) (by omega) 0
      rw [h0] at h1
      exact h1
    have hold : oldWalkHash s k (j - 1) = pm.hash_commitment := by
      unfold oldWalkHash
      rw [h0, hpm]
    have hoth2 : ∀ i', i' < 256 → i' ≠ k.getD (j - 1) 0 →
        childHash s7 (k.take (j - 1) ++ [i']) = childHash s (k.take (j - 1) ++ [i']) := by
      intro i' hi' hine
      refine hframe7 _ ?_ ?_ ?_
      · intro mm hm1 hm2 hcon
        have hlen := congrArg List.length hcon
        simp only [List.length_append, List.length_singleton] at hlen
        rw [take_len (by omega), take_len (by omega)] at hlen
        have hmm : mm = j := by omega
        rw [hmm] at hcon
        have hcon' : k.take (j - 1) ++ [i'] = k.take (j - 1 + 1) := by
          rw [h0]
          exact hcon
        exact hine (snoc_eq_take (by omega) hcon').2
      · intro hcon
        have hlen := congrArg List.length hcon
        simp only [List.length_append, List.length_singleton] at hlen
        rw [take_len (by omega), take_len (by omega)] at hlen
        omega
      · intro hcon
        have hlen := congrArg List.length hcon
        simp only [List.length_append, List.length_singleton] at hlen
        rw [take_len (by omega), take_len (by omega)] at hlen
        omega
    have hdelta := specBranchComm_delta c (k.take (j - 1))
      (getD_lt_of_bytes hkb (by omega)) hoth2
    rw [hsnoc', hch7j, hold, hdelta, hsnoc', hch7j, hchSj, ← hm0c]

end ExecChain

section InsertSpec

variable {F : Type} [CommRing F] {G : Type} [AddCommGroup G] [Module F G]

/-- The planner's fall-through segment contains no `ChainInsert`. -/
theorem ftSeg_no_chain (s : Store F G) (k : List ℕ) :
    ∀ t a sd path parent ci oli nk nv2 nli,
      Ins.chainInsert sd path parent ci oli nk nv2 nli ∉ ftSeg s k a t := by
  intro t
  induction t with
  | zero =>
    intro a sd path parent ci oli nk nv2 nli h
    simp only [ftSeg] at h
    exact absurd h (List.not_mem_nil _)
  | succ t ih =>
    intro a sd path parent ci oli nk nv2 nli h
    simp only [ftSeg, List.mem_cons] at h
    rcases h with h1 | h2
    · exact Ins.noConfusion h1
    · exact ih (a + 1) sd path parent ci oli nk nv2 nli h2

/-- If the key's stem is stored while the walk dead-ends at level `j + 1`,
the stem-child entry found there is exactly the key's own stem. -/
theorem stem_pointer_at_walk {s : Store F G} (hs : StInv s) {k : List ℕ}
    (hk : k.length = 32) {j : ℕ} (hj : j ≤ 30)
    (hwalk : ∀ t, t ≤ j → s.branchTable (k.take t) ≠ none)
    (hnone : s.branchTable (k.take (j + 1)) = none)
    (hstem : s.stemTable (k.take 31) ≠ none) :
    s.stemChildTable (k.take (j + 1)) = some (k.take 31) := by
  obtain ⟨hlen31, hbytes, q, hq, hqsc, hqnone⟩ := hs.stemAttached _ hstem
  obtain ⟨hq1, hq2⟩ := Pre_take_eq hq
  rcases Nat.lt_or_ge q.length (j + 1) with hlt | hge
  · exact absurd (by rw [← hq1]; exact hqnone) (hwalk q.length (by omega))
  rcases Nat.eq_or_lt_of_le hge with heq | hgt
  · have hq3 : q = k.take (j + 1) := by rw [hq1, ← heq]
    rw [← hq3]
    exact hqsc
  · have hdrop := (hs.stemChildOK _ _ hqsc).2.2.2.2.1
    rw [hq1, dropLast_take (by omega)] at hdrop
    exact absurd (branch_take_none hs hnone (t := q.length - 1) (by omega)) hdrop

/-- Master specification of `Trie::insert` on an invariant-satisfying
store: planning succeeds, every planned `ChainInsert` carries a nonempty
relative path, execution succeeds, and the resulting store satisfies the
structural invariant and full commitment consistency again. -/
theorem insert_spec (c : Ctx F G) {s : Store F G} (hs : StInv s)
    (hcons : Consist c s (fun _ => False)) {k v : List ℕ} (hk : KeyOK k) (hv : ValOK v) :
    ∃ l s', createInsertInstructions s k v = some l ∧
      (∀ sd path parent ci oli nk nv2 nli,
        Ins.chainInsert sd path parent ci oli nk nv2 nli ∈ l → path ≠ []) ∧
      processInstructions c s l = some s' ∧
      insert c s k v = some s' ∧ StInv s' ∧ Consist c s' (fun _ => False) := by
  obtain ⟨hk32, hkb⟩ := hk
  obtain ⟨j, hj, hwalk, hnone, hcase⟩ := plan_spec hs ⟨hk32, hkb⟩ v
  rcases hcase with ⟨hsc, hplan⟩ | ⟨hsc, hcase2⟩ |
    ⟨st, L, hsc, hstne, hstlen, hstb, hjL, hL, hstk, hbne, hplan⟩
  · -- the walk found an empty slot: a fresh leaf is planted
    have habs : s.stemTable (k.take 31) = none := by
      refine stem_absent hs hk32 hwalk hnone ?_
      intro st' hst'
      rw [hsc] at hst'
      exact absurd hst' (by simp)
    have hneq : s.leafTable k ≠ some v := by
      intro hcon
      exact (hs.leafOK k v hcon).2.2.2 habs
    obtain ⟨s1, hstep, hs1, hB, hC, hD, hE⟩ :=
      exec_updateLeaf_spec c hs hcons ⟨hk32, hkb⟩ hv hj hwalk hnone (Or.inl hsc) hneq (j + 1)
    obtain ⟨s'', hrun, hs'', hcons''⟩ :=
      ladder c hk32 hkb j (by omega) s1 hs1
        (fun t' ht' => ⟨hB t' ht', hwalk t' (by omega)⟩) hC hD hE
    have hproc : processInstructions c s
        (ftSeg s k 0 j ++ [Ins.updateLeaf k v (j + 1) (k.take j) (k.getD j 0)]) = some s'' := by
      unfold processInstructions
      rw [List.reverse_append, List.reverse_singleton, List.singleton_append, hstep]
      exact hrun
    refine ⟨_, s'', hplan, ?_, hproc, ?_, hs'', hcons''⟩
    · intro sd path parent ci oli nk nv2 nli hmem
      rcases List.mem_append.mp hmem with h1 | h2
      · exact absurd h1 (ftSeg_no_chain s k j 0 sd path parent ci oli nk nv2 nli)
      · rw [List.mem_singleton] at h2
        exact Ins.noConfusion h2
    · unfold insert
      rw [hplan]
      simp only [Option.bind_eq_bind, Option.some_bind]
      exact hproc
  · -- the walk found the key's own stem
    rcases hcase2 with ⟨hval, hplan⟩ | ⟨hval, hplan⟩
    · -- the stored (or default) value equals the new value: no instructions
      refine ⟨[], s, hplan, ?_, rfl, ?_, hs, hcons⟩
      · intro sd path parent ci oli nk nv2 nli hmem
        exact absurd hmem (List.not_mem_nil _)
      · unfold insert
        rw [hplan]
        rfl
    · -- a genuine update under the existing stem
      have hneq : s.leafTable k ≠ some v := by
        intro hcon
        rw [hcon] at hval
        simp at hval
      obtain ⟨s1, hstep, hs1, hB, hC, hD, hE⟩ :=
        exec_updateLeaf_spec c hs hcons ⟨hk32, hkb⟩ hv hj hwalk hnone (Or.inr hsc) hneq (j + 1)
      obtain ⟨s'', hrun, hs'', hcons''⟩ :=
        ladder c hk32 hkb j (by omega) s1 hs1
          (fun t' ht' => ⟨hB t' ht', hwalk t' (by omega)⟩) hC hD hE
      have hproc : processInstructions c s
          (ftSeg s k 0 j ++ [Ins.updateLeaf k v (j + 1) (k.take j) (k.getD j 0)]) = some s'' := by
        unfold processInstructions
        rw [List.reverse_append, List.reverse_singleton, List.singleton_append, hstep]
        exact hrun
      refine ⟨_, s'', hplan, ?_, hproc, ?_, hs'', hcons''⟩
      · intro sd path parent ci oli nk nv2 nli hmem
        rcases List.mem_append.mp hmem with h1 | h2
        · exact absurd h1 (ftSeg_no_chain s k j 0 sd path parent ci oli nk nv2 nli)
        · rw [List.mem_singleton] at h2
          exact Ins.noConfusion h2
      · unfold insert
        rw [hplan]
        simp only [Option.bind_eq_bind, Option.some_bind]
        exact hproc
  · -- the walk found a foreign stem: chain insert
    obtain ⟨s1, hexec, hs1, hB, hC, hD, hE⟩ :=
      exec_chain_spec c hs hcons ⟨hk32, hkb⟩ hv hj hjL hL hstlen hstb hstk hbne hstne
        hwalk hnone hsc
    have hstep : ∀ rest, processRev c s
        (Ins.chainInsert (j + 1) ((k.take L).drop j) (k.take j) (k.getD j 0)
          (st.getD L 0) k v (k.getD L 0) :: rest) = processRev c s1 rest := by
      intro rest
      simp only [processRev]
      rw [hexec]
    obtain ⟨s'', hrun, hs'', hcons''⟩ :=
      ladder c hk32 hkb j (by omega) s1 hs1
        (fun t' ht' => ⟨hB t' ht', hwalk t' (by omega)⟩) hC hD hE
    have hpne : (k.take L).drop j ≠ [] := by
      intro hcon
      have h0 := congrArg List.length hcon
      simp only [List.length_drop, List.length_nil] at h0
      rw [take_len (by omega)] at h0
      omega
    have hproc : processInstructions c s
        (ftSeg s k 0 j ++ [Ins.chainInsert (j + 1) ((k.take L).drop j) (k.take j)
          (k.getD j 0) (st.getD L 0) k v (k.getD L 0)]) = some s'' := by
      unfold processInstructions
      rw [List.reverse_append, List.reverse_singleton, List.singleton_append, hstep]
      exact hrun
    refine ⟨_, s'', hplan, ?_, hproc, ?_, hs'', hcons''⟩
    · intro sd path parent ci oli nk nv2 nli hmem
      rcases List.mem_append.mp hmem with h1 | h2
      · exact absurd h1 (ftSeg_no_chain s k j 0 sd path parent ci oli nk nv2 nli)
      · rw [List.mem_singleton] at h2
        injection h2 with e1 e2 e3 e4 e5 e6 e7 e8
        rw [e2]
        exact hpne
    · unfold insert
      rw [hplan]
      simp only [Option.bind_eq_bind, Option.some_bind]
      exact hproc

/-- The freshly created trie satisfies the full invariant, provided
`group_to_field` maps the zero group element to the zero scalar (the
property forced by the in-repo tests `empty_trie` and
`insert_key0value0`). -/
theorem Inv_emptyTrie (c : Ctx F G) (hg : c.gtf 0 = 0) :
    StInv (emptyTrie : Store F G) ∧ Consist c (emptyTrie : Store F G) (fun _ => False) := by
  have hbm : ∀ q : List ℕ, (emptyTrie : Store F G).branchTable q =
      if q = [] then some BranchMeta.zero else none := fun _ => rfl
  have hscm : ∀ q : List ℕ, (emptyTrie : Store F G).stemChildTable q = none := fun _ => rfl
  have hstm : ∀ q : List ℕ, (emptyTrie : Store F G).stemTable q = none := fun _ => rfl
  have hlfm : ∀ q : List ℕ, (emptyTrie : Store F G).leafTable q = none := fun _ => rfl
  constructor
  · refine ⟨?_, ?_, ?_, ?_, ?_, ?_, ?_⟩
    · rw [hbm]
      simp
    · intro p q hp hpre
      by_cases hpe : p = []
      · subst hpe
        have hqe : q = [] := by
          have h0 : Pre q [] := hpre
          unfold Pre at h0
          simpa using h0.symm
        subst hqe
        exact hp
      · rw [hbm, if_neg hpe] at hp
        exact absurd rfl hp
    · intro p hp
      by_cases hpe : p = []
      · subst hpe
        simp
      · rw [hbm, if_neg hpe] at hp
        exact absurd rfl hp
    · intro p hp
      by_cases hpe : p = []
      · subst hpe
        intro b hb
        exact absurd hb (List.not_mem_nil _)
      · rw [hbm, if_neg hpe] at hp
        exact absurd rfl hp
    · intro q st hq
      rw [hscm] at hq
      exact Option.noConfusion hq
    · intro st hst
      exact absurd (hstm st) hst
    · intro k v hk
      rw [hlfm] at hk
      exact Option.noConfusion hk
  · intro p m hp hne
    by_cases hpe : p = []
    · subst hpe
      rw [hbm, if_pos rfl] at hp
      obtain rfl : m = BranchMeta.zero := (Option.some.inj hp).symm
      constructor
      · exact hg.symm
      · show (0 : G) = specBranchComm c (emptyTrie : Store F G) []
        symm
        unfold specBranchComm
        refine Finset.sum_eq_zero ?_
        intro i hi
        have hce : childHash (emptyTrie : Store F G) (([] : List ℕ) ++ [i]) = 0 := by
          refine childHash_of_empty ?_ (hscm _)
          rw [hbm]
          simp
        rw [hce]
        simp [scalarMul]
    · rw [hbm, if_neg hpe] at hp
      exact Option.noConfusion hp

/-- Every state reachable by well-formed inserts satisfies the structural
invariant and full commitment consistency. -/
theorem reachable_inv (c : Ctx F G) (hg : c.gtf 0 = 0) {s : Store F G}
    (hr : Reachable c s) : StInv s ∧ Consist c s (fun _ => False) := by
  induction hr with
  | base => exact Inv_emptyTrie c hg
  | step hr0 hk0 hv0 hins0 ih =>
    obtain ⟨hsI, hsC⟩ := ih
    obtain ⟨l, s2, -, -, -, hins2, hs2, hcons2⟩ := insert_spec c hsI hsC hk0 hv0
    rw [hins0] at hins2
    obtain rfl := Option.some.inj hins2
    exact ⟨hs2, hcons2⟩

end InsertSpec

section FinalClaims

variable {F : Type} [CommRing F] {G : Type} [AddCommGroup G] [Module F G]

/-- C3: on every trie state reachable from the empty trie by `insert`
calls, every stored branch `B` satisfies
`B.hash_commitment = group_to_field(B.commitment)` and `B.commitment`
equals the from-scratch recomputation `Σᵢ Gᵢ · hash_of_child(i)` where the
child hash is `0` for an empty slot, the stem's `hash_stem_commitment` if
the slot holds a stem, and the child branch's `hash_commitment` if it
holds a branch (spec.md I2/P3). -/
theorem C3_branch_commitment_invariant (c : Ctx F G) (hg : c.gtf 0 = 0)
    {s : Store F G} (hr : Reachable c s) :
    ∀ p m, s.branchTable p = some m →
      m.hash_commitment = c.gtf m.commitment ∧
      m.commitment = specBranchComm c s p := by
  intro p m hp
  exact (reachable_inv c hg hr).2 p m hp not_false

/-- Witness for C3 at the empty trie's root branch. -/
theorem C3_witness :
    (BranchMeta.zero : BranchMeta Frb Frb).hash_commitment =
      ctxB.gtf (BranchMeta.zero : BranchMeta Frb Frb).commitment ∧
    (BranchMeta.zero : BranchMeta Frb Frb).commitment =
      specBranchComm ctxB (emptyTrie : Store Frb Frb) [] :=
  C3_branch_commitment_invariant ctxB rfl Reachable.base [] BranchMeta.zero rfl

/-- C6: on every reachable trie state, re-inserting the value currently
stored at a key is a complete no-op: the planner emits no instructions
and `insert` returns the very same store (hence every table and
`compute_root()` are unchanged). -/
theorem C6_insert_stored_value_is_noop (c : Ctx F G) (hg : c.gtf 0 = 0)
    {s : Store F G} (hr : Reachable c s) {k v : List ℕ}
    (hstored : s.leafTable k = some v) :
    createInsertInstructions s k v = some [] ∧ insert c s k v = some s := by
  obtain ⟨hs, hcons⟩ := reachable_inv c hg hr
  obtain ⟨hk32, hkb, hv32, hstem⟩ := hs.leafOK k v hstored
  obtain ⟨j, hj, hwalk, hnone, hcase⟩ := plan_spec hs ⟨hk32, hkb⟩ v
  have hscp : s.stemChildTable (k.take (j + 1)) = some (k.take 31) :=
    stem_pointer_at_walk hs hk32 hj hwalk hnone hstem
  have hplan : createInsertInstructions s k v = some [] := by
    rcases hcase with ⟨hsc, -⟩ | ⟨-, hcase2⟩ | ⟨st, L, hsc, hstne, -⟩
    · rw [hscp] at hsc
      exact Option.noConfusion hsc
    · rcases hcase2 with ⟨-, hpl⟩ | ⟨hval, -⟩
      · exact hpl
      · rw [hstored] at hval
        simp at hval
    · rw [hscp] at hsc
      exact absurd (Option.some.inj hsc) (Ne.symm hstne)
  refine ⟨hplan, ?_⟩
  unfold insert
  rw [hplan]
  rfl

/-- Witness for C6: after inserting `01 0..0` at the zero key, re-inserting
the same value plans nothing and returns the same store. -/
theorem C6_witness :
    createInsertInstructions c6Store keyZero valOne = some [] ∧
    insert ctxB c6Store keyZero valOne = some c6Store :=
  C6_insert_stored_value_is_noop ctxB rfl
    (Reachable.step Reachable.base (show KeyOK keyZero from ⟨by decide, by decide⟩)
      (show ValOK valOne from by unfold ValOK valOne; decide) rfl) rfl

/-- C10: on every reachable trie state and well-formed key and value,
planning succeeds, every emitted `ChainInsert` carries a nonempty relative
path, and execution succeeds — i.e. the embedded
`assert!(chain_insert_path.len() > 0)` and
`assert!(relative_paths.len() > 0)` (both modelled as `none` results)
never fire during `insert`. -/
theorem C10_chain_insert_assertions_hold (c : Ctx F G) (hg : c.gtf 0 = 0)
    {s : Store F G} (hr : Reachable c s) {k v : List ℕ} (hk : KeyOK k) (hv : ValOK v) :
    ∃ l s', createInsertInstructions s k v = some l ∧
      (∀ sd path parent ci oli nk nv2 nli,
        Ins.chainInsert sd path parent ci oli nk nv2 nli ∈ l → path ≠ []) ∧
      processInstructions c s l = some s' := by
  obtain ⟨hs, hcons⟩ := reachable_inv c hg hr
  obtain ⟨l, s', h1, h2, h3, -, -, -⟩ := insert_spec c hs hcons hk hv
  exact ⟨l, s', h1, h2, h3⟩

/-- Witness for C10 at the empty trie with the zero key. -/
theorem C10_witness :
    ∃ l s', createInsertInstructions (emptyTrie : Store Frb Frb) keyZero valOne = some l ∧
      (∀ sd path parent ci oli nk nv2 nli,
        Ins.chainInsert sd path parent ci oli nk nv2 nli ∈ l → path ≠ []) ∧
      processInstructions ctxB emptyTrie l = some s' :=
  C10_chain_insert_assertions_hold ctxB rfl Reachable.base
    (show KeyOK keyZero from ⟨by decide, by decide⟩) (show ValOK valOne from by unfold ValOK valOne; decide)

/-- C5 (evidence that the code contradicts the claim): inserting the two
distinct-key pairs `(zero key, 01 0..0)` and `(slot-1 key, 00..0)` in the
two orders yields different `compute_root()` values in the concrete
context.  When the slot-1 key's stem already exists, its all-zero value
is compared against the all-zero default for a missing leaf and the
insert is silently dropped; in the other order the same pair is stored
and contributes to the root. -/
theorem C5_root_depends_on_insertion_order :
    c5RunA.bind computeRoot ≠ c5RunB.bind computeRoot := by
  decide

/-- C7 (evidence that the code contradicts the claim): after inserting the
all-zero value at both keys of the zero stem (distinct keys), `get`
returns the stored value for the zero key but `none` for the slot-1 key,
whose insert was silently dropped by the planner's comparison against
the all-zero default value. -/
theorem C7_inserted_key_not_gettable :
    c7Run.map (fun s => (get s keyZero, get s keySlot1)) =
      some (some valZero, none) := by
  decide

end FinalClaims

end VT
